import Mathlib

/-!
Verification development for the storage layer of LightRAG
(file src/lightrag/storage.py).

The Python source is shallowly embedded: dictionaries become
insertion-ordered association lists, `networkx` graphs become a record of
an insertion-ordered node list and edge list, exceptions become
Option/Except results, and the external libraries the code calls
(`html.unescape`, `graspologic.utils.largest_connected_component`,
`networkx` primitives, `numpy.concatenate`, `asyncio.gather`) are modelled
by their documented observable behaviour on the data reaching them.
-/

namespace LightRAG

/-! ### Python-style lexicographic string comparison

Python compares `str` values lexicographically by Unicode code point.
We model it directly on the character lists underlying `String`. -/

def lexLt : List Char → List Char → Bool
  | [], [] => false
  | [], _ :: _ => true
  | _ :: _, [] => false
  | a :: as, b :: bs => if a < b then true else if b < a then false else lexLt as bs

/-- Python `s < t` on strings. -/
def pyStrLt (a b : String) : Bool := lexLt a.data b.data

/-! ### Python `sorted` (stable insertion sort)

Python's `sorted(xs, key=k)` is a stable ascending sort comparing keys
with `<`.  We model it as a left fold of a stable insertion: a new
element is inserted after all existing elements it is not strictly less
than, which preserves the relative order of key-equal elements. -/

def insertBy {α : Type} (lt : α → α → Bool) (x : α) : List α → List α
  | [] => [x]
  | y :: ys => if lt x y then x :: y :: ys else y :: insertBy lt x ys

def sortBy {α : Type} (lt : α → α → Bool) (l : List α) : List α :=
  l.foldl (fun acc x => insertBy lt x acc) []

/-- The order produced by `sortBy`: `a` precedes `b` only when `b` is not
strictly below `a`. -/
def sortedLe {α : Type} (lt : α → α → Bool) (a b : α) : Prop := lt b a = false

/-! ### Batch slicing

`[contents[i : i + B] for i in range(0, len(contents), B)]` from the
vector-store upsert implementations. -/

def chunksGo {α : Type} (B : Nat) : Nat → List α → List (List α)
  | _, [] => []
  | 0, _ :: _ => []
  | fuel + 1, x :: xs => (x :: xs).take B :: chunksGo B fuel ((x :: xs).drop B)

/-- `[l[i : i + B] for i in range(0, len(l), B)]`.  Written with fuel
(one slice consumes at least one element when `B ≠ 0`, so fuel equal to
the length never runs out); every use site guards `B ≠ 0`, matching
`range`, which raises `ValueError` on step `0`. -/
def chunks {α : Type} (B : Nat) (l : List α) : List (List α) :=
  chunksGo B l.length l

/-! ### Python dictionaries as insertion-ordered association lists

`d.update(other)` overwrites values of existing keys in place (keeping
their position) and appends new keys in `other`'s order. -/

abbrev Props := List (String × String)

def dictSet (d : Props) (k v : String) : Props :=
  match d with
  | [] => [(k, v)]
  | (k', v') :: rest => if k' = k then (k', v) :: rest else (k', v') :: dictSet rest k v

def dictUpdate (d new : Props) : Props :=
  new.foldl (fun acc kv => dictSet acc kv.1 kv.2) d

/-! ### Python string helpers: `str.upper`, `str.strip`, `html.unescape`

`pyUpper` maps characters through ASCII uppercasing; Python's full
Unicode uppercasing agrees with it on every character appearing in this
development.  `pyStrip` removes Python's Unicode whitespace from both
ends.  `htmlUnescape` follows CPython's `html.unescape`: scan for `&`,
match a numeric or named character reference, and replace named
references using longest-prefix lookup in the HTML5 entity table. -/

def pyUpper (s : String) : String := String.mk (s.data.map Char.toUpper)

def pySpaceChars : List Char :=
  ['\t', '\n', '\x0b', '\x0c', '\r', '\x1c', '\x1d', '\x1e', '\x1f', ' ',
   '\x85', '\xa0', ' ', ' ', ' ', ' ', ' ', ' ',
   ' ', ' ', ' ', ' ', ' ', ' ', ' ',
   ' ', ' ', ' ', '　']

def isPySpace (c : Char) : Bool := pySpaceChars.contains c

def pyStrip (s : String) : String :=
  String.mk (((s.data.dropWhile isPySpace).reverse.dropWhile isPySpace).reverse)

/-- The fragment of Python's `html.entities.html5` table relevant to the
strings appearing in this development.  CPython consults the full HTML5
named-character-reference table; every lookup performed in this file
(including via the longest-prefix fallback) returns the same result it
would against the full table. -/
def html5Entities : List (String × String) :=
  [("amp;", "&"), ("amp", "&"), ("AMP;", "&"), ("AMP", "&"),
   ("lt;", "<"), ("lt", "<"), ("LT;", "<"), ("LT", "<"),
   ("gt;", ">"), ("gt", ">"), ("GT;", ">"), ("GT", ">"),
   ("quot;", "\""), ("quot", "\""), ("QUOT;", "\""), ("QUOT", "\""),
   ("apos;", "'"), ("nbsp;", "\xa0"), ("nbsp", "\xa0")]

/-- Characters allowed in a named reference by CPython's charref regex:
the class is the complement of tab, newline, formfeed, space, and
the four characters `<`, `&`, `#`, `;`. -/
def isNameChar (c : Char) : Bool :=
  !(c = '\t' || c = '\n' || c = '\x0c' || c = ' ' || c = '<' || c = '&' ||
    c = '#' || c = ';')

def lookupEntity (s : List Char) : Option String :=
  html5Entities.lookup (String.mk s)

/-- Longest-match lookup (CPython `_replace_charref`, named branch): try
the full matched text, then its prefixes down to length 2; return the
entity value together with the unmatched remainder of the match. -/
def entityFind (s : List Char) : Nat → Option (String × List Char)
  | 0 => none
  | 1 => none
  | Nat.succ m =>
    match lookupEntity (s.take (m + 1)) with
    | some v => some (v, s.drop (m + 1))
    | none => entityFind s m

def isHexDigit (c : Char) : Bool :=
  c.isDigit || ('a' ≤ c && c ≤ 'f') || ('A' ≤ c && c ≤ 'F')

def hexDigitVal (c : Char) : Nat :=
  if c.isDigit then c.toNat - '0'.toNat
  else if 'a' ≤ c then c.toNat - 'a'.toNat + 10
  else c.toNat - 'A'.toNat + 10

def digitsToNat (base : Nat) (ds : List Char) : Nat :=
  ds.foldl (fun acc c => acc * base + hexDigitVal c) 0

/-- CPython `_replace_charref` on a numeric reference value: surrogates
and out-of-range values become U+FFFD, otherwise the code point itself.
(The Windows-1252 remapping table `_invalid_charrefs` and the removed
control code points `_invalid_codepoints` are elided: no input in this
development produces a numeric reference reaching them.) -/
def numericToString (num : Nat) : String :=
  if 0xD800 ≤ num && num ≤ 0xDFFF then "�"
  else if 0x10FFFF < num then "�"
  else String.mk [Char.ofNat num]

def afterSemi (l : List Char) : List Char :=
  if l.head? = some ';' then l.tail else l

/-- Numeric branch: the regex alternatives `#[0-9]+;?` and
`#[xX][0-9a-fA-F]+;?`, applied to the text after `&#`. -/
def matchNumeric (rest : List Char) : Option (String × List Char) :=
  match rest with
  | [] => none
  | c :: rest2 =>
    if c = 'x' ∨ c = 'X' then
      let ds := rest2.takeWhile isHexDigit
      if ds.length = 0 then none
      else some (numericToString (digitsToNat 16 ds), afterSemi (rest2.drop ds.length))
    else
      let ds := rest.takeWhile Char.isDigit
      if ds.length = 0 then none
      else some (numericToString (digitsToNat 10 ds), afterSemi (rest.drop ds.length))

/-- Named branch: up to 32 name characters, an optional trailing `;`
included in the lookup text, resolved by longest-prefix lookup; an
unresolvable match is reproduced verbatim (prefixed by the `&`). -/
def matchName (s : List Char) : Option (String × List Char) :=
  let nm := (s.takeWhile isNameChar).take 32
  if nm.length = 0 then none
  else
    let after := s.drop nm.length
    let matched := if after.head? = some ';' then nm ++ [';'] else nm
    let after2 := afterSemi after
    match entityFind matched matched.length with
    | some (v, leftover) => some (v ++ String.mk leftover, after2)
    | none => some (String.mk ('&' :: matched), after2)

/-- Attempt to match a character reference at the text following a `&`
(CPython regex `&(#[0-9]+;?|#[xX][0-9a-fA-F]+;?|[^\t\n\f <&#;]{1,32};?)`
with `_replace_charref`).  Returns the replacement text and the
unconsumed remainder. -/
def matchCharref (s : List Char) : Option (String × List Char) :=
  match s with
  | '#' :: rest => matchNumeric rest
  | _ => matchName s

/-- The `&`-scanning loop of `html.unescape`, written with explicit fuel
so that it is kernel-computable.  Each successful match consumes at
least one character, so fuel equal to the input length never runs out
(`unescapeCharsFuel_irrel`). -/
def unescapeCharsFuel : Nat → List Char → List Char
  | 0, s => s
  | _, [] => []
  | fuel + 1, c :: rest =>
    if c = '&' then
      match matchCharref rest with
      | some (repl, rest') => repl.data ++ unescapeCharsFuel fuel rest'
      | none => '&' :: unescapeCharsFuel fuel rest
    else c :: unescapeCharsFuel fuel rest

/-- CPython `html.unescape`.  (The `if '&' not in s: return s` fast path
returns the input unchanged exactly when the scan finds nothing.) -/
def htmlUnescape (s : String) : String := String.mk (unescapeCharsFuel s.data.length s.data)

/-- The node-id mapping of `stable_largest_connected_component`:
`html.unescape(node.upper().strip())`. -/
def normalizeNodeId (node : String) : String := htmlUnescape (pyStrip (pyUpper node))

example : htmlUnescape "&amp;" = "&" := by decide
example : htmlUnescape "&apos;" = "'" := by decide
example : htmlUnescape "&APOS;" = "&APOS;" := by decide
example : htmlUnescape "&AMP;LT;" = "&LT;" := by decide
example : normalizeNodeId "&amp;lt;" = "&LT;" := by decide
example : normalizeNodeId " a " = "A" := by decide

/-! ### networkx property graphs

A graph is its insertion-ordered node list (with per-node attribute
dicts) and insertion-ordered edge list.  `directed` distinguishes
`nx.Graph` from `nx.DiGraph`. -/

structure NXGraph where
  directed : Bool
  nodes : List (String × Props)
  edges : List (String × String × Props)
deriving DecidableEq

def NXGraph.nodeIds (g : NXGraph) : List String := g.nodes.map Prod.fst

def NXGraph.hasNodeB (g : NXGraph) (id : String) : Bool := decide (id ∈ g.nodeIds)

/-- `G.add_node(n, **data)`: a new node is appended with its attributes;
an existing node keeps its position and has its attribute dict updated
per key. -/
def NXGraph.addNode (g : NXGraph) (id : String) (d : Props) : NXGraph :=
  if g.hasNodeB id then
    { g with nodes := g.nodes.map (fun nd => if nd.1 = id then (nd.1, dictUpdate nd.2 d) else nd) }
  else { g with nodes := g.nodes ++ [(id, d)] }

/-- Edge identity: the ordered pair `(u, v)` for directed graphs, the
unordered pair for undirected graphs. -/
def edgeMatches (directed : Bool) (u v : String) (e : String × String × Props) : Bool :=
  (e.1 == u && e.2.1 == v) || (!directed && e.1 == v && e.2.1 == u)

/-- `if u not in self._node: ... self._node[u] = {}` inside `add_edge`:
a missing endpoint is appended as a node with an empty attribute dict. -/
def NXGraph.ensureNode (g : NXGraph) (id : String) : NXGraph :=
  if g.hasNodeB id then g else { g with nodes := g.nodes ++ [(id, [])] }

/-- `G.add_edge(u, v, **data)`: missing endpoints are created with empty
attribute dicts; an existing edge keeps its stored orientation and
position and has its attribute dict updated per key; a new edge is
appended with orientation `(u, v)`. -/
def NXGraph.addEdge (g : NXGraph) (u v : String) (d : Props) : NXGraph :=
  let g2 := (g.ensureNode u).ensureNode v
  if g2.edges.any (edgeMatches g.directed u v) then
    let merged := g2.edges.map
      (fun e => if edgeMatches g.directed u v e then (e.1, e.2.1, dictUpdate e.2.2 d) else e)
    { g2 with edges := merged }
  else { g2 with edges := g2.edges ++ [(u, v, d)] }

def NXGraph.addNodesFrom (g : NXGraph) (l : List (String × Props)) : NXGraph :=
  l.foldl (fun g nd => g.addNode nd.1 nd.2) g

def NXGraph.addEdgesFrom (g : NXGraph) (l : List (String × String × Props)) : NXGraph :=
  l.foldl (fun g e => g.addEdge e.1 e.2.1 e.2.2) g

def emptyGraph (directed : Bool) : NXGraph := ⟨directed, [], []⟩

/-- The adjacency list `G.adj[u]` of a graph built by the stored edge
insertions: opposite endpoints of the edges incident to `u`, in edge
insertion order. -/
def incidentList (edges : List (String × String × Props)) (u : String) :
    List (String × Props) :=
  edges.filterMap (fun e =>
    if e.1 = u then some (e.2.1, e.2.2)
    else if e.2.1 = u then some (e.1, e.2.2) else none)

/-- `list(G.edges(data=True))` for an undirected graph: iterate nodes in
insertion order and, for each node, its adjacency in order, emitting an
edge unless the neighbour is an already-processed node. -/
def iterEdgesUGo (edges : List (String × String × Props)) :
    List String → List String → List (String × String × Props)
  | [], _ => []
  | u :: rest, seen =>
    ((incidentList edges u).filterMap
      (fun wd => if wd.1 ∈ seen then none else some (u, wd.1, wd.2)))
      ++ iterEdgesUGo edges rest (seen ++ [u])

/-- `list(G.edges(data=True))`: for a directed graph the out-edges
grouped by source in node order; for an undirected graph each edge once,
emitted at its first endpoint. -/
def NXGraph.iterEdges (g : NXGraph) : List (String × String × Props) :=
  if g.directed then g.nodeIds.flatMap (fun u => g.edges.filter (fun e => e.1 == u))
  else iterEdgesUGo g.edges g.nodeIds []

/-- Adjacency of the underlying undirected graph (for directed graphs
graspologic uses `nx.weakly_connected_components`, which also ignores
direction). -/
def NXGraph.adjacentB (g : NXGraph) (u v : String) : Bool :=
  g.edges.any (fun e => (e.1 == u && e.2.1 == v) || (e.1 == v && e.2.1 == u))

/-- One expansion step of the component search: the nodes already
collected or adjacent to a collected node, in node-insertion order. -/
def NXGraph.expand (g : NXGraph) (c : List String) : List String :=
  g.nodeIds.filter (fun v => decide (v ∈ c) || c.any (fun w => g.adjacentB w v))

def iterApply {α : Type} (f : α → α) : Nat → α → α
  | 0, x => x
  | n + 1, x => iterApply f n (f x)

/-- The connected component of `u` (the node set networkx's BFS search
finds), represented in node-insertion order. -/
def NXGraph.componentOf (g : NXGraph) (u : String) : List String :=
  iterApply g.expand g.nodes.length [u]

def componentsGo (g : NXGraph) : List String → List String → List (List String)
  | [], _ => []
  | u :: rest, seen =>
    if u ∈ seen then componentsGo g rest seen
    else g.componentOf u :: componentsGo g rest (seen ++ g.componentOf u)

/-- `nx.connected_components` / `nx.weakly_connected_components`:
one component per unvisited node, in node-insertion order. -/
def NXGraph.connectedComponents (g : NXGraph) : List (List String) :=
  componentsGo g g.nodeIds []

/-- One comparison step of Python `max(key=len)`: replace the current
best only on strictly greater length. -/
def pickStep (best x : List String) : List String :=
  if best.length < x.length then x else best

/-- Python `max(iterable, key=len)`: the first element of maximal
length; raises `ValueError` (here `none`) on an empty iterable. -/
def pickMaxByLen (l : List (List String)) : Option (List String) :=
  match l with
  | [] => none
  | c :: cs => some (cs.foldl pickStep c)

/-- `graph.subgraph(nodes).copy()`: nodes in original insertion order
restricted to the set; edges as emitted by the subgraph's edge view,
which is the full edge view filtered to edges inside the set. -/
def NXGraph.subgraphCopy (g : NXGraph) (c : List String) : NXGraph :=
  { directed := g.directed,
    nodes := g.nodes.filter (fun nd => decide (nd.1 ∈ c)),
    edges := g.iterEdges.filter (fun e => decide (e.1 ∈ c) && decide (e.2.1 ∈ c)) }

/-- `graspologic.utils.largest_connected_component` on a networkx graph:
`lcc_nodes = max(nx.connected_components(graph), key=len)` followed by
`graph.subgraph(lcc_nodes).copy()`. -/
def largest_connected_component (g : NXGraph) : Option NXGraph :=
  (pickMaxByLen g.connectedComponents).map (fun c => g.subgraphCopy c)

def dedupKeepFirstGo : List String → List String → List String
  | [], _ => []
  | x :: xs, seen =>
    if x ∈ seen then dedupKeepFirstGo xs seen
    else x :: dedupKeepFirstGo xs (seen ++ [x])

def dedupKeepFirst (l : List String) : List String := dedupKeepFirstGo l []

def setNodeData (nodes : List (String × Props)) (id : String) (d : Props) :
    List (String × Props) :=
  nodes.map (fun nd => if nd.1 = id then (nd.1, d) else nd)

/-- `nx.relabel_nodes(G, mapping)` with copy semantics (CPython
`_relabel_copy`): add the mapped ids in order (first occurrence fixes
the position), then replace each mapped node's attribute dict wholesale
in original node order (later originals win), then re-add every edge of
the edge view with mapped endpoints (edge attribute dicts merge per key,
first occurrence fixes orientation and position). -/
def relabel_nodes (g : NXGraph) (m : String → String) : NXGraph :=
  let base : NXGraph :=
    { directed := g.directed,
      nodes := g.nodes.foldl (fun acc nd => setNodeData acc (m nd.1) nd.2)
        ((dedupKeepFirst (g.nodeIds.map m)).map (fun i => (i, ([] : Props)))),
      edges := [] }
  base.addEdgesFrom (g.iterEdges.map (fun e => (m e.1, m e.2.1, e.2.2)))

/-- `f"{source} -> {target}"`. -/
def edgeKeyStr (source target : String) : String := source ++ " -> " ++ target

/-- `_sort_source_target`: swap the endpoints when `source > target`. -/
def sortSourceTarget (e : String × String × Props) : String × String × Props :=
  if pyStrLt e.2.1 e.1 then (e.2.1, e.1, e.2.2) else e

def nodeLt (a b : String × Props) : Bool := pyStrLt a.1 b.1

def edgeLt (a b : String × String × Props) : Bool :=
  pyStrLt (edgeKeyStr a.1 a.2.1) (edgeKeyStr b.1 b.2.1)

/-- `NetworkXStorage._stabilize_graph`. -/
def stabilize_graph (g : NXGraph) : NXGraph :=
  let fixed0 := emptyGraph g.directed
  let fixed1 := fixed0.addNodesFrom (sortBy nodeLt g.nodes)
  let edges0 := g.iterEdges
  let edges1 := if g.directed then edges0 else edges0.map sortSourceTarget
  fixed1.addEdgesFrom (sortBy edgeLt edges1)

/-- `NetworkXStorage.stable_largest_connected_component`: copy, largest
connected component, relabel through
`html.unescape(node.upper().strip())`, stabilize. -/
def stable_largest_connected_component (g : NXGraph) : Option NXGraph :=
  (largest_connected_component g).map
    (fun lcc => stabilize_graph (relabel_nodes lcc normalizeNodeId))

/-- `NetworkXStorage.has_node`. -/
def NetworkXStorage.has_node (g : NXGraph) (node_id : String) : Bool :=
  g.hasNodeB node_id

/-- `NetworkXStorage.upsert_node`. -/
def NetworkXStorage.upsert_node (g : NXGraph) (node_id : String) (node_data : Props) :
    NXGraph :=
  g.addNode node_id node_data

/-- `NetworkXStorage.upsert_edge`. -/
def NetworkXStorage.upsert_edge (g : NXGraph) (source_node_id target_node_id : String)
    (edge_data : Props) : NXGraph :=
  g.addEdge source_node_id target_node_id edge_data

/-! ### Key-value record stores

Records are JSON-like string-keyed mappings; as with attribute dicts we
model them as insertion-ordered association lists (values as strings —
their structure is irrelevant to the contracts verified here). -/

abbrev Record := List (String × String)

/-- `JsonKVStorage.upsert`: `left_data = {k: v for k, v in data.items()
if k not in self._data}; self._data.update(left_data); return left_data`.
Returns the new store contents and the returned mapping. -/
def JsonKVStorage.upsert (store : List (String × Record)) (data : List (String × Record)) :
    List (String × Record) × List (String × Record) :=
  let left_data := data.filter (fun kv => decide (kv.1 ∉ store.map Prod.fst))
  (store ++ left_data, left_data)

/-- `DuckDBStorage` state: the `kv_store` table rows, plus `self._data`,
the row-tuple list fetched once in `__post_init__` and never refreshed. -/
structure DuckDBState where
  table : List (String × String)
  snapshot : List (String × String)
deriving DecidableEq

/-- Python `s in rows` where `rows` is a list of `(key, value)` tuples
and `s` a string: comparing a `str` with a `tuple` is always unequal, so
the membership test never succeeds. -/
def pyStrInRowList (_s : String) (_rows : List (String × String)) : Bool := false

/-- `DuckDBStorage.filter_keys`:
`set([s for s in data if s not in self._data])` — `self._data` is the
stale row-tuple list, so the comparison is string-vs-tuple. -/
def DuckDBStorage.filter_keys (st : DuckDBState) (data : List String) : List String :=
  data.filter (fun s => !pyStrInRowList s st.snapshot)

/-- `INSERT INTO kv_store (key, value) VALUES (?, ?) ON CONFLICT(key)
DO UPDATE SET value = excluded.value`: overwrite the row if the key
exists, else insert it. -/
def sqlUpsertRow (table : List (String × String)) (k v : String) : List (String × String) :=
  if table.any (fun kv => kv.1 == k) then
    table.map (fun kv => if kv.1 = k then (kv.1, v) else kv)
  else table ++ [(k, v)]

/-- `DuckDBStorage.upsert`: write every record with the conflict-update
statement, then compute the returned mapping from `filter_keys`
("Return keys that were newly added (not updated)" per the source
comment). -/
def DuckDBStorage.upsert (st : DuckDBState) (data : List (String × String)) :
    DuckDBState × List (String × String) :=
  let table' := data.foldl (fun t kv => sqlUpsertRow t kv.1 kv.2) st.table
  let existing_keys := DuckDBStorage.filter_keys st (data.map Prod.fst)
  let left_data := data.filter (fun kv => decide (kv.1 ∉ existing_keys))
  ({ st with table := table' }, left_data)

/-! ### Vector stores

The embedding function is a black box `List String → Except PyErr (List V)`
over an abstract vector type `V` (a batch call either returns one vector
per input string or raises).  `asyncio.gather` joins the batch calls:
all results in input order, or the exception of a failing call. -/

inductive PyErr where
  | keyError (k : String)
  | valueError
  | indexError
deriving DecidableEq

def pyGetItem (r : Record) (k : String) : Except PyErr String :=
  match r.lookup k with
  | some v => Except.ok v
  | none => Except.error (PyErr.keyError k)

def gatherExcept {E A : Type} : List (Except E A) → Except E (List A)
  | [] => Except.ok []
  | x :: xs =>
    match x with
    | Except.error e => Except.error e
    | Except.ok a => (gatherExcept xs).map (fun as => a :: as)

structure VecRecord (V : Type) where
  id : String
  meta : Props
  vector : V
deriving DecidableEq

/-- `NanoVectorDB.upsert(datas=...)`: replace rows with a stored id,
append the rest. -/
def nanoClientUpsert {V : Type} (rows : List (VecRecord V)) (datas : List (VecRecord V)) :
    List (VecRecord V) :=
  datas.foldl
    (fun acc r =>
      if acc.any (fun x => x.id == r.id) then
        acc.map (fun x => if x.id = r.id then r else x)
      else acc ++ [r])
    rows

/-- `NanoVectorDBStorage.upsert`.  Steps, as in the source: empty input
returns immediately; `list_data` keeps the key as `__id__` plus the
allow-listed meta fields; `contents = [v["content"] ...]` (KeyError on a
record without content); contents are split into batches of
`self._max_batch_size` (`range` raises ValueError on step 0); the
embedding function runs once per batch under `asyncio.gather`;
`np.concatenate` restores one flat vector list; `embeddings[i]` attaches
the i-th vector to the i-th record (IndexError if too few); finally the
records go to the client in one call.  Returns the new rows and the
records handed to the client. -/
def NanoVectorDBStorage.upsert {V : Type}
    (embedding_func : List String → Except PyErr (List V)) (max_batch_size : Nat)
    (meta_fields : List String) (rows : List (VecRecord V))
    (data : List (String × Record)) :
    Except PyErr (List (VecRecord V) × List (VecRecord V)) :=
  if data.length = 0 then Except.ok (rows, [])
  else
    match gatherExcept (data.map (fun kv => pyGetItem kv.2 "content")) with
    | Except.error e => Except.error e
    | Except.ok contents =>
      if max_batch_size = 0 then Except.error PyErr.valueError
      else
        let list_data := data.map
          (fun kv => (kv.1, kv.2.filter (fun f => decide (f.1 ∈ meta_fields))))
        let batches := chunks max_batch_size contents
        match gatherExcept (batches.map embedding_func) with
        | Except.error e => Except.error e
        | Except.ok embeddings_list =>
          let embeddings := embeddings_list.flatten
          if list_data.length ≤ embeddings.length then
            let records := (list_data.zip embeddings).map
              (fun p => VecRecord.mk p.1.1 p.1.2 p.2)
            Except.ok (nanoClientUpsert rows records, records)
          else Except.error PyErr.indexError

/-! ### ChromaDBStorage -/

structure ChromaRow (V : Type) where
  id : String
  document : Props
  embedding : V
deriving DecidableEq

/-- `collection.upsert` for a single id: replace or append. -/
def chromaPut {V : Type} (rows : List (ChromaRow V)) (r : ChromaRow V) :
    List (ChromaRow V) :=
  if rows.any (fun x => x.id == r.id) then
    rows.map (fun x => if x.id = r.id then r else x)
  else rows ++ [r]

/-- The per-record upsert loop of the `meta_fields` branch:
`for i, d in enumerate(list_data): d.pop("__id__");
collection.upsert(ids=[ids[i]], documents=[json.dumps(d)],
embeddings=[embeddings[i]])` — `ids` here is `missing_ids`, while the
loop runs over all of `list_data` and `embeddings`.  An out-of-range
index raises after the earlier iterations have already written. -/
def chromaLoop {V : Type} (missing : List String) (embeddings : List V) :
    List (ChromaRow V) → Nat → List (String × Props) → List (ChromaRow V) × Bool
  | rows, _, [] => (rows, true)
  | rows, i, d :: rest =>
    match missing.get? i, embeddings.get? i with
    | some id, some emb => chromaLoop missing embeddings (chromaPut rows ⟨id, d.2, emb⟩) (i + 1) rest
    | _, _ => (rows, false)

/-- `ChromaDBStorage.upsert`.  As in the source: empty input returns
immediately; `collection.get()` returns a dict (whose length, the number
of its keys, is always positive, so the `len(existing_docs) > 0` branch
always runs); `missing_ids` filters out already-stored ids, and
`ids = missing_ids`; the embedding batches are built from *all*
contents; the upsert section is wrapped in `try/except` that logs and
returns `[]`, keeping whatever single-record writes already happened.
Returns the collection rows and the returned id list. -/
def ChromaDBStorage.upsert {V : Type}
    (embedding_func : List String → Except PyErr (List V)) (max_batch_size : Nat)
    (meta_fields : List String) (rows : List (ChromaRow V))
    (data : List (String × Record)) :
    Except PyErr (List (ChromaRow V) × List String) :=
  if data.length = 0 then Except.ok (rows, [])
  else
    let ids := data.map Prod.fst
    let list_data := data.map
      (fun kv => (kv.1, kv.2.filter (fun f => decide (f.1 ∈ meta_fields))))
    match gatherExcept (data.map (fun kv => pyGetItem kv.2 "content")) with
    | Except.error e => Except.error e
    | Except.ok contents =>
      if max_batch_size = 0 then Except.error PyErr.valueError
      else
        let batches := chunks max_batch_size contents
        let existing_ids := rows.map (fun r => r.id)
        let missing_ids := ids.filter (fun id => decide (id ∉ existing_ids))
        if missing_ids.length = 0 then Except.ok (rows, ids)
        else
          match gatherExcept (batches.map embedding_func) with
          | Except.error e => Except.error e
          | Except.ok embeddings_list =>
            let embeddings := embeddings_list.flatten
            if meta_fields.length ≠ 0 then
              match chromaLoop missing_ids embeddings rows 0 list_data with
              | (rows', true) => Except.ok (rows', missing_ids)
              | (rows', false) => Except.ok (rows', [])
            else
              if missing_ids.length = contents.length ∧ contents.length = embeddings.length then
                let rows' := ((missing_ids.zip (contents.zip embeddings)).map
                  (fun p => ChromaRow.mk p.1 [("content", p.2.1)] p.2.2)).foldl chromaPut rows
                Except.ok (rows', missing_ids)
              else Except.ok (rows, [])

/-! ### Graph invariants and reachability -/

/-- Invariants of every graph built through `add_node`/`add_edge` (and of
graphml round-trips): distinct node ids; edge endpoints exist as nodes. -/
structure WFGraph (g : NXGraph) : Prop where
  nodup : g.nodeIds.Nodup
  srcMem : ∀ e ∈ g.edges, e.1 ∈ g.nodeIds
  tgtMem : ∀ e ∈ g.edges, e.2.1 ∈ g.nodeIds

def NXGraph.Adj (g : NXGraph) (u v : String) : Prop := g.adjacentB u v = true

def NXGraph.Reach (g : NXGraph) : String → String → Prop :=
  Relation.ReflTransGen g.Adj

/-- `NetworkXStorage.get_node`: `self._graph.nodes.get(node_id)`. -/
def NetworkXStorage.get_node (g : NXGraph) (node_id : String) : Option Props :=
  g.nodes.lookup node_id

/-- The node-id normalization in the order the specification's words
state it: HTML-unescape, then uppercase, then strip surrounding
whitespace.  (The source composes the same three functions in the other
order: `html.unescape(node.upper().strip())`.)  Used only to compare the
code's behaviour against the specified formula. -/
def specNormalizeNodeId (node : String) : String := pyStrip (pyUpper (htmlUnescape node))

/-! ### Claim C3 -/

/-- The records built by a successful `NanoVectorDBStorage.upsert` with
per-string embedding `f`: input keys and filtered meta fields zipped
with the embeddings of the content strings. -/
def nanoRecords {V : Type} (f : String → V) (meta_fields : List String)
    (data : List (String × Record)) (contents : List String) : List (VecRecord V) :=
  ((data.map (fun kv => (kv.1, kv.2.filter (fun fd => decide (fd.1 ∈ meta_fields))))).zip
    (contents.map f)).map (fun p => VecRecord.mk p.1.1 p.1.2 p.2)

/-! ### Edge identity classes -/

def pairOf (e : String × String × Props) : String × String := (e.1, e.2.1)

def sortPair (p : String × String) : String × String :=
  if pyStrLt p.2 p.1 then (p.2, p.1) else p

def canonPair (directed : Bool) (p : String × String) : String × String :=
  if directed then p else sortPair p

/-- The stored edges of a graph, as edge-identity representatives:
ordered pairs for directed graphs, sorted pairs for undirected ones. -/
def canonPairs (g : NXGraph) : List (String × String) :=
  g.edges.map (fun e => canonPair g.directed (pairOf e))

instance sortedLeDecidable {α : Type} (lt : α → α → Bool) : DecidableRel (sortedLe lt) :=
  fun a b => inferInstanceAs (Decidable (lt b a = false))

def stabEdgeF (dir : Bool) (e : String × String × Props) : String × String × Props :=
  if dir then e else sortSourceTarget e

def edgeKeyOf (e : String × String × Props) : String := edgeKeyStr e.1 e.2.1

def keyC (dir : Bool) (e : String × String × Props) : String :=
  edgeKeyStr (canonPair dir (pairOf e)).1 (canonPair dir (pairOf e)).2

def normKey (dir : Bool) (m : String → String) (e : String × String × Props) : String :=
  edgeKeyStr (canonPair dir (m e.1, m e.2.1)).1 (canonPair dir (m e.1, m e.2.1)).2

theorem bool_eq_false {b : Bool} (h : ¬ b = true) : b = false := by
  cases b
  · rfl
  · exact absurd rfl h

theorem lexLt_irrefl (l : List Char) : lexLt l l = false := by
  induction l with
  | nil => rfl
  | cons a as ih => simp [lexLt, ih]

theorem lexLt_asymm : ∀ {a b : List Char}, lexLt a b = true → lexLt b a = false
  | [], [], h => by simp [lexLt] at h
  | [], _ :: _, _ => by simp [lexLt]
  | _ :: _, [], h => by simp [lexLt] at h
  | a :: as, b :: bs, h => by
    rcases lt_trichotomy a b with hab | hab | hab
    · simp [lexLt, hab, asymm hab]
    · subst hab
      simp only [lexLt, lt_irrefl, if_false] at h ⊢
      exact lexLt_asymm h
    · simp [lexLt, hab, asymm hab] at h

theorem lexLt_trans : ∀ {a b c : List Char},
    lexLt a b = true → lexLt b c = true → lexLt a c = true
  | [], [], _, h1, _ => by simp [lexLt] at h1
  | [], _ :: _, [], _, h2 => by simp [lexLt] at h2
  | [], _ :: _, _ :: _, _, _ => by simp [lexLt]
  | _ :: _, [], _, h1, _ => by simp [lexLt] at h1
  | _ :: _, _ :: _, [], _, h2 => by simp [lexLt] at h2
  | a :: as, b :: bs, c :: cs, h1, h2 => by
    rcases lt_trichotomy a b with hab | hab | hab
    · rcases lt_trichotomy b c with hbc | hbc | hbc
      · simp [lexLt, lt_trans hab hbc]
      · subst hbc; simp [lexLt, hab]
      · simp [lexLt, hbc, asymm hbc] at h2
    · subst hab
      rcases lt_trichotomy a c with hac | hac | hac
      · simp [lexLt, hac]
      · subst hac
        simp only [lexLt, lt_irrefl, if_false] at h1 h2 ⊢
        exact lexLt_trans h1 h2
      · simp [lexLt, hac, asymm hac] at h2
    · simp [lexLt, hab, asymm hab] at h1

theorem lexLt_antisymm : ∀ {a b : List Char},
    lexLt a b = false → lexLt b a = false → a = b
  | [], [], _, _ => rfl
  | [], _ :: _, h1, _ => by simp [lexLt] at h1
  | _ :: _, [], _, h2 => by simp [lexLt] at h2
  | a :: as, b :: bs, h1, h2 => by
    rcases lt_trichotomy a b with hab | hab | hab
    · simp [lexLt, hab] at h1
    · subst hab
      simp only [lexLt, lt_irrefl, if_false] at h1 h2
      rw [lexLt_antisymm h1 h2]
    · simp [lexLt, hab] at h2

theorem pyStrLt_irrefl (s : String) : pyStrLt s s = false := lexLt_irrefl _

theorem pyStrLt_asymm {a b : String} (h : pyStrLt a b = true) : pyStrLt b a = false :=
  lexLt_asymm h

theorem pyStrLt_trans {a b c : String} (h1 : pyStrLt a b = true) (h2 : pyStrLt b c = true) :
    pyStrLt a c = true := lexLt_trans h1 h2

theorem pyStrLt_antisymm {a b : String} (h1 : pyStrLt a b = false)
    (h2 : pyStrLt b a = false) : a = b := by
  have h := lexLt_antisymm h1 h2
  cases a with
  | mk da =>
    cases b with
    | mk db => exact congrArg String.mk h

theorem insertBy_perm {α : Type} (lt : α → α → Bool) (x : α) (l : List α) :
    (insertBy lt x l).Perm (x :: l) := by
  induction l with
  | nil => exact List.Perm.refl _
  | cons y ys ih =>
    by_cases h : lt x y = true
    · simp [insertBy, h]
    · simp only [insertBy, bool_eq_false h, Bool.false_eq_true, if_false]
      refine (ih.cons y).trans ?_
      exact List.Perm.swap x y ys

theorem sortBy_aux_perm {α : Type} (lt : α → α → Bool) :
    ∀ (l acc : List α), (l.foldl (fun acc x => insertBy lt x acc) acc).Perm (acc ++ l) := by
  intro l
  induction l with
  | nil => intro acc; simp
  | cons x xs ih =>
    intro acc
    simp only [List.foldl_cons]
    refine (ih (insertBy lt x acc)).trans ?_
    refine ((insertBy_perm lt x acc).append_right xs).trans ?_
    exact (List.perm_middle).symm

theorem sortBy_perm {α : Type} (lt : α → α → Bool) (l : List α) :
    (sortBy lt l).Perm l := by
  simpa using sortBy_aux_perm lt l []

theorem insertBy_pairwise {α : Type} (lt : α → α → Bool)
    (htrans : ∀ a b c, lt a b = true → lt b c = true → lt a c = true)
    (hasymm : ∀ a b, lt a b = true → lt b a = false)
    (x : α) (l : List α) (hl : l.Pairwise (sortedLe lt)) :
    (insertBy lt x l).Pairwise (sortedLe lt) := by
  induction l with
  | nil => simp [insertBy]
  | cons y ys ih =>
    rcases List.pairwise_cons.mp hl with ⟨hy, hys⟩
    by_cases h : lt x y = true
    · simp only [insertBy, h, if_true]
      refine List.pairwise_cons.mpr ⟨?_, hl⟩
      intro z hz
      rcases List.mem_cons.mp hz with rfl | hz'
      · exact hasymm _ _ h
      · show lt z x = false
        have hzy : lt z y = false := hy z hz'
        cases hzx : lt z x with
        | false => rfl
        | true =>
          have : lt z y = true := htrans _ _ _ hzx h
          rw [this] at hzy; cases hzy
    · simp only [insertBy, bool_eq_false h, Bool.false_eq_true, if_false]
      refine List.pairwise_cons.mpr ⟨?_, ih hys⟩
      intro z hz
      rcases List.mem_cons.mp ((insertBy_perm lt x ys).mem_iff.mp hz) with rfl | hz'
      · exact bool_eq_false h
      · exact hy z hz'

theorem sortBy_pairwise {α : Type} (lt : α → α → Bool)
    (htrans : ∀ a b c, lt a b = true → lt b c = true → lt a c = true)
    (hasymm : ∀ a b, lt a b = true → lt b a = false)
    (l : List α) : (sortBy lt l).Pairwise (sortedLe lt) := by
  suffices h : ∀ (l acc : List α), acc.Pairwise (sortedLe lt) →
      (l.foldl (fun acc x => insertBy lt x acc) acc).Pairwise (sortedLe lt) by
    exact h l [] (by simp)
  intro l
  induction l with
  | nil => intro acc hacc; simpa using hacc
  | cons x xs ih =>
    intro acc hacc
    exact ih _ (insertBy_pairwise lt htrans hasymm x acc hacc)

/-- Two permuted lists that are both `sortBy`-sorted and whose comparison
is antisymmetric on their members are equal. -/
theorem sorted_lists_eq {α : Type} (lt : α → α → Bool) {l1 l2 : List α}
    (hperm : l1.Perm l2)
    (h1 : l1.Pairwise (sortedLe lt)) (h2 : l2.Pairwise (sortedLe lt))
    (hanti : ∀ a b, a ∈ l1 → b ∈ l2 → lt a b = false → lt b a = false → a = b) :
    l1 = l2 :=
  List.Perm.eq_of_sorted
    (fun a b ha hb (hab : sortedLe lt a b) (hba : sortedLe lt b a) =>
      hanti a b ha hb hba hab) h1 h2 hperm

theorem sortBy_eq_of_pairwise {α : Type} (lt : α → α → Bool)
    (htrans : ∀ a b c, lt a b = true → lt b c = true → lt a c = true)
    (hasymm : ∀ a b, lt a b = true → lt b a = false)
    {l : List α} (hl : l.Pairwise (sortedLe lt))
    (hanti : ∀ a b, a ∈ l → b ∈ l → lt a b = false → lt b a = false → a = b) :
    sortBy lt l = l :=
  sorted_lists_eq lt (sortBy_perm lt l) (sortBy_pairwise lt htrans hasymm l) hl
    (fun a b ha hb => hanti a b ((sortBy_perm lt l).mem_iff.mp ha) hb)

theorem chunksGo_flatten {α : Type} {B : Nat} (hB : B ≠ 0) :
    ∀ (fuel : Nat) (l : List α), l.length ≤ fuel →
      (chunksGo B fuel l).flatten = l := by
  intro fuel
  induction fuel with
  | zero =>
    intro l hl
    have : l = [] := List.eq_nil_of_length_eq_zero (Nat.le_zero.mp hl)
    subst this
    rfl
  | succ n ih =>
    intro l hl
    match l with
    | [] => rfl
    | x :: xs =>
      have hlen : ((x :: xs).drop B).length ≤ n := by
        have hB' : 0 < B := Nat.pos_of_ne_zero hB
        rw [List.length_drop, List.length_cons]
        rw [List.length_cons] at hl
        omega
      show ((x :: xs).take B :: chunksGo B n ((x :: xs).drop B)).flatten = x :: xs
      simp only [List.flatten_cons, ih _ hlen, List.take_append_drop]

theorem chunks_flatten {α : Type} {B : Nat} (hB : B ≠ 0) (l : List α) :
    (chunks B l).flatten = l :=
  chunksGo_flatten hB l.length l (le_refl _)

theorem chunksGo_sizes {α : Type} {B : Nat} (hB : B ≠ 0) :
    ∀ (fuel : Nat) (l : List α) (c : List α), c ∈ chunksGo B fuel l →
      c ≠ [] ∧ c.length ≤ B := by
  intro fuel
  induction fuel with
  | zero =>
    intro l c hc
    match l with
    | [] => exact absurd hc (List.not_mem_nil c)
  | succ n ih =>
    intro l c hc
    match l with
    | [] => exact absurd hc (List.not_mem_nil c)
    | x :: xs =>
      rcases List.mem_cons.mp hc with rfl | hc'
      · constructor
        · intro htake
          have hmin : min B (x :: xs).length = 0 := by
            simpa [List.length_take] using congrArg List.length htake
          rcases Nat.min_eq_zero_iff.mp hmin with h0 | h0
          · exact hB h0
          · rw [List.length_cons] at h0
            omega
        · simp only [List.length_take]
          exact Nat.min_le_left B (x :: xs).length
      · exact ih _ c hc'

theorem chunks_sizes {α : Type} {B : Nat} (hB : B ≠ 0) (l : List α) :
    ∀ c ∈ chunks B l, c ≠ [] ∧ c.length ≤ B :=
  fun c hc => chunksGo_sizes hB l.length l c hc

theorem dictSet_not_mem {d : Props} {k : String} (v : String)
    (h : k ∉ d.map Prod.fst) : dictSet d k v = d ++ [(k, v)] := by
  induction d with
  | nil => rfl
  | cons kv rest ih =>
    obtain ⟨k', v'⟩ := kv
    simp only [List.map_cons, List.mem_cons] at h
    push_neg at h
    simp only [dictSet, if_neg (Ne.symm h.1)]
    rw [ih h.2]
    simp

theorem dictUpdate_disjoint {new : Props} (hn : (new.map Prod.fst).Nodup) :
    ∀ d : Props, (∀ kv ∈ new, kv.1 ∉ d.map Prod.fst) →
      dictUpdate d new = d ++ new := by
  induction new with
  | nil => intro d _; simp [dictUpdate]
  | cons kv rest ih =>
    intro d hdisj
    simp only [List.map_cons, List.nodup_cons] at hn
    have step : dictUpdate d (kv :: rest) = dictUpdate (dictSet d kv.1 kv.2) rest := by
      simp [dictUpdate]
    rw [step, dictSet_not_mem kv.2 (hdisj kv (by simp))]
    rw [ih hn.2 (d ++ [(kv.1, kv.2)]) ?_]
    · simp
    · intro kv' hkv'
      simp only [List.map_append, List.mem_append]
      push_neg
      refine ⟨hdisj kv' (List.mem_cons_of_mem _ hkv'), ?_⟩
      simp only [List.map_cons, List.map_nil, List.mem_singleton]
      intro hEq
      exact hn.1 (hEq ▸ (List.mem_map.mpr ⟨kv', hkv', rfl⟩))

theorem dictUpdate_nil {new : Props} (hn : (new.map Prod.fst).Nodup) :
    dictUpdate [] new = new := by
  simpa using dictUpdate_disjoint hn [] (by simp)

theorem afterSemi_length (l : List Char) : (afterSemi l).length ≤ l.length := by
  unfold afterSemi
  split
  · exact l.length_tail ▸ Nat.sub_le _ _
  · exact le_refl _

theorem matchNumeric_shrinks {rest : List Char} {r : String} {t : List Char}
    (h : matchNumeric rest = some (r, t)) : t.length ≤ rest.length := by
  unfold matchNumeric at h
  match rest, h with
  | c :: rest2, h =>
    by_cases hx : c = 'x' ∨ c = 'X'
    · simp only [if_pos hx] at h
      split at h
      · exact absurd h (by simp)
      · have := congrArg Prod.snd (Option.some.inj h)
        simp only at this
        subst this
        calc (afterSemi (rest2.drop _)).length
            ≤ (rest2.drop _).length := afterSemi_length _
          _ ≤ rest2.length := by simp [List.length_drop]
          _ ≤ (c :: rest2).length := by simp
    · simp only [if_neg hx] at h
      split at h
      · exact absurd h (by simp)
      · have := congrArg Prod.snd (Option.some.inj h)
        simp only at this
        subst this
        calc (afterSemi ((c :: rest2).drop _)).length
            ≤ ((c :: rest2).drop _).length := afterSemi_length _
          _ ≤ (c :: rest2).length := by simp [List.length_drop]

theorem matchName_shrinks {s : List Char} {r : String} {t : List Char}
    (h : matchName s = some (r, t)) : t.length < s.length := by
  unfold matchName at h
  by_cases hnm : ((s.takeWhile isNameChar).take 32).length = 0
  · simp only [if_pos hnm] at h
    exact Option.noConfusion h
  · simp only [if_neg hnm] at h
    have hle : ((s.takeWhile isNameChar).take 32).length ≤ s.length :=
      le_trans ((s.takeWhile isNameChar).take_sublist 32).length_le
        (s.takeWhile_sublist isNameChar).length_le
    have hpos : 0 < ((s.takeWhile isNameChar).take 32).length :=
      Nat.pos_of_ne_zero hnm
    have ht : t.length ≤ (s.drop ((s.takeWhile isNameChar).take 32).length).length := by
      split at h
      · have := congrArg Prod.snd (Option.some.inj h)
        simp only at this
        subst this
        exact afterSemi_length _
      · have := congrArg Prod.snd (Option.some.inj h)
        simp only at this
        subst this
        exact afterSemi_length _
    simp only [List.length_drop] at ht
    omega

theorem matchCharref_shrinks {s : List Char} {r : String} {t : List Char}
    (h : matchCharref s = some (r, t)) : t.length < s.length := by
  unfold matchCharref at h
  split at h
  · have := matchNumeric_shrinks h
    simp only [List.length_cons]
    omega
  · exact matchName_shrinks h

theorem unescapeCharsFuel_irrel :
    ∀ (n : Nat) {m k : Nat} {s : List Char}, s.length ≤ m → s.length ≤ k →
      m ≤ n → unescapeCharsFuel m s = unescapeCharsFuel k s := by
  intro n
  induction n with
  | zero =>
    intro m k s hm hk hmn
    have : m = 0 := Nat.le_zero.mp hmn
    subst this
    have : s = [] := List.eq_nil_of_length_eq_zero (Nat.le_zero.mp hm)
    subst this
    cases k <;> rfl
  | succ n ih =>
    intro m k s hm hk hmn
    match s with
    | [] => cases m <;> cases k <;> rfl
    | c :: rest =>
      simp only [List.length_cons] at hm hk
      match m, k with
      | m' + 1, k' + 1 =>
        rw [unescapeCharsFuel, unescapeCharsFuel]
        by_cases hc : c = '&'
        · rw [if_pos hc, if_pos hc]
          cases hmc : matchCharref rest with
          | some pr =>
            obtain ⟨repl, rest'⟩ := pr
            have hlen : rest'.length < rest.length := matchCharref_shrinks hmc
            show repl.data ++ unescapeCharsFuel m' rest' = repl.data ++ unescapeCharsFuel k' rest'
            rw [ih (m := m') (k := k') (s := rest') (by omega) (by omega) (by omega)]
          | none =>
            show '&' :: unescapeCharsFuel m' rest = '&' :: unescapeCharsFuel k' rest
            rw [ih (m := m') (k := k') (s := rest) (by omega) (by omega) (by omega)]
        · rw [if_neg hc, if_neg hc]
          rw [ih (m := m') (k := k') (s := rest) (by omega) (by omega) (by omega)]

/-! ### Supporting lemmas for the storage contracts -/

theorem gatherExcept_map_ok {E A : Type} (l : List A) :
    gatherExcept (l.map (fun a => (Except.ok a : Except E A))) = Except.ok l := by
  induction l with
  | nil => rfl
  | cons x xs ih => simp [gatherExcept, ih, Except.map]

theorem gatherExcept_error_of_mem {E A B : Type} (f : B → Except E A) :
    ∀ (l : List B), (∃ x ∈ l, ∃ e, f x = Except.error e) →
      ∃ e, gatherExcept (l.map f) = Except.error e := by
  intro l
  induction l with
  | nil => rintro ⟨x, hx, _⟩; exact absurd hx (List.not_mem_nil x)
  | cons x xs ih =>
    rintro ⟨y, hy, e, he⟩
    rcases List.mem_cons.mp hy with rfl | hy'
    · exact ⟨e, by simp [gatherExcept, he]⟩
    · cases hfx : f x with
      | error e' => exact ⟨e', by simp [gatherExcept, hfx]⟩
      | ok a =>
        rcases ih ⟨y, hy', e, he⟩ with ⟨e', he'⟩
        exact ⟨e', by simp [gatherExcept, hfx, he', Except.map]⟩

theorem flatten_map_map {α β : Type} (f : α → β) (ll : List (List α)) :
    (ll.map (List.map f)).flatten = ll.flatten.map f := by
  induction ll with
  | nil => rfl
  | cons l ls ih =>
    simp only [List.map_cons, List.flatten_cons, List.map_append, ih]

theorem lookup_append_of_not_mem {α β : Type} [BEq α] [LawfulBEq α]
    {l1 : List (α × β)} {k : α} (l2 : List (α × β)) (h : k ∉ l1.map Prod.fst) :
    (l1 ++ l2).lookup k = l2.lookup k := by
  induction l1 with
  | nil => rfl
  | cons kv rest ih =>
    simp only [List.map_cons, List.mem_cons] at h
    push_neg at h
    have hbeq : (k == kv.1) = false := beq_eq_false_iff_ne.mpr h.1
    simp only [List.cons_append, List.lookup, hbeq]
    exact ih h.2

/-! ### C10 supporting lemmas -/


theorem addEdge_nodes_eq (g : NXGraph) (u v : String) (d : Props) :
    (g.addEdge u v d).nodes = ((g.ensureNode u).ensureNode v).nodes := by
  unfold NXGraph.addEdge
  dsimp only
  split
  · rfl
  · rfl

theorem mem_nodeIds_ensureNode (g : NXGraph) (id x : String)
    (h : x ∈ g.nodeIds ∨ x = id) : x ∈ (g.ensureNode id).nodeIds := by
  unfold NXGraph.ensureNode
  by_cases hid : g.hasNodeB id = true
  · rw [if_pos hid]
    rcases h with h | rfl
    · exact h
    · exact of_decide_eq_true hid
  · rw [if_neg hid]
    show x ∈ (g.nodes ++ [(id, [])]).map Prod.fst
    rw [List.map_append]
    rcases h with h | rfl
    · exact List.mem_append_left _ h
    · exact List.mem_append_right _ (by simp)

theorem mem_nodeIds_addEdge (g : NXGraph) (u v : String) (d : Props) (x : String)
    (h : x ∈ g.nodeIds ∨ x = u ∨ x = v) : x ∈ (g.addEdge u v d).nodeIds := by
  have : (g.addEdge u v d).nodeIds = ((g.ensureNode u).ensureNode v).nodeIds := by
    unfold NXGraph.nodeIds
    rw [addEdge_nodes_eq]
  rw [this]
  rcases h with h | h | rfl
  · exact mem_nodeIds_ensureNode _ v x (Or.inl (mem_nodeIds_ensureNode g u x (Or.inl h)))
  · exact mem_nodeIds_ensureNode _ v x (Or.inl (mem_nodeIds_ensureNode g u x (Or.inr h)))
  · exact mem_nodeIds_ensureNode _ x x (Or.inr rfl)

theorem lookup_append_left {α β : Type} [BEq α] {l1 l2 : List (α × β)} {k : α} {v : β}
    (h : l1.lookup k = some v) : (l1 ++ l2).lookup k = some v := by
  induction l1 with
  | nil => cases h
  | cons kv rest ih =>
    simp only [List.lookup] at h
    cases hbeq : (k == kv.1) with
    | true =>
      rw [hbeq] at h
      simp only [List.cons_append, List.lookup, hbeq]
      exact h
    | false =>
      rw [hbeq] at h
      simp only [List.cons_append, List.lookup, hbeq]
      exact ih h

/-! ### Claim C10 -/

/-- C10: For the NetworkX graph backend, `upsert_edge(a, b, properties)`
is total (never rejected) even when one or both endpoint ids were never
upserted as nodes; afterwards `has_node(a)` and `has_node(b)` both
return true, and a previously missing endpoint is materialized as a node
with an empty property dict. -/
theorem upsert_edge_materializes_endpoints (g : NXGraph) (a b : String) (d : Props) :
    NetworkXStorage.has_node (NetworkXStorage.upsert_edge g a b d) a = true ∧
    NetworkXStorage.has_node (NetworkXStorage.upsert_edge g a b d) b = true ∧
    (NetworkXStorage.has_node g a = false →
      NetworkXStorage.get_node (NetworkXStorage.upsert_edge g a b d) a = some []) := by
  refine ⟨?_, ?_, ?_⟩
  · exact decide_eq_true (mem_nodeIds_addEdge g a b d a (Or.inr (Or.inl rfl)))
  · exact decide_eq_true (mem_nodeIds_addEdge g a b d b (Or.inr (Or.inr rfl)))
  · intro hab
    have ha : a ∉ g.nodes.map Prod.fst := by
      intro hmem
      have : NetworkXStorage.has_node g a = true := decide_eq_true hmem
      rw [this] at hab
      cases hab
    have h1 : (g.ensureNode a).nodes = g.nodes ++ [(a, [])] := by
      unfold NXGraph.ensureNode
      rw [if_neg (by simpa [NetworkXStorage.has_node] using hab)]
    have hlook1 : (g.ensureNode a).nodes.lookup a = some [] := by
      rw [h1, lookup_append_of_not_mem _ ha]
      simp [List.lookup]
    have hnodes : ∀ (g' : NXGraph) (id : String), (g'.ensureNode id).nodes =
        if g'.hasNodeB id then g'.nodes else g'.nodes ++ [(id, [])] := by
      intro g' id
      unfold NXGraph.ensureNode
      split
      · rfl
      · rfl
    have hlook2 : ((g.ensureNode a).ensureNode b).nodes.lookup a = some [] := by
      rw [hnodes]
      split
      · exact hlook1
      · exact lookup_append_left hlook1
    show (NetworkXStorage.upsert_edge g a b d).nodes.lookup a = some []
    show (NXGraph.addEdge g a b d).nodes.lookup a = some []
    rw [addEdge_nodes_eq]
    exact hlook2

/-- Witness for `upsert_edge_materializes_endpoints` at a concrete input
(the empty undirected graph, as constructed by `NetworkXStorage`). -/
theorem upsert_edge_materializes_endpoints_witness :
    NetworkXStorage.has_node
      (NetworkXStorage.upsert_edge (emptyGraph false) "A" "B" [("weight", "1")]) "A" = true ∧
    NetworkXStorage.get_node
      (NetworkXStorage.upsert_edge (emptyGraph false) "A" "B" [("weight", "1")]) "A" = some [] :=
  ⟨(upsert_edge_materializes_endpoints (emptyGraph false) "A" "B" [("weight", "1")]).1,
   (upsert_edge_materializes_endpoints (emptyGraph false) "A" "B" [("weight", "1")]).2.2
     (by decide)⟩

/-! ### Claim C2 -/

/-- The `JsonKVStorage` half of the record-store contract does hold:
values of keys present before the call are unchanged, and the returned
mapping is the input filtered to previously-absent keys. -/
theorem jsonkv_upsert_insert_only (store data : List (String × Record)) (k : String)
    (v : Record) (hk : store.lookup k = some v) :
    (JsonKVStorage.upsert store data).1.lookup k = some v ∧
    (JsonKVStorage.upsert store data).2 =
      data.filter (fun kv => decide (kv.1 ∉ store.map Prod.fst)) :=
  ⟨lookup_append_left hk, rfl⟩

/-- C2 (refuting evaluation for the DuckDB backend): with table and
snapshot holding `k1 ↦ v1`, upserting `{k1 ↦ v2, k2 ↦ v2}` overwrites
`k1` to `v2` and returns the empty mapping — the claim requires `k1` to
keep `v1` and the call to return `{k2 ↦ v2}`. -/
theorem duckdb_upsert_overwrites_and_returns_empty :
    DuckDBStorage.upsert ⟨[("k1", "v1")], [("k1", "v1")]⟩ [("k1", "v2"), ("k2", "v2")]
      = (⟨[("k1", "v2"), ("k2", "v2")], [("k1", "v1")]⟩, []) ∧
    ("v2" : String) ≠ "v1" := by
  constructor
  · rfl
  · decide

theorem nano_upsert_eval {V : Type} (f : String → V) (B : Nat)
    (meta_fields : List String) (rows : List (VecRecord V))
    (data : List (String × Record)) (contents : List String)
    (hB : B ≠ 0) (hne : data ≠ [])
    (hcontents : data.map (fun kv => pyGetItem kv.2 "content") = contents.map Except.ok) :
    NanoVectorDBStorage.upsert (fun batch => Except.ok (batch.map f)) B meta_fields rows data
      = Except.ok (nanoClientUpsert rows (nanoRecords f meta_fields data contents),
          nanoRecords f meta_fields data contents) := by
  have hlen : contents.length = data.length := by
    have h := congrArg List.length hcontents
    simpa using h.symm
  have hndata : ¬ data.length = 0 := fun h0 => hne (List.eq_nil_of_length_eq_zero h0)
  have hemb : gatherExcept ((chunks B contents).map
        (fun batch => (Except.ok (batch.map f) : Except PyErr (List V))))
      = Except.ok ((chunks B contents).map (List.map f)) := by
    have heq : (chunks B contents).map
        (fun batch => (Except.ok (batch.map f) : Except PyErr (List V)))
        = ((chunks B contents).map (List.map f)).map (fun a => Except.ok a) := by
      rw [List.map_map]
      rfl
    rw [heq]
    exact gatherExcept_map_ok _
  have hflat : ((chunks B contents).map (List.map f)).flatten = contents.map f := by
    rw [flatten_map_map, chunks_flatten hB]
  have hcond : (data.map (fun kv =>
      (kv.1, kv.2.filter (fun fd => decide (fd.1 ∈ meta_fields))))).length ≤
      (contents.map f).length := by
    simp only [List.length_map]
    omega
  simp only [NanoVectorDBStorage.upsert, if_neg hndata, hcontents, gatherExcept_map_ok,
    if_neg hB, hemb, hflat, hcond, if_true, nanoRecords]

theorem zip_map_mk_id {V : Type} :
    ∀ (l1 : List (String × Props)) (l2 : List V), l1.length = l2.length →
      ((l1.zip l2).map (fun p => VecRecord.mk p.1.1 p.1.2 p.2)).map VecRecord.id
        = l1.map Prod.fst := by
  intro l1
  induction l1 with
  | nil => intro l2 _; rfl
  | cons x xs ih =>
    intro l2 hl
    match l2 with
    | [] => cases hl
    | y :: ys =>
      simp only [List.zip_cons_cons, List.map_cons, List.length_cons] at hl ⊢
      rw [ih ys (by omega)]

theorem zip_map_mk_vector {V : Type} :
    ∀ (l1 : List (String × Props)) (l2 : List V), l1.length = l2.length →
      ((l1.zip l2).map (fun p => VecRecord.mk p.1.1 p.1.2 p.2)).map VecRecord.vector
        = l2 := by
  intro l1
  induction l1 with
  | nil =>
    intro l2 hl
    match l2 with
    | [] => rfl
  | cons x xs ih =>
    intro l2 hl
    match l2 with
    | [] => cases hl
    | y :: ys =>
      simp only [List.zip_cons_cons, List.map_cons, List.length_cons] at hl ⊢
      rw [ih ys (by omega)]

/-- C3: For every non-empty input to the vector-store upsert, the content
strings are split into consecutive batches of the configured size (each
non-empty, of at most the batch size, concatenating back to the original
content list), the embedding function — lifted from an arbitrary
per-string function `f` — is applied once per batch under the gather,
and the reassembled vectors line up positionally: the stored records
carry the input keys in order, and the i-th record's vector is the
embedding of its own content string. -/
theorem nano_upsert_batch_alignment {V : Type} (f : String → V) (B : Nat)
    (meta_fields : List String) (rows : List (VecRecord V))
    (data : List (String × Record)) (contents : List String)
    (hB : B ≠ 0) (hne : data ≠ [])
    (hcontents : data.map (fun kv => pyGetItem kv.2 "content") = contents.map Except.ok) :
    ∃ rows' records,
      NanoVectorDBStorage.upsert (fun batch => Except.ok (batch.map f)) B meta_fields rows data
        = Except.ok (rows', records) ∧
      records.map VecRecord.id = data.map Prod.fst ∧
      records.map VecRecord.vector = contents.map f ∧
      (chunks B contents).flatten = contents ∧
      (∀ c ∈ chunks B contents, c ≠ [] ∧ c.length ≤ B) := by
  have hlen : contents.length = data.length := by
    have h := congrArg List.length hcontents
    simpa using h.symm
  have hzlen : (data.map (fun kv =>
      (kv.1, kv.2.filter (fun fd => decide (fd.1 ∈ meta_fields))))).length
      = (contents.map f).length := by
    simp only [List.length_map]
    omega
  refine ⟨_, _, nano_upsert_eval f B meta_fields rows data contents hB hne hcontents,
    ?_, ?_, chunks_flatten hB contents, chunks_sizes hB contents⟩
  · unfold nanoRecords
    rw [zip_map_mk_id _ _ hzlen, List.map_map]
    rfl
  · unfold nanoRecords
    rw [zip_map_mk_vector _ _ hzlen]

/-- Witness for `nano_upsert_batch_alignment`: three records with batch
size two and the length-of-string embedding. -/
theorem nano_upsert_batch_alignment_witness :
    ∃ rows' records,
      NanoVectorDBStorage.upsert (V := List Nat)
        (fun batch => Except.ok (batch.map (fun s => [s.length]))) 2 []
        []
        [("k1", [("content", "aa")]), ("k2", [("content", "b")]),
         ("k3", [("content", "ccc")])]
        = Except.ok (rows', records) ∧
      records.map VecRecord.id = ["k1", "k2", "k3"] ∧
      records.map VecRecord.vector = [["aa".length], ["b".length], ["ccc".length]] ∧
      (chunks 2 ["aa", "b", "ccc"]).flatten = ["aa", "b", "ccc"] ∧
      (∀ c ∈ chunks 2 ["aa", "b", "ccc"], c ≠ [] ∧ c.length ≤ 2) :=
  nano_upsert_batch_alignment (fun s => [s.length]) 2 []
    [] [("k1", [("content", "aa")]), ("k2", [("content", "b")]),
        ("k3", [("content", "ccc")])] ["aa", "b", "ccc"]
    (by decide) (by decide) (by rfl)

/-! ### Claim C8 -/

/-- C8: If the embedding call of any batch fails, the whole vector-store
upsert call fails — the error propagates to the caller and no new store
state is produced (the client upsert, the only write, happens strictly
after the gather of all batch calls succeeds). -/
theorem nano_upsert_embedding_failure {V : Type}
    (embedding_func : List String → Except PyErr (List V)) (B : Nat)
    (meta_fields : List String) (rows : List (VecRecord V))
    (data : List (String × Record)) (contents : List String)
    (hB : B ≠ 0) (hne : data ≠ [])
    (hcontents : data.map (fun kv => pyGetItem kv.2 "content") = contents.map Except.ok)
    (hfail : ∃ b ∈ chunks B contents, ∃ e, embedding_func b = Except.error e) :
    (∃ e, NanoVectorDBStorage.upsert embedding_func B meta_fields rows data
        = Except.error e) ∧
    ∀ rows' records,
      NanoVectorDBStorage.upsert embedding_func B meta_fields rows data
        ≠ Except.ok (rows', records) := by
  have hndata : ¬ data.length = 0 := fun h0 => hne (List.eq_nil_of_length_eq_zero h0)
  rcases gatherExcept_error_of_mem embedding_func (chunks B contents) hfail with ⟨e, he⟩
  have heval : NanoVectorDBStorage.upsert embedding_func B meta_fields rows data
      = Except.error e := by
    simp only [NanoVectorDBStorage.upsert, if_neg hndata, hcontents, gatherExcept_map_ok,
      if_neg hB, he]
  refine ⟨⟨e, heval⟩, ?_⟩
  intro rows' records hok
  rw [heval] at hok
  cases hok

/-- Witness for `nano_upsert_embedding_failure`: batch size one, the
second batch's embedding call fails. -/
theorem nano_upsert_embedding_failure_witness :
    (∃ e, NanoVectorDBStorage.upsert (V := List Nat)
        (fun batch => if batch = ["b"] then Except.error PyErr.valueError
          else Except.ok (batch.map (fun s => [s.length])))
        1 [] [] [("k1", [("content", "a")]), ("k2", [("content", "b")])]
        = Except.error e) ∧
    ∀ rows' records,
      NanoVectorDBStorage.upsert (V := List Nat)
        (fun batch => if batch = ["b"] then Except.error PyErr.valueError
          else Except.ok (batch.map (fun s => [s.length])))
        1 [] [] [("k1", [("content", "a")]), ("k2", [("content", "b")])]
        ≠ Except.ok (rows', records) :=
  nano_upsert_embedding_failure
    (fun batch => if batch = ["b"] then Except.error PyErr.valueError
      else Except.ok (batch.map (fun s => [s.length])))
    1 [] [] [("k1", [("content", "a")]), ("k2", [("content", "b")])] ["a", "b"]
    (by decide) (by decide) (by rfl)
    ⟨["b"], by decide, PyErr.valueError, by rfl⟩

/-! ### Claim C9 -/

/-- C9 (refuting evaluation): the ChromaDB backend's dedup-before-embed
path corrupts the stored result when some ids already exist.  With id
`a` already in the collection, `meta_fields` non-empty, and records
`a ↦ "xx"`, `b ↦ "y"` under the length embedding, the call stores for
the newly written id `b` the embedding of `a`'s content (`[2]`) rather
than of its own (`[1]`), then swallows an IndexError and returns `[]`. -/
theorem chroma_upsert_misaligned_eval :
    ChromaDBStorage.upsert (V := List Nat)
      (fun batch => Except.ok (batch.map (fun s => [s.length]))) 10 ["m"]
      [⟨"a", [], [9]⟩]
      [("a", [("content", "xx")]), ("b", [("content", "y")])]
      = Except.ok ([⟨"a", [], [9]⟩, ⟨"b", [], [2]⟩], []) ∧
    (fun s : String => [s.length]) "y" = [1] ∧ ([2] : List Nat) ≠ [1] := by
  refine ⟨?_, by decide, by decide⟩
  rfl

/-! ### Reachability characterization of the component search -/

theorem iterApply_succ_outside {α : Type} (f : α → α) :
    ∀ (n : Nat) (x : α), iterApply f (n + 1) x = f (iterApply f n x) := by
  intro n
  induction n with
  | zero => intro x; rfl
  | succ n ih =>
    intro x
    show iterApply f (n + 1) (f x) = f (iterApply f (n + 1) x)
    rw [ih (f x)]
    rfl

theorem bor_iff {a b : Bool} : (a || b) = true ↔ a = true ∨ b = true := by
  cases a <;> cases b <;> simp

theorem band_iff {a b : Bool} : (a && b) = true ↔ a = true ∧ b = true := by
  cases a <;> cases b <;> simp

theorem NXGraph.adj_symm {g : NXGraph} {u v : String} (h : g.Adj u v) : g.Adj v u := by
  unfold NXGraph.Adj NXGraph.adjacentB at *
  rcases List.any_eq_true.mp h with ⟨e, he, hcond⟩
  refine List.any_eq_true.mpr ⟨e, he, ?_⟩
  rcases bor_iff.mp hcond with h1 | h1
  · exact bor_iff.mpr (Or.inr h1)
  · exact bor_iff.mpr (Or.inl h1)

theorem NXGraph.adj_mem_left {g : NXGraph} {u v : String} (hwf : WFGraph g)
    (h : g.Adj u v) : u ∈ g.nodeIds := by
  unfold NXGraph.Adj NXGraph.adjacentB at h
  rcases List.any_eq_true.mp h with ⟨e, he, hcond⟩
  rcases bor_iff.mp hcond with h1 | h1
  · rcases band_iff.mp h1 with ⟨hs, _⟩
    exact (eq_of_beq hs) ▸ hwf.srcMem e he
  · rcases band_iff.mp h1 with ⟨_, ht⟩
    exact (eq_of_beq ht) ▸ hwf.tgtMem e he

theorem NXGraph.adj_mem_right {g : NXGraph} {u v : String} (hwf : WFGraph g)
    (h : g.Adj u v) : v ∈ g.nodeIds :=
  NXGraph.adj_mem_left hwf (NXGraph.adj_symm h)

theorem mem_expand_iff {g : NXGraph} {c : List String} {v : String} :
    v ∈ g.expand c ↔ v ∈ g.nodeIds ∧ (v ∈ c ∨ ∃ w ∈ c, g.Adj w v) := by
  unfold NXGraph.expand
  rw [List.mem_filter]
  constructor
  · rintro ⟨hv, hcond⟩
    refine ⟨hv, ?_⟩
    rcases bor_iff.mp hcond with h1 | h1
    · exact Or.inl (of_decide_eq_true h1)
    · rcases List.any_eq_true.mp h1 with ⟨w, hw, hadj⟩
      exact Or.inr ⟨w, hw, hadj⟩
  · rintro ⟨hv, h1 | h1⟩
    · exact ⟨hv, bor_iff.mpr (Or.inl (decide_eq_true h1))⟩
    · rcases h1 with ⟨w, hw, hadj⟩
      exact ⟨hv, bor_iff.mpr (Or.inr (List.any_eq_true.mpr ⟨w, hw, hadj⟩))⟩

theorem expand_subset_nodeIds {g : NXGraph} {c : List String} :
    ∀ v ∈ g.expand c, v ∈ g.nodeIds := fun _ hv => (mem_expand_iff.mp hv).1

theorem iterApply_expand_sound {g : NXGraph} {u : String} :
    ∀ (k : Nat) (c : List String), (∀ x ∈ c, g.Reach u x) →
      ∀ v ∈ iterApply g.expand k c, g.Reach u v := by
  intro k
  induction k with
  | zero => intro c hc v hv; exact hc v hv
  | succ k ih =>
    intro c hc v hv
    refine ih (g.expand c) ?_ v hv
    intro x hx
    rcases (mem_expand_iff.mp hx).2 with h1 | ⟨w, hw, hadj⟩
    · exact hc x h1
    · exact (hc w hw).tail hadj

theorem componentOf_sound {g : NXGraph} {u v : String} (h : v ∈ g.componentOf u) :
    g.Reach u v :=
  iterApply_expand_sound g.nodes.length [u]
    (fun x hx => by rcases List.mem_singleton.mp hx with rfl; exact Relation.ReflTransGen.refl)
    v h

theorem componentOf_subset_nodeIds {g : NXGraph} {u : String} (hn : g.nodes.length ≠ 0) :
    ∀ v ∈ g.componentOf u, v ∈ g.nodeIds := by
  intro v hv
  unfold NXGraph.componentOf at hv
  match hk : g.nodes.length, hv with
  | k + 1, hv =>
    rw [iterApply_succ_outside] at hv
    exact expand_subset_nodeIds v hv
  | 0, hv => exact absurd hk hn

theorem expand_congr {g : NXGraph} {c d : List String}
    (h : ∀ x, x ∈ c ↔ x ∈ d) : g.expand c = g.expand d := by
  unfold NXGraph.expand
  refine List.filter_congr ?_
  intro v _
  have h1 : decide (v ∈ c) = decide (v ∈ d) := by
    by_cases hc : v ∈ c
    · rw [decide_eq_true hc, decide_eq_true ((h v).mp hc)]
    · rw [decide_eq_false hc, decide_eq_false (fun hd => hc ((h v).mpr hd))]
  have h2 : c.any (fun w => g.adjacentB w v) = d.any (fun w => g.adjacentB w v) := by
    rw [Bool.eq_iff_iff]
    constructor
    · intro hc
      rcases List.any_eq_true.mp hc with ⟨w, hw, hadj⟩
      exact List.any_eq_true.mpr ⟨w, (h w).mp hw, hadj⟩
    · intro hd
      rcases List.any_eq_true.mp hd with ⟨w, hw, hadj⟩
      exact List.any_eq_true.mpr ⟨w, (h w).mpr hw, hadj⟩
  rw [h1, h2]

theorem expand_mono {g : NXGraph} {c d : List String}
    (h : ∀ x, x ∈ c → x ∈ d) : ∀ x, x ∈ g.expand c → x ∈ g.expand d := by
  intro x hx
  rcases mem_expand_iff.mp hx with ⟨hnode, h1 | ⟨w, hw, hadj⟩⟩
  · exact mem_expand_iff.mpr ⟨hnode, Or.inl (h x h1)⟩
  · exact mem_expand_iff.mpr ⟨hnode, Or.inr ⟨w, h w hw, hadj⟩⟩

theorem expand_progressive {g : NXGraph} {c : List String} {x : String}
    (hx : x ∈ c) (hnode : x ∈ g.nodeIds) : x ∈ g.expand c :=
  mem_expand_iff.mpr ⟨hnode, Or.inl hx⟩

theorem iterApply_expand_mem_nodeIds {g : NXGraph} :
    ∀ (k : Nat) (c : List String) (v : String),
      v ∈ iterApply g.expand (k + 1) c → v ∈ g.nodeIds := by
  intro k
  induction k with
  | zero => intro c v hv; exact expand_subset_nodeIds v hv
  | succ k ih => intro c v hv; exact ih (g.expand c) v hv

theorem iterApply_expand_chain {g : NXGraph} (u : String) (k : Nat) :
    ∀ v ∈ iterApply g.expand (k + 1) [u], v ∈ iterApply g.expand (k + 2) [u] := by
  intro v hv
  have hnode : v ∈ g.nodeIds := iterApply_expand_mem_nodeIds k [u] v hv
  rw [iterApply_succ_outside]
  exact expand_progressive hv hnode

theorem iterApply_expand_le {g : NXGraph} (u : String) (j : Nat) :
    ∀ (m : Nat) (v : String), v ∈ iterApply g.expand (j + 1) [u] →
      v ∈ iterApply g.expand (j + 1 + m) [u] := by
  intro m
  induction m with
  | zero => intro v hv; exact hv
  | succ m ih =>
    intro v hv
    have h1 := ih v hv
    have h2 := iterApply_expand_chain u (j + m) v (by
      have : j + 1 + m = j + m + 1 := by omega
      rw [this] at h1
      exact h1)
    have : j + m + 2 = j + 1 + (m + 1) := by omega
    rw [this] at h2
    exact h2

theorem iterApply_expand_ge {g : NXGraph} (u : String) {j k : Nat} (hjk : j + 1 ≤ k) :
    ∀ v ∈ iterApply g.expand (j + 1) [u], v ∈ iterApply g.expand k [u] := by
  intro v hv
  have := iterApply_expand_le u j (k - (j + 1)) v hv
  have harith : j + 1 + (k - (j + 1)) = k := by omega
  rw [harith] at this
  exact this

theorem iterApply_expand_nodup {g : NXGraph} (hnd : g.nodeIds.Nodup)
    (k : Nat) (c : List String) : (iterApply g.expand (k + 1) c).Nodup := by
  induction k generalizing c with
  | zero => exact hnd.filter _
  | succ k ih => exact ih (g.expand c)

theorem iterApply_expand_stab_all {g : NXGraph} (u : String) (j : Nat)
    (hstab : ∀ x, x ∈ iterApply g.expand (j + 1) [u] ↔ x ∈ iterApply g.expand (j + 2) [u]) :
    ∀ m, iterApply g.expand (j + 2 + m) [u] = iterApply g.expand (j + 2) [u] := by
  intro m
  induction m with
  | zero => rfl
  | succ m ih =>
    have h1 : iterApply g.expand (j + 2 + (m + 1)) [u]
        = g.expand (iterApply g.expand (j + 2 + m) [u]) := by
      have : j + 2 + (m + 1) = (j + 2 + m) + 1 := by omega
      rw [this, iterApply_succ_outside]
    rw [h1, ih]
    have h2 : iterApply g.expand (j + 2) [u] = g.expand (iterApply g.expand (j + 1) [u]) :=
      iterApply_succ_outside _ _ _
    rw [h2]
    refine expand_congr ?_
    intro x
    rw [← h2]
    exact (hstab x).symm

theorem iterApply_expand_stab_ge {g : NXGraph} (u : String) (j : Nat)
    (hstab : ∀ x, x ∈ iterApply g.expand (j + 1) [u] ↔ x ∈ iterApply g.expand (j + 2) [u]) :
    ∀ m, j + 2 ≤ m → iterApply g.expand m [u] = iterApply g.expand (j + 2) [u] := by
  intro m hm
  have := iterApply_expand_stab_all u j hstab (m - (j + 2))
  have harith : j + 2 + (m - (j + 2)) = m := by omega
  rw [harith] at this
  exact this

theorem length_le_of_subset_nodup {l1 l2 : List String} (hnd1 : l1.Nodup)
    (hsub : ∀ x ∈ l1, x ∈ l2) : l1.length ≤ l2.length := by
  calc l1.length = l1.toFinset.card := (List.toFinset_card_of_nodup hnd1).symm
    _ ≤ l2.toFinset.card := Finset.card_le_card (fun x hx =>
        List.mem_toFinset.mpr (hsub x (List.mem_toFinset.mp hx)))
    _ ≤ l2.length := l2.toFinset_card_le

theorem length_lt_of_ssubset_nodup {l1 l2 : List String} (hnd1 : l1.Nodup)
    (hnd2 : l2.Nodup) (hsub : ∀ x ∈ l1, x ∈ l2) {y : String} (hy2 : y ∈ l2)
    (hy1 : y ∉ l1) : l1.length < l2.length := by
  have hss : l1.toFinset ⊂ l2.toFinset := by
    constructor
    · exact fun x hx => List.mem_toFinset.mpr (hsub x (List.mem_toFinset.mp hx))
    · intro hcontra
      exact hy1 (List.mem_toFinset.mp (hcontra (List.mem_toFinset.mpr hy2)))
  calc l1.length = l1.toFinset.card := (List.toFinset_card_of_nodup hnd1).symm
    _ < l2.toFinset.card := Finset.card_lt_card hss
    _ = l2.length := List.toFinset_card_of_nodup hnd2

theorem reach_exists_iter {g : NXGraph} (hwf : WFGraph g) {u v : String}
    (hu : u ∈ g.nodeIds) (hr : g.Reach u v) :
    ∃ k, v ∈ iterApply g.expand (k + 1) [u] := by
  induction hr with
  | refl =>
    refine ⟨0, ?_⟩
    show u ∈ g.expand [u]
    exact expand_progressive (List.mem_singleton.mpr rfl) hu
  | tail hab hbc ih =>
    rcases ih with ⟨k, hb⟩
    refine ⟨k + 1, ?_⟩
    rw [iterApply_succ_outside]
    exact mem_expand_iff.mpr ⟨NXGraph.adj_mem_right hwf hbc, Or.inr ⟨_, hb, hbc⟩⟩

theorem grow_of_no_stab {g : NXGraph} (hwf : WFGraph g) {u : String}
    (hu : u ∈ g.nodeIds) :
    ∀ (j : Nat),
      (∀ i, i < j →
        ¬ (∀ x, x ∈ iterApply g.expand (i + 1) [u] ↔ x ∈ iterApply g.expand (i + 2) [u])) →
      j + 1 ≤ (iterApply g.expand (j + 1) [u]).length := by
  intro j
  induction j with
  | zero =>
    intro _
    have hmem : u ∈ iterApply g.expand 1 [u] :=
      expand_progressive (List.mem_singleton.mpr rfl) hu
    have hne : iterApply g.expand 1 [u] ≠ [] := fun h => by
      rw [h] at hmem
      exact absurd hmem (List.not_mem_nil u)
    exact List.length_pos.mpr hne
  | succ j ih =>
    intro hno
    have hj := ih (fun i hi => hno i (by omega))
    have hns := hno j (by omega)
    have hxmem : ∃ x, x ∈ iterApply g.expand (j + 2) [u] ∧ x ∉ iterApply g.expand (j + 1) [u] := by
      by_contra hcon2
      push_neg at hcon2
      refine hns ?_
      intro x
      constructor
      · exact fun h1 => iterApply_expand_chain u j x h1
      · exact fun h2 => hcon2 x h2
    rcases hxmem with ⟨x, hx2, hx1⟩
    have hnd1 : (iterApply g.expand (j + 1) [u]).Nodup :=
      iterApply_expand_nodup hwf.nodup j [u]
    have hnd2 : (iterApply g.expand (j + 2) [u]).Nodup :=
      iterApply_expand_nodup hwf.nodup (j + 1) [u]
    have := length_lt_of_ssubset_nodup hnd1 hnd2 (iterApply_expand_chain u j) hx2 hx1
    show j + 1 + 1 ≤ (iterApply g.expand (j + 2) [u]).length
    omega

theorem componentOf_complete {g : NXGraph} (hwf : WFGraph g) {u v : String}
    (hu : u ∈ g.nodeIds) (hr : g.Reach u v) : v ∈ g.componentOf u := by
  classical
  rcases reach_exists_iter hwf hu hr with ⟨k, hk⟩
  have hnlen : g.nodeIds.length = g.nodes.length := by
    unfold NXGraph.nodeIds
    rw [List.length_map]
  have hn1 : 1 ≤ g.nodes.length := by
    have hne : g.nodeIds ≠ [] := fun h => by
      rw [h] at hu
      exact absurd hu (List.not_mem_nil u)
    have := List.length_pos.mpr hne
    omega
  show v ∈ iterApply g.expand g.nodes.length [u]
  by_cases hkn : k + 1 ≤ g.nodes.length
  · exact iterApply_expand_ge u hkn v hk
  · -- some stabilization index j < n exists
    have hstabex : ∃ j, j < g.nodes.length ∧
        (∀ x, x ∈ iterApply g.expand (j + 1) [u] ↔ x ∈ iterApply g.expand (j + 2) [u]) := by
      by_contra hcon
      rw [not_exists] at hcon
      have hgrow := grow_of_no_stab hwf hu g.nodes.length
        (fun i hi hall => hcon i ⟨hi, hall⟩)
      have hle : (iterApply g.expand (g.nodes.length + 1) [u]).length ≤ g.nodeIds.length :=
        length_le_of_subset_nodup (iterApply_expand_nodup hwf.nodup _ [u])
          (fun x hx => iterApply_expand_mem_nodeIds _ [u] x hx)
      omega
    rcases hstabex with ⟨j, hjn, hstab⟩
    have hvk : v ∈ iterApply g.expand (j + 2) [u] := by
      by_cases hkj : k + 1 ≤ j + 2
      · exact iterApply_expand_ge u hkj v hk
      · have := iterApply_expand_stab_ge u j hstab (k + 1) (by omega)
        rw [this] at hk
        exact hk
    by_cases hn2 : j + 2 ≤ g.nodes.length
    · have := iterApply_expand_stab_ge u j hstab g.nodes.length hn2
      rw [this]
      exact hvk
    · -- g.nodes.length = j + 1
      have hnj : g.nodes.length = j + 1 := by omega
      rw [hnj]
      exact (hstab v).mpr hvk

theorem mem_componentOf_iff {g : NXGraph} (hwf : WFGraph g) {u v : String}
    (hu : u ∈ g.nodeIds) : v ∈ g.componentOf u ↔ v ∈ g.nodeIds ∧ g.Reach u v := by
  have hn : g.nodes.length ≠ 0 := by
    intro h0
    have : g.nodes = [] := List.eq_nil_of_length_eq_zero h0
    rw [NXGraph.nodeIds, this] at hu
    exact absurd hu (List.not_mem_nil u)
  constructor
  · intro h
    exact ⟨componentOf_subset_nodeIds hn v h, componentOf_sound h⟩
  · rintro ⟨_, hr⟩
    exact componentOf_complete hwf hu hr

theorem filter_lists_eq_of_mem_iff {α : Type} {l : List α} {p q : α → Bool}
    (h : ∀ x, x ∈ l.filter p ↔ x ∈ l.filter q) : l.filter p = l.filter q := by
  refine List.filter_congr ?_
  intro x hx
  rw [Bool.eq_iff_iff]
  constructor
  · intro hp
    exact (List.mem_filter.mp ((h x).mp (List.mem_filter.mpr ⟨hx, hp⟩))).2
  · intro hq
    exact (List.mem_filter.mp ((h x).mpr (List.mem_filter.mpr ⟨hx, hq⟩))).2

/-- Components are canonical as lists: member-equal components are equal
(each is the node list filtered by a reachability predicate). -/
theorem componentOf_eq_of_mem_iff {g : NXGraph} {u v : String} (h : g.nodes.length ≠ 0)
    (hmem : ∀ x, x ∈ g.componentOf u ↔ x ∈ g.componentOf v) :
    g.componentOf u = g.componentOf v := by
  obtain ⟨n, hn⟩ : ∃ n, g.nodes.length = n + 1 := ⟨g.nodes.length - 1, by omega⟩
  unfold NXGraph.componentOf at hmem ⊢
  rw [hn] at hmem ⊢
  rw [iterApply_succ_outside g.expand n [u], iterApply_succ_outside g.expand n [v]] at hmem ⊢
  unfold NXGraph.expand at hmem ⊢
  exact filter_lists_eq_of_mem_iff hmem

theorem reach_symm {g : NXGraph} {u v : String} (h : g.Reach u v) : g.Reach v u :=
  Relation.ReflTransGen.symmetric (fun _ _ hadj => NXGraph.adj_symm hadj) h

theorem componentOf_eq_of_mem {g : NXGraph} (hwf : WFGraph g) {u v : String}
    (hu : u ∈ g.nodeIds) (hv : v ∈ g.componentOf u) :
    g.componentOf v = g.componentOf u := by
  have hruv : g.Reach u v := componentOf_sound hv
  have hvnode : v ∈ g.nodeIds := ((mem_componentOf_iff hwf hu).mp hv).1
  have hn : g.nodes.length ≠ 0 := by
    intro h0
    have : g.nodes = [] := List.eq_nil_of_length_eq_zero h0
    rw [NXGraph.nodeIds, this] at hu
    exact absurd hu (List.not_mem_nil u)
  refine componentOf_eq_of_mem_iff hn ?_
  intro x
  rw [mem_componentOf_iff hwf hvnode, mem_componentOf_iff hwf hu]
  constructor
  · rintro ⟨hx, hr⟩
    exact ⟨hx, hruv.trans hr⟩
  · rintro ⟨hx, hr⟩
    exact ⟨hx, (reach_symm hruv).trans hr⟩

theorem componentsGo_mem_is_component (g : NXGraph) :
    ∀ (l seen : List String) (c : List String), c ∈ componentsGo g l seen →
      ∃ u ∈ l, c = g.componentOf u := by
  intro l
  induction l with
  | nil => intro seen c hc; exact absurd hc (List.not_mem_nil c)
  | cons u rest ih =>
    intro seen c hc
    unfold componentsGo at hc
    by_cases hu : u ∈ seen
    · rw [if_pos hu] at hc
      rcases ih seen c hc with ⟨w, hw, hcw⟩
      exact ⟨w, List.mem_cons_of_mem u hw, hcw⟩
    · rw [if_neg hu] at hc
      rcases List.mem_cons.mp hc with rfl | hc'
      · exact ⟨u, List.mem_cons_self u rest, rfl⟩
      · rcases ih _ c hc' with ⟨w, hw, hcw⟩
        exact ⟨w, List.mem_cons_of_mem u hw, hcw⟩

theorem componentsGo_cover (g : NXGraph) (hwf : WFGraph g) :
    ∀ (l seen : List String), (∀ x ∈ l, x ∈ g.nodeIds) →
      ∀ u ∈ l, u ∈ seen ∨ ∃ c ∈ componentsGo g l seen, u ∈ c := by
  intro l
  induction l with
  | nil => intro seen _ u hu; exact absurd hu (List.not_mem_nil u)
  | cons v rest ih =>
    intro seen hsub u hu
    unfold componentsGo
    by_cases hv : v ∈ seen
    · rw [if_pos hv]
      rcases List.mem_cons.mp hu with rfl | hu'
      · exact Or.inl hv
      · exact ih seen (fun x hx => hsub x (List.mem_cons_of_mem v hx)) u hu'
    · rw [if_neg hv]
      rcases List.mem_cons.mp hu with rfl | hu'
      · refine Or.inr ⟨g.componentOf u, List.mem_cons_self _ _, ?_⟩
        exact (mem_componentOf_iff hwf (hsub u hu)).mpr
          ⟨hsub u hu, Relation.ReflTransGen.refl⟩
      · rcases ih (seen ++ g.componentOf v)
          (fun x hx => hsub x (List.mem_cons_of_mem v hx)) u hu' with h | ⟨c, hc, huc⟩
        · rcases List.mem_append.mp h with h1 | h1
          · exact Or.inl h1
          · exact Or.inr ⟨g.componentOf v, List.mem_cons_self _ _, h1⟩
        · exact Or.inr ⟨c, List.mem_cons_of_mem _ hc, huc⟩

theorem connectedComponents_are_components {g : NXGraph} {c : List String}
    (hc : c ∈ g.connectedComponents) : ∃ u ∈ g.nodeIds, c = g.componentOf u := by
  rcases componentsGo_mem_is_component g g.nodeIds [] c hc with ⟨u, hu, hcu⟩
  exact ⟨u, hu, hcu⟩

theorem connectedComponents_cover {g : NXGraph} (hwf : WFGraph g) {u : String}
    (hu : u ∈ g.nodeIds) : ∃ c ∈ g.connectedComponents, u ∈ c := by
  rcases componentsGo_cover g hwf g.nodeIds [] (fun x hx => hx) u hu with h | h
  · exact absurd h (List.not_mem_nil u)
  · exact h

/-- Python `max(key=len)` as a fold: the result is the first element of
maximal length — everything before it is strictly shorter, everything
after it no longer. -/
theorem pickMax_fold_first :
    ∀ (cs : List (List String)) (best : List String),
      ∃ l1 l2,
        best :: cs = l1 ++ (cs.foldl pickStep best) :: l2 ∧
        (∀ d ∈ l1, d.length < (cs.foldl pickStep best).length) ∧
        (∀ d ∈ l2, d.length ≤ (cs.foldl pickStep best).length) := by
  intro cs
  induction cs with
  | nil =>
    intro best
    exact ⟨[], [], rfl, by simp, by simp⟩
  | cons x cs ih =>
    intro best
    rw [List.foldl_cons]
    by_cases hlt : best.length < x.length
    · rw [show pickStep best x = x from if_pos hlt]
      rcases ih x with ⟨l1, l2, heq, hl1, hl2⟩
      refine ⟨best :: l1, l2, ?_, ?_, hl2⟩
      · rw [List.cons_append, ← heq]
      · intro d hd
        rcases List.mem_cons.mp hd with rfl | hd'
        · have hx : x.length ≤ (cs.foldl pickStep x).length := by
            rcases List.mem_append.mp (heq ▸ List.mem_cons_self x cs) with h1 | h1
            · exact le_of_lt (hl1 x h1)
            · rcases List.mem_cons.mp h1 with h2 | h2
              · exact le_of_eq (congrArg List.length h2)
              · exact hl2 x h2
          omega
        · exact hl1 d hd'
    · rw [show pickStep best x = best from if_neg hlt]
      rcases ih best with ⟨l1, l2, heq, hl1, hl2⟩
      match l1, heq, hl1 with
      | [], heq, hl1 =>
        have hres : cs.foldl pickStep best = best := by
          have h := congrArg (fun l : List (List String) => l.headI) heq
          simpa using h.symm
        have htail : cs = l2 := by
          have h := congrArg List.tail heq
          rw [hres] at h
          simpa using h
        refine ⟨[], x :: l2, ?_, by simp, ?_⟩
        · rw [List.nil_append, hres, ← htail]
        · intro d hd
          rcases List.mem_cons.mp hd with rfl | hd'
          · rw [hres]
            omega
          · exact hl2 d hd'
      | b0 :: l1', heq, hl1 =>
        have hb0 : best = b0 := by
          have h := congrArg (fun l : List (List String) => l.headI) heq
          simpa using h
        subst hb0
        have htail : cs = l1' ++ (cs.foldl pickStep best) :: l2 := by
          have h := congrArg List.tail heq
          simpa using h
        have hbest : best.length < (cs.foldl pickStep best).length :=
          hl1 best (List.mem_cons_self _ _)
        refine ⟨best :: x :: l1', l2, ?_, ?_, hl2⟩
        · rw [List.cons_append, List.cons_append, ← htail]
        · intro d hd
          rcases List.mem_cons.mp hd with rfl | hd'
          · exact hbest
          · rcases List.mem_cons.mp hd' with rfl | hd''
            · omega
            · exact hl1 d (List.mem_cons_of_mem _ hd'')

theorem pickMaxByLen_spec {l : List (List String)} {c : List String}
    (h : pickMaxByLen l = some c) :
    c ∈ l ∧ (∀ d ∈ l, d.length ≤ c.length) ∧
      ∃ l1 l2, l = l1 ++ c :: l2 ∧ ∀ d ∈ l1, d.length < c.length := by
  match l, h with
  | c0 :: cs, h =>
    have hc : cs.foldl pickStep c0 = c := Option.some.inj h
    rcases pickMax_fold_first cs c0 with ⟨l1, l2, heq, hl1, hl2⟩
    rw [hc] at heq hl1 hl2
    refine ⟨?_, ?_, l1, l2, heq, hl1⟩
    · rw [heq]
      exact List.mem_append_right l1 (List.mem_cons_self c l2)
    · intro d hd
      rw [heq] at hd
      rcases List.mem_append.mp hd with h1 | h1
      · exact le_of_lt (hl1 d h1)
      · rcases List.mem_cons.mp h1 with rfl | h2
        · exact le_refl _
        · exact hl2 d h2

/-! ### The edge view: membership characterization -/

theorem mem_incidentList_iff {edges : List (String × String × Props)} {u w : String}
    {d : Props} :
    (w, d) ∈ incidentList edges u ↔
      ((u, w, d) ∈ edges ∨ ((w, u, d) ∈ edges ∧ w ≠ u)) := by
  unfold incidentList
  rw [List.mem_filterMap]
  constructor
  · rintro ⟨⟨a, b, c⟩, he, hfe⟩
    dsimp only at hfe
    by_cases h1 : a = u
    · rw [if_pos h1] at hfe
      injection hfe with h
      injection h with hb hc
      subst h1
      subst hb
      subst hc
      exact Or.inl he
    · rw [if_neg h1] at hfe
      by_cases h2 : b = u
      · rw [if_pos h2] at hfe
        injection hfe with h
        injection h with ha hc
        subst h2
        subst hc
        subst ha
        exact Or.inr ⟨he, h1⟩
      · rw [if_neg h2] at hfe
        cases hfe
  · rintro (h | ⟨h, hne⟩)
    · refine ⟨(u, w, d), h, ?_⟩
      dsimp only
      rw [if_pos rfl]
    · refine ⟨(w, u, d), h, ?_⟩
      dsimp only
      rw [if_neg hne, if_pos rfl]

theorem iterEdgesUGo_mem (edges : List (String × String × Props)) :
    ∀ (l seen : List String) (e : String × String × Props),
      e ∈ iterEdgesUGo edges l seen → e ∈ edges ∨ (e.2.1, e.1, e.2.2) ∈ edges := by
  intro l
  induction l with
  | nil => intro seen e he; exact absurd he (List.not_mem_nil e)
  | cons u rest ih =>
    intro seen e he
    unfold iterEdgesUGo at he
    rcases List.mem_append.mp he with h1 | h1
    · rcases List.mem_filterMap.mp h1 with ⟨⟨w, d⟩, hwd, hif⟩
      dsimp only at hif
      by_cases hseen : w ∈ seen
      · rw [if_pos hseen] at hif
        cases hif
      · rw [if_neg hseen] at hif
        injection hif with h
        subst h
        rcases mem_incidentList_iff.mp hwd with h2 | ⟨h2, _⟩
        · exact Or.inl h2
        · exact Or.inr h2
    · exact ih _ e h1

theorem iterEdgesUGo_complete (edges : List (String × String × Props)) :
    ∀ (l seen : List String), (seen ++ l).Nodup →
      ∀ (a b : String) (d : Props), (a, b, d) ∈ edges → a ∈ l → b ∈ l →
        (a, b, d) ∈ iterEdgesUGo edges l seen ∨
        (b, a, d) ∈ iterEdgesUGo edges l seen := by
  intro l
  induction l with
  | nil => intro seen _ a b d _ ha _; exact absurd ha (List.not_mem_nil a)
  | cons u rest ih =>
    intro seen hnd a b d he ha hb
    have hdisj : ∀ x, x ∈ seen → x ∈ u :: rest → False := by
      intro x hx1 hx2
      rcases List.nodup_append.mp hnd with ⟨_, _, hdis⟩
      exact hdis hx1 hx2
    unfold iterEdgesUGo
    by_cases hau : a = u
    · subst hau
      have hbseen : b ∉ seen := fun hbs => hdisj b hbs hb
      left
      refine List.mem_append.mpr (Or.inl ?_)
      refine List.mem_filterMap.mpr ⟨(b, d), ?_, ?_⟩
      · exact mem_incidentList_iff.mpr (Or.inl he)
      · dsimp only
        rw [if_neg hbseen]
    · by_cases hbu : b = u
      · subst hbu
        have haseen : a ∉ seen := fun has => hdisj a has ha
        right
        refine List.mem_append.mpr (Or.inl ?_)
        refine List.mem_filterMap.mpr ⟨(a, d), ?_, ?_⟩
        · exact mem_incidentList_iff.mpr (Or.inr ⟨he, hau⟩)
        · dsimp only
          rw [if_neg haseen]
      · have ha' : a ∈ rest := by
          rcases List.mem_cons.mp ha with h | h
          · exact absurd h hau
          · exact h
        have hb' : b ∈ rest := by
          rcases List.mem_cons.mp hb with h | h
          · exact absurd h hbu
          · exact h
        have hnd' : (seen ++ [u] ++ rest).Nodup := by
          have : seen ++ [u] ++ rest = seen ++ u :: rest := by
            rw [List.append_assoc]
            rfl
          rw [this]
          exact hnd
        rcases ih (seen ++ [u]) hnd' a b d he ha' hb' with h | h
        · exact Or.inl (List.mem_append.mpr (Or.inr h))
        · exact Or.inr (List.mem_append.mpr (Or.inr h))

theorem iterEdges_mem {g : NXGraph} {e : String × String × Props}
    (he : e ∈ g.iterEdges) :
    e ∈ g.edges ∨ (g.directed = false ∧ (e.2.1, e.1, e.2.2) ∈ g.edges) := by
  unfold NXGraph.iterEdges at he
  by_cases hd : g.directed = true
  · rw [if_pos hd] at he
    rcases List.mem_flatMap.mp he with ⟨u, _, hmem⟩
    exact Or.inl (List.mem_filter.mp hmem).1
  · rw [if_neg hd] at he
    rcases iterEdgesUGo_mem g.edges g.nodeIds [] e he with h | h
    · exact Or.inl h
    · exact Or.inr ⟨bool_eq_false hd, h⟩

theorem iterEdges_complete {g : NXGraph} (hwf : WFGraph g)
    {a b : String} {d : Props} (he : (a, b, d) ∈ g.edges) :
    (a, b, d) ∈ g.iterEdges ∨
      (g.directed = false ∧ (b, a, d) ∈ g.iterEdges) := by
  unfold NXGraph.iterEdges
  by_cases hd : g.directed = true
  · rw [if_pos hd]
    left
    refine List.mem_flatMap.mpr ⟨a, hwf.srcMem _ he, ?_⟩
    refine List.mem_filter.mpr ⟨he, ?_⟩
    exact beq_self_eq_true a
  · rw [if_neg hd]
    have hnd : (([] : List String) ++ g.nodeIds).Nodup := by
      simpa using hwf.nodup
    rcases iterEdgesUGo_complete g.edges g.nodeIds [] hnd a b d he
      (hwf.srcMem _ he) (hwf.tgtMem _ he) with h | h
    · exact Or.inl h
    · exact Or.inr ⟨bool_eq_false hd, h⟩

theorem iterEdges_endpoints_mem {g : NXGraph} (hwf : WFGraph g)
    {e : String × String × Props} (he : e ∈ g.iterEdges) :
    e.1 ∈ g.nodeIds ∧ e.2.1 ∈ g.nodeIds := by
  rcases iterEdges_mem he with h | ⟨_, h⟩
  · exact ⟨hwf.srcMem e h, hwf.tgtMem e h⟩
  · exact ⟨hwf.tgtMem _ h, hwf.srcMem _ h⟩

/-! ### Structure of graphs built by add operations -/

theorem ensureNode_directed (g : NXGraph) (id : String) :
    (g.ensureNode id).directed = g.directed := by
  unfold NXGraph.ensureNode
  split
  · rfl
  · rfl

theorem ensureNode_edges (g : NXGraph) (id : String) :
    (g.ensureNode id).edges = g.edges := by
  unfold NXGraph.ensureNode
  split
  · rfl
  · rfl

theorem ensureNode_of_mem {g : NXGraph} {id : String} (h : id ∈ g.nodeIds) :
    g.ensureNode id = g := by
  unfold NXGraph.ensureNode
  have hb : g.hasNodeB id = true := decide_eq_true h
  rw [if_pos hb]

theorem addEdge_directed (g : NXGraph) (u v : String) (d : Props) :
    (g.addEdge u v d).directed = g.directed := by
  unfold NXGraph.addEdge
  dsimp only
  split
  · show ((g.ensureNode u).ensureNode v).directed = g.directed
    rw [ensureNode_directed, ensureNode_directed]
  · show ((g.ensureNode u).ensureNode v).directed = g.directed
    rw [ensureNode_directed, ensureNode_directed]

theorem addEdge_edges (g : NXGraph) (u v : String) (d : Props) :
    (g.addEdge u v d).edges =
      if g.edges.any (edgeMatches g.directed u v) then
        g.edges.map (fun e =>
          if edgeMatches g.directed u v e then (e.1, e.2.1, dictUpdate e.2.2 d) else e)
      else g.edges ++ [(u, v, d)] := by
  unfold NXGraph.addEdge
  dsimp only
  rw [ensureNode_edges, ensureNode_edges]
  split
  · rfl
  · rfl

theorem addEdge_nodes_of_mem {g : NXGraph} {u v : String} (d : Props)
    (hu : u ∈ g.nodeIds) (hv : v ∈ g.nodeIds) : (g.addEdge u v d).nodes = g.nodes := by
  rw [addEdge_nodes_eq, ensureNode_of_mem hu, ensureNode_of_mem hv]

theorem addNode_edges (g : NXGraph) (id : String) (d : Props) :
    (g.addNode id d).edges = g.edges := by
  unfold NXGraph.addNode
  split
  · rfl
  · rfl

theorem addNode_directed (g : NXGraph) (id : String) (d : Props) :
    (g.addNode id d).directed = g.directed := by
  unfold NXGraph.addNode
  split
  · rfl
  · rfl

theorem addNodesFrom_edges (l : List (String × Props)) :
    ∀ (g : NXGraph), (g.addNodesFrom l).edges = g.edges := by
  induction l with
  | nil => intro g; rfl
  | cons nd rest ih =>
    intro g
    show ((g.addNode nd.1 nd.2).addNodesFrom rest).edges = g.edges
    rw [ih, addNode_edges]

theorem addNodesFrom_directed (l : List (String × Props)) :
    ∀ (g : NXGraph), (g.addNodesFrom l).directed = g.directed := by
  induction l with
  | nil => intro g; rfl
  | cons nd rest ih =>
    intro g
    show ((g.addNode nd.1 nd.2).addNodesFrom rest).directed = g.directed
    rw [ih, addNode_directed]

theorem addNodesFrom_nodes_disjoint :
    ∀ (l : List (String × Props)) (g : NXGraph), (l.map Prod.fst).Nodup →
      (∀ nd ∈ l, nd.1 ∉ g.nodeIds) → (g.addNodesFrom l).nodes = g.nodes ++ l := by
  intro l
  induction l with
  | nil => intro g _ _; simp [NXGraph.addNodesFrom]
  | cons nd rest ih =>
    intro g hnd hdisj
    simp only [List.map_cons, List.nodup_cons] at hnd
    show ((g.addNode nd.1 nd.2).addNodesFrom rest).nodes = g.nodes ++ nd :: rest
    have hmiss : g.hasNodeB nd.1 = false :=
      decide_eq_false (hdisj nd (List.mem_cons_self _ _))
    have hstep : (g.addNode nd.1 nd.2).nodes = g.nodes ++ [(nd.1, nd.2)] := by
      unfold NXGraph.addNode
      rw [hmiss]
      simp
    have hids : (g.addNode nd.1 nd.2).nodeIds = g.nodeIds ++ [nd.1] := by
      unfold NXGraph.nodeIds
      rw [hstep, List.map_append]
      rfl
    rw [ih (g.addNode nd.1 nd.2) hnd.2 ?_, hstep]
    · simp
    · intro nd' hnd'
      rw [hids]
      intro hmem
      rcases List.mem_append.mp hmem with h1 | h1
      · exact hdisj nd' (List.mem_cons_of_mem _ hnd') h1
      · rcases List.mem_singleton.mp h1 with h2
        exact hnd.1 (h2 ▸ List.mem_map.mpr ⟨nd', hnd', rfl⟩)

theorem addNodesFrom_fresh (dir : Bool) (l : List (String × Props))
    (hnd : (l.map Prod.fst).Nodup) :
    ((emptyGraph dir).addNodesFrom l).nodes = l := by
  have := addNodesFrom_nodes_disjoint l (emptyGraph dir) hnd
    (fun nd _ hmem => absurd hmem (List.not_mem_nil _))
  simpa [emptyGraph] using this

theorem sortPair_eq_sortPair_iff {p q : String × String} :
    sortPair p = sortPair q ↔ (p = q ∨ p = (q.2, q.1)) := by
  obtain ⟨a, b⟩ := p
  obtain ⟨c, d⟩ := q
  unfold sortPair
  dsimp only
  constructor
  · intro h
    by_cases h1 : pyStrLt b a = true <;> by_cases h2 : pyStrLt d c = true
    · rw [if_pos h1, if_pos h2] at h
      injection h with hx hy
      subst hx; subst hy
      exact Or.inl rfl
    · rw [if_pos h1, if_neg h2] at h
      injection h with hx hy
      subst hx; subst hy
      exact Or.inr rfl
    · rw [if_neg h1, if_pos h2] at h
      injection h with hx hy
      subst hx; subst hy
      exact Or.inr rfl
    · rw [if_neg h1, if_neg h2] at h
      injection h with hx hy
      subst hx; subst hy
      exact Or.inl rfl
  · rintro (h | h)
    · injection h with hx hy
      subst hx; subst hy
      rfl
    · injection h with hx hy
      subst hx; subst hy
      by_cases h1 : pyStrLt b a = true
      · rw [if_pos h1, if_neg (by rw [pyStrLt_asymm h1]; exact fun hc => Bool.noConfusion hc)]
      · by_cases h2 : pyStrLt a b = true
        · rw [if_neg h1, if_pos h2]
        · have : a = b := pyStrLt_antisymm (bool_eq_false h2) (bool_eq_false h1)
          subst this
          rfl

theorem canonPair_false (p : String × String) : canonPair false p = sortPair p := by
  unfold canonPair
  rw [if_neg (fun h => Bool.noConfusion h)]

theorem canonPair_true (p : String × String) : canonPair true p = p := by
  unfold canonPair
  rw [if_pos rfl]

theorem edgeMatches_iff_canonPair {dir : Bool} {u v : String}
    {e : String × String × Props} :
    edgeMatches dir u v e = true ↔ canonPair dir (pairOf e) = canonPair dir (u, v) := by
  unfold edgeMatches pairOf
  obtain ⟨a, b, c⟩ := e
  dsimp only
  cases dir
  · rw [canonPair_false, canonPair_false]
    constructor
    · intro h
      rcases bor_iff.mp h with h1 | h1
      · rcases band_iff.mp h1 with ⟨ha, hb⟩
        rw [eq_of_beq ha, eq_of_beq hb]
      · rcases band_iff.mp h1 with ⟨h2, hb⟩
        rcases band_iff.mp h2 with ⟨_, ha⟩
        rw [eq_of_beq ha, eq_of_beq hb]
        exact sortPair_eq_sortPair_iff.mpr (Or.inr rfl)
    · intro h
      rcases sortPair_eq_sortPair_iff.mp h with h1 | h1
      · injection h1 with hx hy
        subst hx; subst hy
        exact bor_iff.mpr (Or.inl (band_iff.mpr ⟨beq_self_eq_true a, beq_self_eq_true b⟩))
      · injection h1 with hx hy
        subst hx; subst hy
        refine bor_iff.mpr (Or.inr ?_)
        exact band_iff.mpr
          ⟨band_iff.mpr ⟨rfl, beq_self_eq_true a⟩, beq_self_eq_true b⟩
  · rw [canonPair_true, canonPair_true]
    constructor
    · intro h
      rcases bor_iff.mp h with h1 | h1
      · rcases band_iff.mp h1 with ⟨ha, hb⟩
        rw [eq_of_beq ha, eq_of_beq hb]
      · rcases band_iff.mp h1 with ⟨h2, _⟩
        rcases band_iff.mp h2 with ⟨hd, _⟩
        cases hd
    · intro h
      injection h with hx hy
      subst hx; subst hy
      exact bor_iff.mpr (Or.inl (band_iff.mpr ⟨beq_self_eq_true a, beq_self_eq_true b⟩))

theorem addEdge_canonPairs_mem (g : NXGraph) (u v : String) (d : Props)
    (x : String × String) :
    x ∈ canonPairs (g.addEdge u v d) ↔
      x ∈ canonPairs g ∨ x = canonPair g.directed (u, v) := by
  unfold canonPairs
  rw [addEdge_directed, addEdge_edges]
  by_cases hmatch : g.edges.any (edgeMatches g.directed u v) = true
  · rw [if_pos hmatch]
    have hmap : (g.edges.map (fun e =>
        if edgeMatches g.directed u v e then (e.1, e.2.1, dictUpdate e.2.2 d) else e)).map
          (fun e => canonPair g.directed (pairOf e))
        = g.edges.map (fun e => canonPair g.directed (pairOf e)) := by
      rw [List.map_map]
      refine List.map_congr_left ?_
      intro e _
      show canonPair g.directed (pairOf
        (if edgeMatches g.directed u v e then (e.1, e.2.1, dictUpdate e.2.2 d) else e))
        = canonPair g.directed (pairOf e)
      by_cases hm : edgeMatches g.directed u v e = true
      · rw [if_pos hm]
        rfl
      · rw [if_neg hm]
    rw [hmap]
    constructor
    · exact Or.inl
    · rintro (hx | rfl)
      · exact hx
      · rcases List.any_eq_true.mp hmatch with ⟨e, he, hm⟩
        have hce := edgeMatches_iff_canonPair.mp hm
        rw [← hce]
        exact List.mem_map.mpr ⟨e, he, rfl⟩
  · rw [if_neg hmatch, List.map_append]
    constructor
    · intro hx
      rcases List.mem_append.mp hx with h1 | h1
      · exact Or.inl h1
      · have := List.mem_singleton.mp h1
        exact Or.inr this
    · rintro (hx | rfl)
      · exact List.mem_append.mpr (Or.inl hx)
      · refine List.mem_append.mpr (Or.inr ?_)
        exact List.mem_singleton.mpr rfl

theorem addEdgesFrom_directed (l : List (String × String × Props)) :
    ∀ (g : NXGraph), (g.addEdgesFrom l).directed = g.directed := by
  induction l with
  | nil => intro g; rfl
  | cons e rest ih =>
    intro g
    show ((g.addEdge e.1 e.2.1 e.2.2).addEdgesFrom rest).directed = g.directed
    rw [ih, addEdge_directed]

theorem addEdgesFrom_canonPairs_mem (l : List (String × String × Props)) :
    ∀ (g : NXGraph) (x : String × String),
      x ∈ canonPairs (g.addEdgesFrom l) ↔
        x ∈ canonPairs g ∨ ∃ e ∈ l, x = canonPair g.directed (pairOf e) := by
  induction l with
  | nil =>
    intro g x
    show x ∈ canonPairs g ↔ _
    simp
  | cons e rest ih =>
    intro g x
    show x ∈ canonPairs ((g.addEdge e.1 e.2.1 e.2.2).addEdgesFrom rest) ↔ _
    rw [ih, addEdge_canonPairs_mem, addEdge_directed]
    constructor
    · rintro ((hx | rfl) | ⟨e', he', hx⟩)
      · exact Or.inl hx
      · exact Or.inr ⟨e, List.mem_cons_self _ _, rfl⟩
      · exact Or.inr ⟨e', List.mem_cons_of_mem _ he', hx⟩
    · rintro (hx | ⟨e', he', hx⟩)
      · exact Or.inl (Or.inl hx)
      · rcases List.mem_cons.mp he' with rfl | he''
        · exact Or.inl (Or.inr hx)
        · exact Or.inr ⟨e', he'', hx⟩

theorem addEdgesFrom_nodes_of_mem (l : List (String × String × Props)) :
    ∀ (g : NXGraph), (∀ e ∈ l, e.1 ∈ g.nodeIds ∧ e.2.1 ∈ g.nodeIds) →
      (g.addEdgesFrom l).nodes = g.nodes := by
  induction l with
  | nil => intro g _; rfl
  | cons e rest ih =>
    intro g hmem
    show ((g.addEdge e.1 e.2.1 e.2.2).addEdgesFrom rest).nodes = g.nodes
    have hstep : (g.addEdge e.1 e.2.1 e.2.2).nodes = g.nodes :=
      addEdge_nodes_of_mem e.2.2 (hmem e (List.mem_cons_self _ _)).1
        (hmem e (List.mem_cons_self _ _)).2
    have hids : (g.addEdge e.1 e.2.1 e.2.2).nodeIds = g.nodeIds := by
      unfold NXGraph.nodeIds
      rw [hstep]
    rw [ih _ ?_, hstep]
    intro e' he'
    rw [hids]
    exact hmem e' (List.mem_cons_of_mem _ he')

theorem addEdgesFrom_edges_of_no_match :
    ∀ (l : List (String × String × Props)) (g : NXGraph),
      (∀ e2 ∈ l, ∀ e1 ∈ g.edges, edgeMatches g.directed e2.1 e2.2.1 e1 = false) →
      l.Pairwise (fun e1 e2 => edgeMatches g.directed e2.1 e2.2.1 e1 = false) →
      (g.addEdgesFrom l).edges = g.edges ++ l := by
  intro l
  induction l with
  | nil => intro g _ _; simp [NXGraph.addEdgesFrom]
  | cons e rest ih =>
    intro g hg hpw
    rcases List.pairwise_cons.mp hpw with ⟨he, hrest⟩
    show ((g.addEdge e.1 e.2.1 e.2.2).addEdgesFrom rest).edges = g.edges ++ e :: rest
    have hnomatch : ¬ g.edges.any (edgeMatches g.directed e.1 e.2.1) = true := by
      intro hany
      rcases List.any_eq_true.mp hany with ⟨e1, he1, hm⟩
      rw [hg e (List.mem_cons_self _ _) e1 he1] at hm
      cases hm
    have hstep : (g.addEdge e.1 e.2.1 e.2.2).edges = g.edges ++ [e] := by
      rw [addEdge_edges, if_neg hnomatch]
    have hdir : (g.addEdge e.1 e.2.1 e.2.2).directed = g.directed :=
      addEdge_directed g e.1 e.2.1 e.2.2
    rw [ih (g.addEdge e.1 e.2.1 e.2.2) ?_ ?_]
    · rw [hstep, List.append_assoc]
      rfl
    · intro e2 he2 e1 he1
      rw [hdir]
      rw [hstep] at he1
      rcases List.mem_append.mp he1 with h1 | h1
      · exact hg e2 (List.mem_cons_of_mem _ he2) e1 h1
      · have h2 := List.mem_singleton.mp h1
        rw [h2]
        exact he e2 he2
    · refine hrest.imp ?_
      intro e1 e2 h12
      rw [hdir]
      exact h12

theorem addEdge_pairs (g : NXGraph) (u v : String) (d : Props) :
    ∃ t : List (String × String), (g.addEdge u v d).edges.map pairOf = g.edges.map pairOf ++ t ∧
      (t = [] ∨ t = [(u, v)]) := by
  rw [addEdge_edges]
  by_cases hmatch : g.edges.any (edgeMatches g.directed u v) = true
  · rw [if_pos hmatch]
    refine ⟨[], ?_, Or.inl rfl⟩
    rw [List.append_nil, List.map_map]
    refine List.map_congr_left ?_
    intro e _
    show pairOf (if edgeMatches g.directed u v e then (e.1, e.2.1, dictUpdate e.2.2 d) else e)
      = pairOf e
    by_cases hm : edgeMatches g.directed u v e = true
    · rw [if_pos hm]
      rfl
    · rw [if_neg hm]
  · rw [if_neg hmatch]
    exact ⟨[(u, v)], by rw [List.map_append]; rfl, Or.inr rfl⟩

theorem addEdgesFrom_pairs_sublist :
    ∀ (l : List (String × String × Props)) (g : NXGraph),
      ∃ l' : List (String × String × Props), l'.Sublist l ∧
        (g.addEdgesFrom l).edges.map pairOf = g.edges.map pairOf ++ l'.map pairOf := by
  intro l
  induction l with
  | nil => intro g; exact ⟨[], List.Sublist.refl _, by simp [NXGraph.addEdgesFrom]⟩
  | cons e rest ih =>
    intro g
    rcases ih (g.addEdge e.1 e.2.1 e.2.2) with ⟨l', hsub, heq⟩
    rcases addEdge_pairs g e.1 e.2.1 e.2.2 with ⟨t, hedge, ht⟩
    show ∃ l'' : List (String × String × Props), l''.Sublist (e :: rest) ∧
      ((g.addEdge e.1 e.2.1 e.2.2).addEdgesFrom rest).edges.map pairOf
        = g.edges.map pairOf ++ l''.map pairOf
    rcases ht with rfl | rfl
    · refine ⟨l', hsub.cons e, ?_⟩
      rw [heq, hedge, List.append_nil]
    · refine ⟨e :: l', hsub.cons₂ e, ?_⟩
      rw [heq, hedge, List.append_assoc]
      rfl

theorem sortSourceTarget_min_first (e : String × String × Props) :
    pyStrLt (sortSourceTarget e).2.1 (sortSourceTarget e).1 = false := by
  unfold sortSourceTarget
  by_cases h : pyStrLt e.2.1 e.1 = true
  · rw [if_pos h]
    exact pyStrLt_asymm h
  · rw [if_neg h]
    exact Bool.eq_false_iff.mpr h

theorem pairOf_sortSourceTarget (e : String × String × Props) :
    pairOf (sortSourceTarget e) = sortPair (pairOf e) := by
  unfold sortSourceTarget sortPair pairOf
  dsimp only
  by_cases h : pyStrLt e.2.1 e.1 = true
  · rw [if_pos h, if_pos h]
  · rw [if_neg h, if_neg h]

theorem edgeLt_trans (a b c : String × String × Props)
    (h1 : edgeLt a b = true) (h2 : edgeLt b c = true) : edgeLt a c = true :=
  pyStrLt_trans h1 h2

theorem edgeLt_asymm (a b : String × String × Props) (h : edgeLt a b = true) :
    edgeLt b a = false :=
  pyStrLt_asymm h

theorem nodeLt_trans (a b c : String × Props)
    (h1 : nodeLt a b = true) (h2 : nodeLt b c = true) : nodeLt a c = true :=
  pyStrLt_trans h1 h2

theorem nodeLt_asymm (a b : String × Props) (h : nodeLt a b = true) :
    nodeLt b a = false :=
  pyStrLt_asymm h

theorem subgraphCopy_directed (g : NXGraph) (c : List String) :
    (g.subgraphCopy c).directed = g.directed := rfl

theorem relabel_nodes_directed (g : NXGraph) (m : String → String) :
    (relabel_nodes g m).directed = g.directed := by
  unfold relabel_nodes
  rw [addEdgesFrom_directed]

theorem stabilize_graph_directed (g : NXGraph) :
    (stabilize_graph g).directed = g.directed := by
  unfold stabilize_graph
  rw [addEdgesFrom_directed, addNodesFrom_directed]
  rfl

theorem stabilize_graph_edges_pairs (g : NXGraph) :
    ∃ l' : List (String × String × Props), l'.Sublist (sortBy edgeLt
        (if g.directed then g.iterEdges else g.iterEdges.map sortSourceTarget)) ∧
      (stabilize_graph g).edges.map pairOf = l'.map pairOf := by
  unfold stabilize_graph
  rcases addEdgesFrom_pairs_sublist
      (sortBy edgeLt (if g.directed then g.iterEdges else g.iterEdges.map sortSourceTarget))
      ((emptyGraph g.directed).addNodesFrom (sortBy nodeLt g.nodes)) with ⟨l', hsub, heq⟩
  refine ⟨l', hsub, ?_⟩
  rw [heq, addNodesFrom_edges]
  rfl

/-- C6: when `stable_largest_connected_component` (the canonicalization
pipeline) returns a graph, an undirected input yields only edges whose
stored source is not lexicographically greater than the stored target
(so an input edge (B, A) can only be emitted as (A, B)), and the output
edge list is sorted by the Python string "source -> target"; for a
directed input every output edge keeps the orientation of an edge of the
relabeled component's edge view, i.e. original direction is preserved. -/
theorem stable_lcc_edge_emission (g H : NXGraph)
    (h : stable_largest_connected_component g = some H) :
    (g.directed = false → ∀ e ∈ H.edges, pyStrLt e.2.1 e.1 = false)
    ∧ H.edges.Pairwise (sortedLe edgeLt)
    ∧ (g.directed = true → ∃ c, pickMaxByLen g.connectedComponents = some c ∧
        ∀ e ∈ H.edges, pairOf e ∈
          ((relabel_nodes (g.subgraphCopy c) normalizeNodeId).iterEdges.map pairOf)) := by
  unfold stable_largest_connected_component largest_connected_component at h
  rcases hpick : pickMaxByLen g.connectedComponents with _ | c
  · rw [hpick] at h
    cases h
  · rw [hpick] at h
    simp only [Option.map_some', Option.some.injEq] at h
    have hH : H = stabilize_graph (relabel_nodes (g.subgraphCopy c) normalizeNodeId) :=
      h.symm
    subst hH
    rcases stabilize_graph_edges_pairs (relabel_nodes (g.subgraphCopy c) normalizeNodeId)
      with ⟨l', hsub, hpairs⟩
    have hGdir : (relabel_nodes (g.subgraphCopy c) normalizeNodeId).directed = g.directed := by
      rw [relabel_nodes_directed, subgraphCopy_directed]
    refine ⟨?_, ?_, ?_⟩
    · intro hd e he
      have hmem1 : pairOf e ∈ l'.map pairOf := by
        rw [← hpairs]
        exact List.mem_map.mpr ⟨e, he, rfl⟩
      have hmem2 := (hsub.map pairOf).subset hmem1
      rcases List.mem_map.mp hmem2 with ⟨e', he', hpe⟩
      have he'' := (sortBy_perm edgeLt _).mem_iff.mp he'
      have hbranch : (if (relabel_nodes (g.subgraphCopy c) normalizeNodeId).directed then
            (relabel_nodes (g.subgraphCopy c) normalizeNodeId).iterEdges
          else (relabel_nodes (g.subgraphCopy c) normalizeNodeId).iterEdges.map sortSourceTarget)
          = (relabel_nodes (g.subgraphCopy c) normalizeNodeId).iterEdges.map sortSourceTarget := by
        rw [hGdir, hd]
        simp
      rw [hbranch] at he''
      rcases List.mem_map.mp he'' with ⟨e0, _, he0⟩
      have hmin : pyStrLt e'.2.1 e'.1 = false := by
        rw [← he0]
        exact sortSourceTarget_min_first e0
      have h1 : e'.1 = e.1 := congrArg (fun p : String × String => p.1) hpe
      have h2 : e'.2.1 = e.2.1 := congrArg (fun p : String × String => p.2) hpe
      rw [← h1, ← h2]
      exact hmin
    · have hLpw := sortBy_pairwise edgeLt edgeLt_trans edgeLt_asymm
        (if (relabel_nodes (g.subgraphCopy c) normalizeNodeId).directed then
            (relabel_nodes (g.subgraphCopy c) normalizeNodeId).iterEdges
          else (relabel_nodes (g.subgraphCopy c) normalizeNodeId).iterEdges.map sortSourceTarget)
      have hl'pw := hLpw.sublist hsub
      have hmappw : (l'.map pairOf).Pairwise
          (fun p q : String × String =>
            pyStrLt (edgeKeyStr q.1 q.2) (edgeKeyStr p.1 p.2) = false) := by
        rw [List.pairwise_map]
        exact hl'pw
      rw [← hpairs] at hmappw
      have := List.pairwise_map.mp hmappw
      exact this
    · intro hd
      refine ⟨c, rfl, ?_⟩
      intro e he
      have hmem1 : pairOf e ∈ l'.map pairOf := by
        rw [← hpairs]
        exact List.mem_map.mpr ⟨e, he, rfl⟩
      have hmem2 := (hsub.map pairOf).subset hmem1
      rcases List.mem_map.mp hmem2 with ⟨e', he', hpe⟩
      have he'' := (sortBy_perm edgeLt _).mem_iff.mp he'
      have hbranch : (if (relabel_nodes (g.subgraphCopy c) normalizeNodeId).directed then
            (relabel_nodes (g.subgraphCopy c) normalizeNodeId).iterEdges
          else (relabel_nodes (g.subgraphCopy c) normalizeNodeId).iterEdges.map sortSourceTarget)
          = (relabel_nodes (g.subgraphCopy c) normalizeNodeId).iterEdges := by
        rw [hGdir, hd]
        simp
      rw [hbranch] at he''
      rw [← hpe]
      exact List.mem_map.mpr ⟨e', he'', rfl⟩

theorem stable_lcc_edge_emission_witness :
    stable_largest_connected_component
        ⟨false, [("b", [("x", "1")]), ("a", [])], [("b", "a", [("w", "2")])]⟩
      = some ⟨false, [("A", []), ("B", [("x", "1")])], [("A", "B", [("w", "2")])]⟩
    ∧ ((⟨false, [("A", []), ("B", [("x", "1")])],
          [("A", "B", [("w", "2")])]⟩ : NXGraph).edges.map pairOf
        = [("A", "B")]) ∧
      (∀ e ∈ (⟨false, [("A", []), ("B", [("x", "1")])],
          [("A", "B", [("w", "2")])]⟩ : NXGraph).edges, pyStrLt e.2.1 e.1 = false) :=
  ⟨by decide, by decide,
    (stable_lcc_edge_emission
      ⟨false, [("b", [("x", "1")]), ("a", [])], [("b", "a", [("w", "2")])]⟩
      ⟨false, [("A", []), ("B", [("x", "1")])], [("A", "B", [("w", "2")])]⟩
      (by decide)).1 rfl⟩

/-- C4 (amended): when the canonicalization pipeline returns a graph, it
is the stabilized relabeling of the subgraph on a size-maximal connected
component, where a tie between equally sized components is broken by
picking the component listed first in node-insertion order (Python's
`max(key=len)` keeps the first maximum), not the component containing
the lexicographically smallest node id. -/
theorem stable_lcc_retains_first_max (g H : NXGraph)
    (h : stable_largest_connected_component g = some H) :
    ∃ c l1 l2, g.connectedComponents = l1 ++ c :: l2 ∧
      (∀ d ∈ l1, d.length < c.length) ∧
      (∀ d ∈ g.connectedComponents, d.length ≤ c.length) ∧
      (∃ u ∈ g.nodeIds, c = g.componentOf u) ∧
      H = stabilize_graph (relabel_nodes (g.subgraphCopy c) normalizeNodeId) := by
  unfold stable_largest_connected_component largest_connected_component at h
  rcases hpick : pickMaxByLen g.connectedComponents with _ | c
  · rw [hpick] at h
    cases h
  · rw [hpick] at h
    simp only [Option.map_some', Option.some.injEq] at h
    rcases pickMaxByLen_spec hpick with ⟨hmem, hle, l1, l2, hsplit, hl1⟩
    exact ⟨c, l1, l2, hsplit, hl1, hle, connectedComponents_are_components hmem, h.symm⟩

theorem stable_lcc_retains_first_max_witness :
    ∃ c l1 l2,
      (⟨false, [("p", []), ("q", []), ("r", []), ("s", []), ("t", [])],
        [("p", "q", []), ("q", "r", []), ("s", "t", [])]⟩ : NXGraph).connectedComponents
        = l1 ++ c :: l2 ∧
      (∀ d ∈ l1, d.length < c.length) ∧
      (∀ d ∈ (⟨false, [("p", []), ("q", []), ("r", []), ("s", []), ("t", [])],
        [("p", "q", []), ("q", "r", []), ("s", "t", [])]⟩ : NXGraph).connectedComponents,
        d.length ≤ c.length) ∧
      (∃ u ∈ (⟨false, [("p", []), ("q", []), ("r", []), ("s", []), ("t", [])],
        [("p", "q", []), ("q", "r", []), ("s", "t", [])]⟩ : NXGraph).nodeIds,
        c = NXGraph.componentOf ⟨false, [("p", []), ("q", []), ("r", []), ("s", []), ("t", [])],
          [("p", "q", []), ("q", "r", []), ("s", "t", [])]⟩ u) ∧
      (⟨false, [("P", []), ("Q", []), ("R", [])],
        [("P", "Q", []), ("Q", "R", [])]⟩ : NXGraph)
        = stabilize_graph (relabel_nodes
            (NXGraph.subgraphCopy ⟨false, [("p", []), ("q", []), ("r", []), ("s", []), ("t", [])],
              [("p", "q", []), ("q", "r", []), ("s", "t", [])]⟩ c) normalizeNodeId) :=
  stable_lcc_retains_first_max
    ⟨false, [("p", []), ("q", []), ("r", []), ("s", []), ("t", [])],
      [("p", "q", []), ("q", "r", []), ("s", "t", [])]⟩
    ⟨false, [("P", []), ("Q", []), ("R", [])], [("P", "Q", []), ("Q", "R", [])]⟩
    (by decide)

/-- C4, counterexample to the claimed tie-break: two size-2 components
{B, Z} (inserted first) and {A, C}; the retained component is {B, Z}
even though the lexicographically smallest node id "A" lies in the other
component. -/
theorem stable_lcc_tie_break_counterexample :
    ∃ H, stable_largest_connected_component
        ⟨false, [("B", []), ("Z", []), ("A", []), ("C", [])],
          [("B", "Z", []), ("A", "C", [])]⟩ = some H ∧
      H.nodeIds = ["B", "Z"] ∧
      (∀ d ∈ (⟨false, [("B", []), ("Z", []), ("A", []), ("C", [])],
          [("B", "Z", []), ("A", "C", [])]⟩ : NXGraph).connectedComponents, d.length = 2) ∧
      "A" ∈ (⟨false, [("B", []), ("Z", []), ("A", []), ("C", [])],
          [("B", "Z", []), ("A", "C", [])]⟩ : NXGraph).nodeIds ∧
      "A" ∉ H.nodeIds ∧
      (∀ i ∈ H.nodeIds, pyStrLt "A" i = true) :=
  ⟨⟨false, [("B", []), ("Z", [])], [("B", "Z", [])]⟩,
    by decide, by decide, by decide, by decide, by decide, by decide⟩

theorem setNodeData_map_fst (nodes : List (String × Props)) (id : String) (d : Props) :
    (setNodeData nodes id d).map Prod.fst = nodes.map Prod.fst := by
  unfold setNodeData
  rw [List.map_map]
  refine List.map_congr_left ?_
  intro nd _
  show Prod.fst (if nd.1 = id then (nd.1, d) else nd) = nd.1
  by_cases h : nd.1 = id
  · rw [if_pos h]
  · rw [if_neg h]

theorem foldl_setNodeData_map_fst (m : String → String) :
    ∀ (l : List (String × Props)) (acc : List (String × Props)),
      (l.foldl (fun acc nd => setNodeData acc (m nd.1) nd.2) acc).map Prod.fst
        = acc.map Prod.fst := by
  intro l
  induction l with
  | nil => intro acc; rfl
  | cons nd rest ih =>
    intro acc
    rw [List.foldl_cons, ih, setNodeData_map_fst]

theorem dedupKeepFirstGo_mem :
    ∀ (l seen : List String) (x : String),
      x ∈ dedupKeepFirstGo l seen ↔ (x ∈ l ∧ x ∉ seen) := by
  intro l
  induction l with
  | nil => intro seen x; simp [dedupKeepFirstGo]
  | cons a rest ih =>
    intro seen x
    unfold dedupKeepFirstGo
    by_cases ha : a ∈ seen
    · rw [if_pos ha, ih]
      constructor
      · rintro ⟨hx, hns⟩
        exact ⟨List.mem_cons_of_mem _ hx, hns⟩
      · rintro ⟨hx, hns⟩
        rcases List.mem_cons.mp hx with rfl | hx'
        · exact absurd ha hns
        · exact ⟨hx', hns⟩
    · rw [if_neg ha]
      constructor
      · intro hx
        rcases List.mem_cons.mp hx with rfl | hx'
        · exact ⟨List.mem_cons_self _ _, ha⟩
        · rcases (ih _ x).mp hx' with ⟨h1, h2⟩
          have hxs : x ∉ seen := fun hc => h2 (List.mem_append.mpr (Or.inl hc))
          exact ⟨List.mem_cons_of_mem _ h1, hxs⟩
      · rintro ⟨hx, hns⟩
        rcases List.mem_cons.mp hx with rfl | hx'
        · exact List.mem_cons_self _ _
        · by_cases hxa : x = a
          · subst hxa
            exact List.mem_cons_self _ _
          · refine List.mem_cons_of_mem _ ((ih _ x).mpr ⟨hx', ?_⟩)
            intro hc
            rcases List.mem_append.mp hc with hc | hc
            · exact hns hc
            · exact hxa (List.mem_singleton.mp hc)

theorem dedupKeepFirst_mem (l : List String) (x : String) :
    x ∈ dedupKeepFirst l ↔ x ∈ l := by
  unfold dedupKeepFirst
  rw [dedupKeepFirstGo_mem]
  simp

theorem dedupKeepFirstGo_nodup :
    ∀ (l seen : List String), (dedupKeepFirstGo l seen).Nodup := by
  intro l
  induction l with
  | nil => intro seen; exact List.nodup_nil
  | cons a rest ih =>
    intro seen
    unfold dedupKeepFirstGo
    by_cases ha : a ∈ seen
    · rw [if_pos ha]
      exact ih seen
    · rw [if_neg ha]
      refine List.nodup_cons.mpr ⟨?_, ih _⟩
      intro hc
      rcases (dedupKeepFirstGo_mem rest _ a).mp hc with ⟨_, h2⟩
      exact h2 (List.mem_append.mpr (Or.inr (List.mem_singleton.mpr rfl)))

theorem dedupKeepFirst_nodup (l : List String) : (dedupKeepFirst l).Nodup :=
  dedupKeepFirstGo_nodup l []

theorem ensureNode_nodeIds (g : NXGraph) (id : String) :
    (g.ensureNode id).nodeIds
      = if id ∈ g.nodeIds then g.nodeIds else g.nodeIds ++ [id] := by
  unfold NXGraph.ensureNode
  by_cases h : id ∈ g.nodeIds
  · have hb : g.hasNodeB id = true := decide_eq_true h
    rw [if_pos hb, if_pos h]
  · have hb : ¬ g.hasNodeB id = true := fun hc => h (of_decide_eq_true hc)
    rw [if_neg hb, if_neg h]
    unfold NXGraph.nodeIds
    rw [List.map_append]
    rfl

theorem wf_ensureNode {g : NXGraph} (hwf : WFGraph g) (id : String) :
    WFGraph (g.ensureNode id) := by
  refine ⟨?_, ?_, ?_⟩
  · rw [ensureNode_nodeIds]
    by_cases h : id ∈ g.nodeIds
    · rw [if_pos h]
      exact hwf.nodup
    · rw [if_neg h]
      refine List.Nodup.append hwf.nodup (List.nodup_singleton id) ?_
      intro a ha hb
      rw [List.mem_singleton.mp hb] at ha
      exact h ha
  · intro e he
    rw [ensureNode_edges] at he
    exact mem_nodeIds_ensureNode g id _ (Or.inl (hwf.srcMem e he))
  · intro e he
    rw [ensureNode_edges] at he
    exact mem_nodeIds_ensureNode g id _ (Or.inl (hwf.tgtMem e he))

theorem wf_addEdge {g : NXGraph} (hwf : WFGraph g) (u v : String) (d : Props) :
    WFGraph (g.addEdge u v d) := by
  have hwf2 : WFGraph ((g.ensureNode u).ensureNode v) :=
    wf_ensureNode (wf_ensureNode hwf u) v
  have hids : (g.addEdge u v d).nodeIds = ((g.ensureNode u).ensureNode v).nodeIds := by
    unfold NXGraph.nodeIds
    rw [addEdge_nodes_eq]
  have hg2edges : ((g.ensureNode u).ensureNode v).edges = g.edges := by
    rw [ensureNode_edges, ensureNode_edges]
  have humem : u ∈ ((g.ensureNode u).ensureNode v).nodeIds :=
    mem_nodeIds_ensureNode _ v u (Or.inl (mem_nodeIds_ensureNode g u u (Or.inr rfl)))
  have hvmem : v ∈ ((g.ensureNode u).ensureNode v).nodeIds :=
    mem_nodeIds_ensureNode _ v v (Or.inr rfl)
  refine ⟨?_, ?_, ?_⟩
  · rw [hids]
    exact hwf2.nodup
  · intro e he
    rw [addEdge_edges] at he
    rw [hids]
    by_cases hmatch : g.edges.any (edgeMatches g.directed u v) = true
    · rw [if_pos hmatch] at he
      rcases List.mem_map.mp he with ⟨e0, he0, heq⟩
      have h1 : e.1 = e0.1 := by
        rw [← heq]
        by_cases hm : edgeMatches g.directed u v e0 = true
        · rw [if_pos hm]
        · rw [if_neg hm]
      rw [h1]
      exact hwf2.srcMem e0 (by rw [hg2edges]; exact he0)
    · rw [if_neg hmatch] at he
      rcases List.mem_append.mp he with h1 | h1
      · exact hwf2.srcMem e (by rw [hg2edges]; exact h1)
      · rw [List.mem_singleton.mp h1]
        exact humem
  · intro e he
    rw [addEdge_edges] at he
    rw [hids]
    by_cases hmatch : g.edges.any (edgeMatches g.directed u v) = true
    · rw [if_pos hmatch] at he
      rcases List.mem_map.mp he with ⟨e0, he0, heq⟩
      have h1 : e.2.1 = e0.2.1 := by
        rw [← heq]
        by_cases hm : edgeMatches g.directed u v e0 = true
        · rw [if_pos hm]
        · rw [if_neg hm]
      rw [h1]
      exact hwf2.tgtMem e0 (by rw [hg2edges]; exact he0)
    · rw [if_neg hmatch] at he
      rcases List.mem_append.mp he with h1 | h1
      · exact hwf2.tgtMem e (by rw [hg2edges]; exact h1)
      · rw [List.mem_singleton.mp h1]
        exact hvmem

theorem wf_addEdgesFrom :
    ∀ (l : List (String × String × Props)) {g : NXGraph}, WFGraph g →
      WFGraph (g.addEdgesFrom l) := by
  intro l
  induction l with
  | nil => intro g hwf; exact hwf
  | cons e rest ih =>
    intro g hwf
    exact ih (wf_addEdge hwf e.1 e.2.1 e.2.2)

theorem wf_subgraphCopy {g : NXGraph} (hwf : WFGraph g) (c : List String) :
    WFGraph (g.subgraphCopy c) := by
  refine ⟨?_, ?_, ?_⟩
  · have hsub : ((g.nodes.filter (fun nd => decide (nd.1 ∈ c))).map Prod.fst).Sublist
        (g.nodes.map Prod.fst) :=
      (List.filter_sublist _).map Prod.fst
    exact hwf.nodup.sublist hsub
  · intro e he
    have he' := List.mem_filter.mp he
    rcases iterEdges_endpoints_mem hwf he'.1 with ⟨h1, _⟩
    rcases band_iff.mp he'.2 with ⟨hc1, _⟩
    have hc1' : e.1 ∈ c := of_decide_eq_true hc1
    rcases List.mem_map.mp h1 with ⟨nd, hnd, hfst⟩
    refine List.mem_map.mpr ⟨nd, List.mem_filter.mpr ⟨hnd, ?_⟩, hfst⟩
    rw [hfst]
    exact decide_eq_true hc1'
  · intro e he
    have he' := List.mem_filter.mp he
    rcases iterEdges_endpoints_mem hwf he'.1 with ⟨_, h2⟩
    rcases band_iff.mp he'.2 with ⟨_, hc2⟩
    have hc2' : e.2.1 ∈ c := of_decide_eq_true hc2
    rcases List.mem_map.mp h2 with ⟨nd, hnd, hfst⟩
    refine List.mem_map.mpr ⟨nd, List.mem_filter.mpr ⟨hnd, ?_⟩, hfst⟩
    rw [hfst]
    exact decide_eq_true hc2'

theorem relabel_base_nodeIds (g : NXGraph) (m : String → String) :
    (NXGraph.nodeIds
      { directed := g.directed,
        nodes := g.nodes.foldl (fun acc nd => setNodeData acc (m nd.1) nd.2)
          ((dedupKeepFirst (g.nodeIds.map m)).map (fun i => (i, ([] : Props)))),
        edges := ([] : List (String × String × Props)) })
      = dedupKeepFirst (g.nodeIds.map m) := by
  show ((g.nodes.foldl (fun acc nd => setNodeData acc (m nd.1) nd.2)
      ((dedupKeepFirst (g.nodeIds.map m)).map (fun i => (i, ([] : Props))))).map Prod.fst)
    = dedupKeepFirst (g.nodeIds.map m)
  rw [foldl_setNodeData_map_fst, List.map_map]
  exact List.map_id _

theorem relabel_nodes_nodeIds {g : NXGraph} (hwf : WFGraph g) (m : String → String) :
    (relabel_nodes g m).nodeIds = dedupKeepFirst (g.nodeIds.map m) := by
  unfold relabel_nodes
  have hbase := relabel_base_nodeIds g m
  have hnodes := addEdgesFrom_nodes_of_mem
    (g.iterEdges.map (fun e => (m e.1, m e.2.1, e.2.2)))
    { directed := g.directed,
      nodes := g.nodes.foldl (fun acc nd => setNodeData acc (m nd.1) nd.2)
        ((dedupKeepFirst (g.nodeIds.map m)).map (fun i => (i, ([] : Props)))),
      edges := [] }
    (by
      intro e he
      rcases List.mem_map.mp he with ⟨e0, he0, heq⟩
      rcases iterEdges_endpoints_mem hwf he0 with ⟨h1, h2⟩
      rw [hbase, ← heq]
      constructor
      · exact (dedupKeepFirst_mem _ _).mpr (List.mem_map.mpr ⟨e0.1, h1, rfl⟩)
      · exact (dedupKeepFirst_mem _ _).mpr (List.mem_map.mpr ⟨e0.2.1, h2, rfl⟩))
  exact (congrArg (List.map Prod.fst) hnodes).trans hbase

theorem wf_relabel_nodes (g : NXGraph) (m : String → String) :
    WFGraph (relabel_nodes g m) := by
  unfold relabel_nodes
  refine wf_addEdgesFrom _ ⟨?_, ?_, ?_⟩
  · rw [relabel_base_nodeIds]
    exact dedupKeepFirst_nodup _
  · intro e he
    exact absurd he (List.not_mem_nil e)
  · intro e he
    exact absurd he (List.not_mem_nil e)

theorem stabilize_graph_nodes {g : NXGraph} (hwf : WFGraph g) :
    (stabilize_graph g).nodes = sortBy nodeLt g.nodes := by
  unfold stabilize_graph
  have hperm : (sortBy nodeLt g.nodes).Perm g.nodes := sortBy_perm nodeLt g.nodes
  have hnd : ((sortBy nodeLt g.nodes).map Prod.fst).Nodup :=
    ((hperm.map Prod.fst).nodup_iff).mpr hwf.nodup
  have hfixed : ((emptyGraph g.directed).addNodesFrom (sortBy nodeLt g.nodes)).nodes
      = sortBy nodeLt g.nodes := addNodesFrom_fresh g.directed _ hnd
  have hfixedIds : ((emptyGraph g.directed).addNodesFrom (sortBy nodeLt g.nodes)).nodeIds
      = (sortBy nodeLt g.nodes).map Prod.fst :=
    congrArg (List.map Prod.fst) hfixed
  have hnodes := addEdgesFrom_nodes_of_mem
    (sortBy edgeLt (if g.directed then g.iterEdges else g.iterEdges.map sortSourceTarget))
    ((emptyGraph g.directed).addNodesFrom (sortBy nodeLt g.nodes))
    (by
      intro e he
      have he1 := (sortBy_perm edgeLt _).mem_iff.mp he
      rw [hfixedIds]
      have hids : ∀ x, x ∈ g.nodeIds → x ∈ (sortBy nodeLt g.nodes).map Prod.fst := by
        intro x hx
        exact ((hperm.map Prod.fst).mem_iff).mpr hx
      by_cases hd : g.directed = true
      · rw [if_pos hd] at he1
        rcases iterEdges_endpoints_mem hwf he1 with ⟨h1, h2⟩
        exact ⟨hids _ h1, hids _ h2⟩
      · rw [if_neg hd] at he1
        rcases List.mem_map.mp he1 with ⟨e0, he0, heq⟩
        rcases iterEdges_endpoints_mem hwf he0 with ⟨h1, h2⟩
        have hep : e.1 = (sortSourceTarget e0).1 ∧ e.2.1 = (sortSourceTarget e0).2.1 := by
          rw [heq]
          exact ⟨rfl, rfl⟩
        unfold sortSourceTarget at hep
        by_cases hlt : pyStrLt e0.2.1 e0.1 = true
        · rw [if_pos hlt] at hep
          rw [hep.1, hep.2]
          exact ⟨hids _ h2, hids _ h1⟩
        · rw [if_neg hlt] at hep
          rw [hep.1, hep.2]
          exact ⟨hids _ h1, hids _ h2⟩)
  rw [hnodes]
  exact hfixed

/-- C5 (amended): for a well-formed input graph the canonicalization
pipeline renames every node id of the retained component through
`normalizeNodeId`, which is `html.unescape(node.upper().strip())` —
HTML-unescaping is applied LAST, after uppercasing and stripping, not
first as the claim orders the steps — and node ids whose images under
this mapping collide are merged into a single node (the output id list
is duplicate-free and is exactly the image of the component's ids). -/
theorem stable_lcc_normalizes_ids (g H : NXGraph) (hwf : WFGraph g)
    (h : stable_largest_connected_component g = some H) :
    (∀ i, normalizeNodeId i = htmlUnescape (pyStrip (pyUpper i))) ∧
    ∃ c, pickMaxByLen g.connectedComponents = some c ∧
      H.nodeIds.Nodup ∧
      (∀ j ∈ (g.subgraphCopy c).nodeIds, normalizeNodeId j ∈ H.nodeIds) ∧
      (∀ i ∈ H.nodeIds, ∃ j ∈ (g.subgraphCopy c).nodeIds, i = normalizeNodeId j) := by
  refine ⟨fun i => rfl, ?_⟩
  unfold stable_largest_connected_component largest_connected_component at h
  rcases hpick : pickMaxByLen g.connectedComponents with _ | c
  · rw [hpick] at h
    cases h
  · rw [hpick] at h
    simp only [Option.map_some', Option.some.injEq] at h
    have hwfsub : WFGraph (g.subgraphCopy c) := wf_subgraphCopy hwf c
    have hwfG2 : WFGraph (relabel_nodes (g.subgraphCopy c) normalizeNodeId) :=
      wf_relabel_nodes _ _
    have hids2 : (relabel_nodes (g.subgraphCopy c) normalizeNodeId).nodeIds
        = dedupKeepFirst ((g.subgraphCopy c).nodeIds.map normalizeNodeId) :=
      relabel_nodes_nodeIds hwfsub normalizeNodeId
    have hHnodes : H.nodes
        = sortBy nodeLt (relabel_nodes (g.subgraphCopy c) normalizeNodeId).nodes := by
      rw [← h]
      exact stabilize_graph_nodes hwfG2
    have hHids : ∀ x, x ∈ H.nodeIds ↔
        x ∈ dedupKeepFirst ((g.subgraphCopy c).nodeIds.map normalizeNodeId) := by
      intro x
      show x ∈ H.nodes.map Prod.fst ↔ _
      rw [hHnodes, ← hids2]
      exact ((sortBy_perm nodeLt _).map Prod.fst).mem_iff
    have hHnodup : H.nodeIds.Nodup := by
      show (H.nodes.map Prod.fst).Nodup
      rw [hHnodes]
      refine (((sortBy_perm nodeLt _).map Prod.fst).nodup_iff).mpr ?_
      rw [show ((relabel_nodes (g.subgraphCopy c) normalizeNodeId).nodes.map Prod.fst)
          = (relabel_nodes (g.subgraphCopy c) normalizeNodeId).nodeIds from rfl, hids2]
      exact dedupKeepFirst_nodup _
    refine ⟨c, rfl, hHnodup, ?_, ?_⟩
    · intro j hj
      rw [hHids, dedupKeepFirst_mem]
      exact List.mem_map.mpr ⟨j, hj, rfl⟩
    · intro i hi
      rw [hHids, dedupKeepFirst_mem] at hi
      rcases List.mem_map.mp hi with ⟨j, hj, hji⟩
      exact ⟨j, hj, hji.symm⟩

theorem stable_lcc_normalizes_ids_witness :
    (∀ i, normalizeNodeId i = htmlUnescape (pyStrip (pyUpper i))) ∧
    ∃ c, pickMaxByLen (NXGraph.connectedComponents
        ⟨false, [(" a ", []), ("b", [])], [(" a ", "b", [])]⟩) = some c ∧
      (⟨false, [("A", []), ("B", [])],
        [("A", "B", [])]⟩ : NXGraph).nodeIds.Nodup ∧
      (∀ j ∈ (NXGraph.subgraphCopy
          ⟨false, [(" a ", []), ("b", [])], [(" a ", "b", [])]⟩ c).nodeIds,
        normalizeNodeId j ∈ (⟨false, [("A", []), ("B", [])],
          [("A", "B", [])]⟩ : NXGraph).nodeIds) ∧
      (∀ i ∈ (⟨false, [("A", []), ("B", [])],
          [("A", "B", [])]⟩ : NXGraph).nodeIds,
        ∃ j ∈ (NXGraph.subgraphCopy
          ⟨false, [(" a ", []), ("b", [])], [(" a ", "b", [])]⟩ c).nodeIds,
          i = normalizeNodeId j) :=
  stable_lcc_normalizes_ids
    ⟨false, [(" a ", []), ("b", [])], [(" a ", "b", [])]⟩
    ⟨false, [("A", []), ("B", [])], [("A", "B", [])]⟩
    ⟨by decide, by decide, by decide⟩ (by decide)

/-- C5, counterexample to the claimed normalization order: the code
computes `html.unescape(strip(upper(id)))`, not
`strip(upper(html.unescape(id)))`; on the id "&apos;" the two orders
differ, and the canonical output keeps the un-unescaped "&APOS;". -/
theorem normalization_order_counterexample :
    normalizeNodeId "&apos;" = "&APOS;" ∧
    specNormalizeNodeId "&apos;" = "'" ∧
    normalizeNodeId "&apos;" ≠ specNormalizeNodeId "&apos;" ∧
    ∃ H, stable_largest_connected_component ⟨false, [("&apos;", [])], []⟩ = some H ∧
      H.nodeIds = ["&APOS;"] :=
  ⟨by decide, by decide, by decide,
    ⟨false, [("&APOS;", [])], []⟩, by decide, by decide⟩

theorem graph_eq_of_parts {g1 g2 : NXGraph} (h1 : g1.directed = g2.directed)
    (h2 : g1.nodes = g2.nodes) (h3 : g1.edges = g2.edges) : g1 = g2 := by
  cases g1
  cases g2
  cases h1
  cases h2
  cases h3
  rfl

theorem setNodeData_cons (x : String × Props) (acc : List (String × Props))
    (id : String) (d : Props) :
    setNodeData (x :: acc) id d
      = (if x.1 = id then (x.1, d) else x) :: setNodeData acc id d := rfl

theorem setNodeData_not_mem (acc : List (String × Props)) (id : String) (d : Props)
    (h : id ∉ acc.map Prod.fst) : setNodeData acc id d = acc := by
  unfold setNodeData
  have hcongr : acc.map (fun nd => if nd.1 = id then (nd.1, d) else nd)
      = acc.map (fun nd => nd) := by
    refine List.map_congr_left ?_
    intro nd hnd
    have hne : nd.1 ≠ id := fun hc => h (List.mem_map.mpr ⟨nd, hnd, hc⟩)
    show (if nd.1 = id then (nd.1, d) else nd) = nd
    rw [if_neg hne]
  rw [hcongr, List.map_id']

theorem foldl_setNodeData_skip :
    ∀ (l : List (String × Props)) (x : String × Props) (acc : List (String × Props)),
      (∀ nd ∈ l, nd.1 ≠ x.1) →
      l.foldl (fun acc nd => setNodeData acc nd.1 nd.2) (x :: acc)
        = x :: l.foldl (fun acc nd => setNodeData acc nd.1 nd.2) acc := by
  intro l
  induction l with
  | nil => intro x acc _; rfl
  | cons nd rest ih =>
    intro x acc hne
    rw [List.foldl_cons, List.foldl_cons, setNodeData_cons,
      if_neg (fun hc => hne nd (List.mem_cons_self _ _) hc.symm)]
    exact ih x _ (fun nd' hnd' => hne nd' (List.mem_cons_of_mem _ hnd'))

theorem foldl_setNodeData_self :
    ∀ (l : List (String × Props)) (acc : List (String × Props)),
      (l.map Prod.fst).Nodup → acc.map Prod.fst = l.map Prod.fst →
      l.foldl (fun acc nd => setNodeData acc nd.1 nd.2) acc = l := by
  intro l
  induction l with
  | nil =>
    intro acc _ hacc
    exact List.map_eq_nil_iff.mp hacc
  | cons nd rest ih =>
    intro acc hnd hacc
    match acc, hacc with
    | a :: acc', hacc =>
      rw [List.map_cons, List.map_cons] at hacc
      have ha1 : a.1 = nd.1 := (List.cons.injEq _ _ _ _ ▸ hacc).1
      have hacc' : acc'.map Prod.fst = rest.map Prod.fst :=
        (List.cons.injEq _ _ _ _ ▸ hacc).2
      rw [List.map_cons, List.nodup_cons] at hnd
      rw [List.foldl_cons, setNodeData_cons, if_pos ha1,
        setNodeData_not_mem acc' nd.1 nd.2 (by rw [hacc']; exact hnd.1)]
      have hskip := foldl_setNodeData_skip rest (nd.1, nd.2) acc'
        (by
          intro nd' hnd'
          intro hc
          exact hnd.1 (by rw [← hc]; exact List.mem_map.mpr ⟨nd', hnd', rfl⟩))
      rw [ha1]
      rw [hskip, ih acc' hnd.2 hacc']

theorem foldl_setNodeData_congr (m : String → String) :
    ∀ (l : List (String × Props)) (acc : List (String × Props)),
      (∀ nd ∈ l, m nd.1 = nd.1) →
      l.foldl (fun acc nd => setNodeData acc (m nd.1) nd.2) acc
        = l.foldl (fun acc nd => setNodeData acc nd.1 nd.2) acc := by
  intro l
  induction l with
  | nil => intro acc _; rfl
  | cons nd rest ih =>
    intro acc hfix
    rw [List.foldl_cons, List.foldl_cons, hfix nd (List.mem_cons_self _ _)]
    exact ih _ (fun nd' hnd' => hfix nd' (List.mem_cons_of_mem _ hnd'))

theorem dedupKeepFirstGo_of_nodup :
    ∀ (l seen : List String), l.Nodup → (∀ x ∈ l, x ∉ seen) →
      dedupKeepFirstGo l seen = l := by
  intro l
  induction l with
  | nil => intro seen _ _; rfl
  | cons a rest ih =>
    intro seen hnd hdisj
    unfold dedupKeepFirstGo
    rw [if_neg (hdisj a (List.mem_cons_self _ _))]
    rw [List.nodup_cons] at hnd
    rw [ih _ hnd.2 ?_]
    intro x hx hc
    rcases List.mem_append.mp hc with hc | hc
    · exact hdisj x (List.mem_cons_of_mem _ hx) hc
    · rw [List.mem_singleton.mp hc] at hx
      exact hnd.1 hx

theorem dedupKeepFirst_of_nodup {l : List String} (h : l.Nodup) :
    dedupKeepFirst l = l :=
  dedupKeepFirstGo_of_nodup l [] h (fun x _ hc => List.not_mem_nil x hc)

theorem relabel_nodes_fixed {g : NXGraph} (hwf : WFGraph g) {m : String → String}
    (hfix : ∀ i ∈ g.nodeIds, m i = i) :
    relabel_nodes g m
      = NXGraph.addEdgesFrom { directed := g.directed, nodes := g.nodes, edges := [] }
          g.iterEdges := by
  unfold relabel_nodes
  have h1 : g.nodeIds.map m = g.nodeIds := by
    have h := List.map_congr_left (l := g.nodeIds) (f := m) (g := fun i => i)
      (fun i hi => hfix i hi)
    rw [h, List.map_id']
  have h2 : dedupKeepFirst (g.nodeIds.map m) = g.nodeIds := by
    rw [h1]
    exact dedupKeepFirst_of_nodup hwf.nodup
  rw [h2]
  have hinit : (g.nodeIds.map (fun i => (i, ([] : Props)))).map Prod.fst
      = g.nodes.map Prod.fst := by
    rw [List.map_map]
    show g.nodeIds.map (fun i => i) = _
    rw [List.map_id']
    rfl
  have hnodup' : (g.nodes.map Prod.fst).Nodup := hwf.nodup
  rw [foldl_setNodeData_congr m g.nodes _
    (fun nd hnd => hfix nd.1 (List.mem_map.mpr ⟨nd, hnd, rfl⟩))]
  rw [foldl_setNodeData_self g.nodes _ hnodup' hinit]
  have h3 : g.iterEdges.map (fun e => (m e.1, m e.2.1, e.2.2)) = g.iterEdges := by
    have h := List.map_congr_left (l := g.iterEdges)
      (f := fun e => (m e.1, m e.2.1, e.2.2)) (g := fun e => e)
      (by
        intro e he
        rcases iterEdges_endpoints_mem hwf he with ⟨hs, ht⟩
        show (m e.1, m e.2.1, e.2.2) = e
        rw [hfix _ hs, hfix _ ht])
    rw [h, List.map_id']
  rw [h3]

theorem stabilize_graph_fixed {H : NXGraph} (hwf : WFGraph H)
    (hsortN : H.nodes.Pairwise (sortedLe nodeLt))
    (hsortE : H.edges.Pairwise (sortedLe edgeLt))
    (hkeysN : (H.edges.map (fun e => edgeKeyStr e.1 e.2.1)).Nodup)
    (hpwE : H.edges.Pairwise (fun e1 e2 => edgeMatches H.directed e2.1 e2.2.1 e1 = false))
    (hminfirst : H.directed = false → ∀ e ∈ H.edges, pyStrLt e.2.1 e.1 = false)
    (hiter : H.iterEdges = H.edges) :
    stabilize_graph H = H := by
  have hanti : ∀ a b, a ∈ H.nodes → b ∈ H.nodes →
      nodeLt a b = false → nodeLt b a = false → a = b := by
    intro a b ha hb h1 h2
    exact List.inj_on_of_nodup_map hwf.nodup ha hb (pyStrLt_antisymm h1 h2)
  have hnodes' : sortBy nodeLt H.nodes = H.nodes :=
    sortBy_eq_of_pairwise nodeLt nodeLt_trans nodeLt_asymm hsortN hanti
  have hnodes : (stabilize_graph H).nodes = H.nodes := by
    rw [stabilize_graph_nodes hwf, hnodes']
  have hantiE : ∀ a b, a ∈ H.edges → b ∈ H.edges →
      edgeLt a b = false → edgeLt b a = false → a = b := by
    intro a b ha hb h1 h2
    exact List.inj_on_of_nodup_map hkeysN ha hb (pyStrLt_antisymm h1 h2)
  have hsorted' : sortBy edgeLt H.edges = H.edges :=
    sortBy_eq_of_pairwise edgeLt edgeLt_trans edgeLt_asymm hsortE hantiE
  have hedges1 : (if H.directed then H.iterEdges
      else H.iterEdges.map sortSourceTarget) = H.edges := by
    by_cases hd : H.directed = true
    · rw [if_pos hd, hiter]
    · rw [if_neg hd, hiter]
      have hdf : H.directed = false := Bool.eq_false_iff.mpr hd
      have h := List.map_congr_left (l := H.edges) (f := sortSourceTarget) (g := fun e => e)
        (by
          intro e he
          show sortSourceTarget e = e
          unfold sortSourceTarget
          rw [if_neg (Bool.eq_false_iff.mp (hminfirst hdf e he))])
      rw [h, List.map_id']
  have hfixededges : ((emptyGraph H.directed).addNodesFrom (sortBy nodeLt H.nodes)).edges
      = [] := by
    rw [addNodesFrom_edges]
    rfl
  have hfixeddir : ((emptyGraph H.directed).addNodesFrom (sortBy nodeLt H.nodes)).directed
      = H.directed := by
    rw [addNodesFrom_directed]
    rfl
  have hedges : (stabilize_graph H).edges = H.edges := by
    unfold stabilize_graph
    dsimp only
    rw [hedges1, hsorted']
    have hnm : ∀ e2 ∈ H.edges,
        ∀ e1 ∈ ((emptyGraph H.directed).addNodesFrom (sortBy nodeLt H.nodes)).edges,
        edgeMatches ((emptyGraph H.directed).addNodesFrom (sortBy nodeLt H.nodes)).directed
          e2.1 e2.2.1 e1 = false := by
      intro e2 _ e1 he1
      rw [hfixededges] at he1
      exact absurd he1 (List.not_mem_nil e1)
    have hpw' : H.edges.Pairwise (fun e1 e2 =>
        edgeMatches ((emptyGraph H.directed).addNodesFrom (sortBy nodeLt H.nodes)).directed
          e2.1 e2.2.1 e1 = false) := by
      refine hpwE.imp ?_
      intro e1 e2 h12
      rw [hfixeddir]
      exact h12
    rw [addEdgesFrom_edges_of_no_match H.edges _ hnm hpw', hfixededges]
    rfl
  exact graph_eq_of_parts (stabilize_graph_directed H) hnodes hedges

/-- C7 (amended): canonicalization is NOT idempotent in general, because
the node-id mapping `html.unescape(id.upper().strip())` is applied once
per pass and is itself not idempotent; it IS idempotent on every graph
already in canonical form whose node ids are fixed points of the
mapping: a well-formed connected graph with sorted duplicate-free nodes,
sorted edges with distinct "source -> target" keys, no two edges on the
same endpoint pair, minimal-endpoint-first orientation when undirected,
and an edge view listing exactly the stored edges is returned unchanged
by a further canonicalization pass. -/
theorem canonicalize_idempotent_on_canonical (H : NXGraph)
    (hwf : WFGraph H)
    (hfix : ∀ i ∈ H.nodeIds, normalizeNodeId i = i)
    (hsortN : H.nodes.Pairwise (sortedLe nodeLt))
    (hsortE : H.edges.Pairwise (sortedLe edgeLt))
    (hkeysN : (H.edges.map (fun e => edgeKeyStr e.1 e.2.1)).Nodup)
    (hpwE : H.edges.Pairwise (fun e1 e2 => edgeMatches H.directed e2.1 e2.2.1 e1 = false))
    (hminfirst : H.directed = false → ∀ e ∈ H.edges, pyStrLt e.2.1 e.1 = false)
    (hiter : H.iterEdges = H.edges)
    (hcc : ∃ c, H.connectedComponents = [c]) :
    stable_largest_connected_component H = some H := by
  obtain ⟨c, hc⟩ := hcc
  have hcover : ∀ x ∈ H.nodeIds, x ∈ c := by
    intro x hx
    rcases connectedComponents_cover hwf hx with ⟨c', hc', hxc⟩
    rw [hc] at hc'
    rw [← List.mem_singleton.mp hc']
    exact hxc
  have hsubn : H.nodes.filter (fun nd => decide (nd.1 ∈ c)) = H.nodes :=
    List.filter_eq_self.mpr
      (fun nd hnd => decide_eq_true (hcover nd.1 (List.mem_map.mpr ⟨nd, hnd, rfl⟩)))
  have hsube : H.iterEdges.filter
      (fun e => decide (e.1 ∈ c) && decide (e.2.1 ∈ c)) = H.edges := by
    rw [hiter]
    refine List.filter_eq_self.mpr ?_
    intro e he
    exact band_iff.mpr ⟨decide_eq_true (hcover _ (hwf.srcMem e he)),
      decide_eq_true (hcover _ (hwf.tgtMem e he))⟩
  have hsubG : H.subgraphCopy c = H := by
    unfold NXGraph.subgraphCopy
    rw [hsubn, hsube]
  have hpick : pickMaxByLen H.connectedComponents = some c := by
    rw [hc]
    rfl
  have hrel : relabel_nodes H normalizeNodeId = H := by
    rw [relabel_nodes_fixed hwf hfix, hiter]
    have hnm : ∀ e2 ∈ H.edges,
        ∀ e1 ∈ (NXGraph.edges
          { directed := H.directed, nodes := H.nodes, edges := [] }),
        edgeMatches (NXGraph.directed
          { directed := H.directed, nodes := H.nodes, edges := [] })
          e2.1 e2.2.1 e1 = false := by
      intro e2 _ e1 he1
      exact absurd he1 (List.not_mem_nil e1)
    have hpw' : H.edges.Pairwise (fun e1 e2 =>
        edgeMatches (NXGraph.directed
          { directed := H.directed, nodes := H.nodes, edges := [] })
          e2.1 e2.2.1 e1 = false) := hpwE
    refine graph_eq_of_parts ?_ ?_ ?_
    · rw [addEdgesFrom_directed]
    · rw [addEdgesFrom_nodes_of_mem]
      intro e he
      exact ⟨hwf.srcMem e he, hwf.tgtMem e he⟩
    · rw [addEdgesFrom_edges_of_no_match H.edges _ hnm hpw']
      rfl
  have hstab : stabilize_graph H = H :=
    stabilize_graph_fixed hwf hsortN hsortE hkeysN hpwE hminfirst hiter
  unfold stable_largest_connected_component largest_connected_component
  rw [hpick]
  simp only [Option.map_some', Option.some.injEq]
  rw [hsubG, hrel, hstab]

theorem canonicalize_idempotent_on_canonical_witness :
    (∀ i ∈ (⟨false, [("A", []), ("B", [("x", "1")])],
        [("A", "B", [("w", "2")])]⟩ : NXGraph).nodeIds, normalizeNodeId i = i) ∧
    stable_largest_connected_component
        ⟨false, [("A", []), ("B", [("x", "1")])], [("A", "B", [("w", "2")])]⟩
      = some ⟨false, [("A", []), ("B", [("x", "1")])], [("A", "B", [("w", "2")])]⟩ :=
  ⟨by decide,
    canonicalize_idempotent_on_canonical
      ⟨false, [("A", []), ("B", [("x", "1")])], [("A", "B", [("w", "2")])]⟩
      ⟨by decide, by decide, by decide⟩ (by decide) (by decide) (by decide)
      (by decide) (by decide) (by decide) (by decide) ⟨["A", "B"], by decide⟩⟩

/-- C7, counterexample to unconditional idempotence: the node id
"&amp;lt;" canonicalizes to "&LT;" after one pass and to "<" after two,
so `canonicalize(canonicalize(G))` differs from `canonicalize(G)`. -/
theorem canonicalize_not_idempotent_counterexample :
    ∃ H1 H2,
      stable_largest_connected_component ⟨false, [("&amp;lt;", [])], []⟩ = some H1 ∧
      stable_largest_connected_component H1 = some H2 ∧
      H1.nodeIds = ["&LT;"] ∧ H2.nodeIds = ["<"] ∧ H1 ≠ H2 :=
  ⟨⟨false, [("&LT;", [])], []⟩, ⟨false, [("<", [])], []⟩,
    by decide, by decide, by decide, by decide, by decide⟩

theorem bool_eq_of_iff {a b : Bool} (h : a = true ↔ b = true) : a = b := by
  cases a <;> cases b
  · rfl
  · exact absurd (h.mpr rfl) (fun hc => Bool.noConfusion hc)
  · exact absurd (h.mp rfl) (fun hc => Bool.noConfusion hc)
  · rfl

theorem sortPair_flip (a b : String) : sortPair (b, a) = sortPair (a, b) := by
  unfold sortPair
  dsimp only
  by_cases h1 : pyStrLt a b = true
  · rw [if_pos h1, if_neg ?_]
    exact fun hc => Bool.noConfusion ((pyStrLt_asymm h1).symm.trans hc)
  · rw [if_neg h1]
    by_cases h2 : pyStrLt b a = true
    · rw [if_pos h2]
    · have hab : a = b := pyStrLt_antisymm (Bool.eq_false_iff.mpr h1) (Bool.eq_false_iff.mpr h2)
      rw [if_neg h2, hab]

theorem sortPair_idem (p : String × String) : sortPair (sortPair p) = sortPair p := by
  obtain ⟨a, b⟩ := p
  unfold sortPair
  dsimp only
  by_cases h1 : pyStrLt b a = true
  · rw [if_pos h1]
    dsimp only
    rw [if_neg ?_]
    exact fun hc => Bool.noConfusion ((pyStrLt_asymm h1).symm.trans hc)
  · rw [if_neg h1]
    dsimp only
    rw [if_neg h1]

theorem filter_split_perm {α : Type} (p q r : α → Bool) :
    ∀ l : List α,
      (∀ x ∈ l, (p x = true ↔ (q x = true ∨ r x = true)) ∧ ¬(q x = true ∧ r x = true)) →
      (l.filter p).Perm (l.filter q ++ l.filter r) := by
  intro l
  induction l with
  | nil => intro _; exact List.Perm.refl _
  | cons x rest ih =>
    intro h
    have hx := h x (List.mem_cons_self _ _)
    have hrest := ih (fun y hy => h y (List.mem_cons_of_mem _ hy))
    by_cases hp : p x = true
    · rcases hx.1.mp hp with hq | hr
      · have hnr : ¬ r x = true := fun hc => hx.2 ⟨hq, hc⟩
        rw [List.filter_cons_of_pos hp, List.filter_cons_of_pos hq,
          List.filter_cons_of_neg hnr]
        exact hrest.cons x
      · have hnq : ¬ q x = true := fun hc => hx.2 ⟨hc, hr⟩
        rw [List.filter_cons_of_pos hp, List.filter_cons_of_neg hnq,
          List.filter_cons_of_pos hr]
        exact (hrest.cons x).trans List.perm_middle.symm
    · have hnq : ¬ q x = true := fun hc => hp (hx.1.mpr (Or.inl hc))
      have hnr : ¬ r x = true := fun hc => hp (hx.1.mpr (Or.inr hc))
      rw [List.filter_cons_of_neg hp, List.filter_cons_of_neg hnq,
        List.filter_cons_of_neg hnr]
      exact hrest

theorem perm_of_nodup_mem_iff {α : Type} [DecidableEq α] :
    ∀ {l1 l2 : List α}, l1.Nodup → l2.Nodup → (∀ x, x ∈ l1 ↔ x ∈ l2) →
      l1.Perm l2 := by
  intro l1
  induction l1 with
  | nil =>
    intro l2 _ _ hmem
    match l2 with
    | [] => exact List.Perm.refl _
    | y :: ys => exact absurd ((hmem y).mpr (List.mem_cons_self _ _)) (List.not_mem_nil y)
  | cons a t ih =>
    intro l2 hnd1 hnd2 hmem
    have ha2 : a ∈ l2 := (hmem a).mp (List.mem_cons_self _ _)
    have hperm2 : l2.Perm (a :: l2.erase a) := List.perm_cons_erase ha2
    rw [List.nodup_cons] at hnd1
    have hnde : (l2.erase a).Nodup := hnd2.erase a
    have hmem' : ∀ x, x ∈ t ↔ x ∈ l2.erase a := by
      intro x
      constructor
      · intro hx
        have hxa : x ≠ a := fun hc => hnd1.1 (hc ▸ hx)
        exact (hnd2.mem_erase_iff).mpr ⟨hxa, (hmem x).mp (List.mem_cons_of_mem _ hx)⟩
      · intro hx
        rcases (hnd2.mem_erase_iff).mp hx with ⟨hxa, hx2⟩
        rcases List.mem_cons.mp ((hmem x).mpr hx2) with rfl | hx'
        · exact absurd rfl hxa
        · exact hx'
    exact ((ih hnd1.2 hnde hmem').cons a).trans hperm2.symm

theorem componentsGo_nil_iff (g : NXGraph) :
    ∀ (l : List String), componentsGo g l [] = [] ↔ l = [] := by
  intro l
  match l with
  | [] => exact ⟨fun _ => rfl, fun _ => rfl⟩
  | u :: rest =>
    constructor
    · intro h
      unfold componentsGo at h
      rw [if_neg (List.not_mem_nil u)] at h
      exact absurd h (List.cons_ne_nil _ _)
    · intro h
      exact absurd h (List.cons_ne_nil _ _)

theorem connectedComponents_nil_iff (g : NXGraph) :
    g.connectedComponents = [] ↔ g.nodeIds = [] :=
  componentsGo_nil_iff g g.nodeIds

theorem adjacentB_congr {g1 g2 : NXGraph}
    (hE : ∀ e, e ∈ g1.edges ↔ e ∈ g2.edges) (u v : String) :
    g1.adjacentB u v = g2.adjacentB u v := by
  refine bool_eq_of_iff ?_
  unfold NXGraph.adjacentB
  rw [List.any_eq_true, List.any_eq_true]
  constructor
  · rintro ⟨e, he, hp⟩
    exact ⟨e, (hE e).mp he, hp⟩
  · rintro ⟨e, he, hp⟩
    exact ⟨e, (hE e).mpr he, hp⟩

theorem reach_congr {g1 g2 : NXGraph}
    (hE : ∀ e, e ∈ g1.edges ↔ e ∈ g2.edges) {u v : String} :
    g1.Reach u v ↔ g2.Reach u v := by
  have hadj : ∀ x y, g1.Adj x y ↔ g2.Adj x y := by
    intro x y
    unfold NXGraph.Adj
    rw [adjacentB_congr hE]
  constructor
  · intro h
    exact Relation.ReflTransGen.mono (fun x y hxy => (hadj x y).mp hxy) h
  · intro h
    exact Relation.ReflTransGen.mono (fun x y hxy => (hadj x y).mpr hxy) h

theorem mem_componentOf_congr {g1 g2 : NXGraph} (hwf1 : WFGraph g1) (hwf2 : WFGraph g2)
    (hN : ∀ x, x ∈ g1.nodeIds ↔ x ∈ g2.nodeIds)
    (hE : ∀ e, e ∈ g1.edges ↔ e ∈ g2.edges)
    {u : String} (hu : u ∈ g1.nodeIds) :
    ∀ x, x ∈ g1.componentOf u ↔ x ∈ g2.componentOf u := by
  intro x
  rw [mem_componentOf_iff hwf1 hu, mem_componentOf_iff hwf2 ((hN u).mp hu), hN x,
    reach_congr hE]

theorem componentOf_nodup {g : NXGraph} (hwf : WFGraph g) (hne : g.nodes.length ≠ 0)
    (u : String) : (g.componentOf u).Nodup := by
  unfold NXGraph.componentOf
  match hk : g.nodes.length with
  | 0 => exact absurd hk hne
  | k + 1 => exact iterApply_expand_nodup hwf.nodup k [u]

theorem nodes_length_ne_zero_of_mem {g : NXGraph} {u : String} (hu : u ∈ g.nodeIds) :
    g.nodes.length ≠ 0 := by
  intro h0
  have hnil : g.nodes = [] := List.eq_nil_of_length_eq_zero h0
  unfold NXGraph.nodeIds at hu
  rw [hnil] at hu
  exact absurd hu (List.not_mem_nil u)

theorem max_component_mem_iff {g1 g2 : NXGraph}
    (hwf1 : WFGraph g1) (hwf2 : WFGraph g2)
    (hN : ∀ x, x ∈ g1.nodeIds ↔ x ∈ g2.nodeIds)
    (hE : ∀ e, e ∈ g1.edges ↔ e ∈ g2.edges)
    (huniq : ∀ c ∈ g1.connectedComponents, ∀ c' ∈ g1.connectedComponents,
      c.length = c'.length → c = c')
    {c1 c2 : List String}
    (h1 : pickMaxByLen g1.connectedComponents = some c1)
    (h2 : pickMaxByLen g2.connectedComponents = some c2) :
    ∀ x, x ∈ c1 ↔ x ∈ c2 := by
  rcases pickMaxByLen_spec h1 with ⟨hc1mem, hc1max, _⟩
  rcases pickMaxByLen_spec h2 with ⟨hc2mem, hc2max, _⟩
  rcases connectedComponents_are_components hc1mem with ⟨u, hu1, hc1u⟩
  rcases connectedComponents_are_components hc2mem with ⟨v, hv2, hc2v⟩
  have hv1 : v ∈ g1.nodeIds := (hN v).mpr hv2
  have hu2 : u ∈ g2.nodeIds := (hN u).mp hu1
  have hne1 : g1.nodes.length ≠ 0 := nodes_length_ne_zero_of_mem hu1
  have hne2 : g2.nodes.length ≠ 0 := nodes_length_ne_zero_of_mem hv2
  -- the CC1 component containing v is g1.componentOf v
  rcases connectedComponents_cover hwf1 hv1 with ⟨d1, hd1mem, hvd1⟩
  rcases connectedComponents_are_components hd1mem with ⟨u0, hu01, hd1u0⟩
  have hd1v : d1 = g1.componentOf v := by
    rw [hd1u0]
    exact (componentOf_eq_of_mem hwf1 hu01 (hd1u0 ▸ hvd1)).symm
  -- the CC2 component containing u is g2.componentOf u
  rcases connectedComponents_cover hwf2 hu2 with ⟨d2, hd2mem, hud2⟩
  rcases connectedComponents_are_components hd2mem with ⟨v0, hv02, hd2v0⟩
  have hd2u : d2 = g2.componentOf u := by
    rw [hd2v0]
    exact (componentOf_eq_of_mem hwf2 hv02 (hd2v0 ▸ hud2)).symm
  -- cross-graph membership correspondences
  have hmem_c2_d1 : ∀ x, x ∈ c2 ↔ x ∈ d1 := by
    intro x
    rw [hc2v, hd1v]
    exact (mem_componentOf_congr hwf1 hwf2 hN hE hv1 x).symm
  have hmem_c1_d2 : ∀ x, x ∈ c1 ↔ x ∈ d2 := by
    intro x
    rw [hc1u, hd2u]
    exact mem_componentOf_congr hwf1 hwf2 hN hE hu1 x
  -- lengths
  have hlen_c2_d1 : c2.length = d1.length := by
    have hnd2 : c2.Nodup := hc2v ▸ componentOf_nodup hwf2 hne2 v
    have hnd1 : d1.Nodup := hd1v ▸ componentOf_nodup hwf1 hne1 v
    exact (perm_of_nodup_mem_iff hnd2 hnd1 hmem_c2_d1).length_eq
  have hlen_c1_d2 : c1.length = d2.length := by
    have hnd1 : c1.Nodup := hc1u ▸ componentOf_nodup hwf1 hne1 u
    have hnd2 : d2.Nodup := hd2u ▸ componentOf_nodup hwf2 hne2 u
    exact (perm_of_nodup_mem_iff hnd1 hnd2 hmem_c1_d2).length_eq
  have hle1 : d1.length ≤ c1.length := hc1max d1 hd1mem
  have hle2 : d2.length ≤ c2.length := hc2max d2 hd2mem
  have heq : d1.length = c1.length := by omega
  have hd1c1 : d1 = c1 := huniq d1 hd1mem c1 hc1mem heq
  intro x
  rw [← hd1c1]
  exact (hmem_c2_d1 x).symm

theorem incidentList_cons (e : String × String × Props)
    (rest : List (String × String × Props)) (u : String) :
    incidentList (e :: rest) u
      = if e.1 = u then (e.2.1, e.2.2) :: incidentList rest u
        else if e.2.1 = u then (e.1, e.2.2) :: incidentList rest u
        else incidentList rest u := by
  show List.filterMap _ (e :: rest) = _
  rw [List.filterMap_cons]
  by_cases h1 : e.1 = u
  · rw [if_pos h1, if_pos h1]
    rfl
  · rw [if_neg h1, if_neg h1]
    by_cases h2 : e.2.1 = u
    · rw [if_pos h2, if_pos h2]
      rfl
    · rw [if_neg h2, if_neg h2]
      rfl

theorem emitAt_map {α : Type} (f : String × String × Props → α)
    (hf : ∀ a b p, f (b, a, p) = f (a, b, p)) (u : String) (seen : List String) :
    ∀ edges : List (String × String × Props),
      ((incidentList edges u).filterMap
        (fun wd => if wd.1 ∈ seen then none else some (u, wd.1, wd.2))).map f
      = (edges.filter (fun e =>
          (decide (e.1 = u) && !decide (e.2.1 ∈ seen)) ||
          (!decide (e.1 = u) && decide (e.2.1 = u) && !decide (e.1 ∈ seen)))).map f := by
  intro edges
  induction edges with
  | nil => rfl
  | cons e rest ih =>
    rw [incidentList_cons]
    by_cases h1 : e.1 = u
    · rw [if_pos h1, List.filterMap_cons]
      by_cases h2 : e.2.1 ∈ seen
      · rw [if_pos h2, List.filter_cons_of_neg (by simp [h1, h2])]
        exact ih
      · rw [if_neg h2, List.filter_cons_of_pos (by simp [h1, h2])]
        rw [List.map_cons, List.map_cons, ih]
        congr 1
        rw [← h1]
    · rw [if_neg h1]
      by_cases h2 : e.2.1 = u
      · rw [if_pos h2, List.filterMap_cons]
        by_cases h3 : e.1 ∈ seen
        · rw [if_pos h3, List.filter_cons_of_neg (by simp [h1, h2, h3])]
          exact ih
        · rw [if_neg h3, List.filter_cons_of_pos (by simp [h1, h2, h3])]
          rw [List.map_cons, List.map_cons, ih]
          congr 1
          rw [hf e.1 u e.2.2, ← h2]
      · rw [if_neg h2, List.filter_cons_of_neg (by simp [h1, h2])]
        exact ih

theorem iterEdgesU_split_pointwise (u : String) (rest seen : List String)
    (hu : u ∉ seen) (hur : u ∉ rest) (hdisj : ∀ x ∈ rest, x ∉ seen)
    (e : String × String × Props) :
    (((decide (e.1 ∈ u :: rest) && !decide (e.2.1 ∈ seen)) ||
        (decide (e.2.1 ∈ u :: rest) && !decide (e.1 ∈ seen))) = true ↔
      (((decide (e.1 = u) && !decide (e.2.1 ∈ seen)) ||
        (!decide (e.1 = u) && decide (e.2.1 = u) && !decide (e.1 ∈ seen))) = true ∨
       ((decide (e.1 ∈ rest) && !decide (e.2.1 ∈ seen ++ [u])) ||
        (decide (e.2.1 ∈ rest) && !decide (e.1 ∈ seen ++ [u]))) = true)) ∧
    ¬(((decide (e.1 = u) && !decide (e.2.1 ∈ seen)) ||
        (!decide (e.1 = u) && decide (e.2.1 = u) && !decide (e.1 ∈ seen))) = true ∧
      ((decide (e.1 ∈ rest) && !decide (e.2.1 ∈ seen ++ [u])) ||
        (decide (e.2.1 ∈ rest) && !decide (e.1 ∈ seen ++ [u]))) = true) := by
  simp only [bor_iff, band_iff, Bool.not_eq_true', decide_eq_true_eq,
    decide_eq_false_iff_not, List.mem_cons, List.mem_append, List.mem_singleton]
  refine ⟨⟨?_, ?_⟩, ?_⟩
  · intro hP
    rcases hP with ⟨hA, hA3⟩ | ⟨hB, hB3⟩
    · rcases hA with hA1 | hA2
      · exact Or.inl (Or.inl ⟨hA1, hA3⟩)
      · by_cases hB1 : e.2.1 = u
        · have hnA1 : ¬ e.1 = u := fun hc => hur (hc ▸ hA2)
          have hnB3 : e.1 ∉ seen := hdisj e.1 hA2
          exact Or.inl (Or.inr ⟨⟨hnA1, hB1⟩, hnB3⟩)
        · refine Or.inr (Or.inl ⟨hA2, ?_⟩)
          intro hc
          rcases hc with hc | hc | hc
          · exact hA3 hc
          · exact hB1 hc
          · exact List.not_mem_nil _ hc
    · by_cases hA1 : e.1 = u
      · have hA3 : e.2.1 ∉ seen := by
          rcases hB with hB1 | hB2
          · exact fun hc => hu (hB1 ▸ hc)
          · exact hdisj _ hB2
        exact Or.inl (Or.inl ⟨hA1, hA3⟩)
      · rcases hB with hB1 | hB2
        · exact Or.inl (Or.inr ⟨⟨hA1, hB1⟩, hB3⟩)
        · refine Or.inr (Or.inr ⟨hB2, ?_⟩)
          intro hc
          rcases hc with hc | hc | hc
          · exact hB3 hc
          · exact hA1 hc
          · exact List.not_mem_nil _ hc
  · intro hQR
    rcases hQR with (⟨hA1, hA3⟩ | ⟨⟨hnA1, hB1⟩, hB3⟩) | (⟨hA2, hni⟩ | ⟨hB2, hni⟩)
    · exact Or.inl ⟨Or.inl hA1, hA3⟩
    · exact Or.inr ⟨Or.inl hB1, hB3⟩
    · exact Or.inl ⟨Or.inr hA2, fun hc => hni (Or.inl hc)⟩
    · exact Or.inr ⟨Or.inr hB2, fun hc => hni (Or.inl hc)⟩
  · rintro ⟨hQ, hR⟩
    rcases hQ with ⟨hA1, _⟩ | ⟨⟨hnA1, hB1⟩, _⟩
    · rcases hR with ⟨hA2, _⟩ | ⟨_, hni⟩
      · exact hur (hA1 ▸ hA2)
      · exact hni (Or.inr (Or.inl hA1))
    · rcases hR with ⟨_, hni⟩ | ⟨hB2, _⟩
      · exact hni (Or.inr (Or.inl hB1))
      · exact hur (hB1 ▸ hB2)

theorem iterEdgesU_map_perm {α : Type} (f : String × String × Props → α)
    (hf : ∀ a b p, f (b, a, p) = f (a, b, p)) :
    ∀ (nodes seen : List String) (edges : List (String × String × Props)),
      nodes.Nodup → (∀ x ∈ nodes, x ∉ seen) →
      ((iterEdgesUGo edges nodes seen).map f).Perm
        ((edges.filter (fun e =>
          (decide (e.1 ∈ nodes) && !decide (e.2.1 ∈ seen)) ||
          (decide (e.2.1 ∈ nodes) && !decide (e.1 ∈ seen)))).map f) := by
  intro nodes
  induction nodes with
  | nil =>
    intro seen edges _ _
    have hnil : edges.filter (fun e =>
        (decide (e.1 ∈ ([] : List String)) && !decide (e.2.1 ∈ seen)) ||
        (decide (e.2.1 ∈ ([] : List String)) && !decide (e.1 ∈ seen))) = [] := by
      refine List.filter_eq_nil_iff.mpr ?_
      intro e _
      simp
    rw [hnil]
    exact List.Perm.refl _
  | cons u rest ih =>
    intro seen edges hnd hdisj
    have hu : u ∉ seen := hdisj u (List.mem_cons_self _ _)
    rw [List.nodup_cons] at hnd
    have hdisj' : ∀ x ∈ rest, x ∉ seen ++ [u] := by
      intro x hx hc
      rcases List.mem_append.mp hc with hc | hc
      · exact hdisj x (List.mem_cons_of_mem _ hx) hc
      · rw [List.mem_singleton.mp hc] at hx
        exact hnd.1 hx
    have hih := ih (seen ++ [u]) edges hnd.2 hdisj'
    have hA := emitAt_map f hf u seen edges
    have hsplit := filter_split_perm
      (fun e => (decide (e.1 ∈ u :: rest) && !decide (e.2.1 ∈ seen)) ||
        (decide (e.2.1 ∈ u :: rest) && !decide (e.1 ∈ seen)))
      (fun e => (decide (e.1 = u) && !decide (e.2.1 ∈ seen)) ||
        (!decide (e.1 = u) && decide (e.2.1 = u) && !decide (e.1 ∈ seen)))
      (fun e => (decide (e.1 ∈ rest) && !decide (e.2.1 ∈ seen ++ [u])) ||
        (decide (e.2.1 ∈ rest) && !decide (e.1 ∈ seen ++ [u])))
      edges
      (fun e _ => iterEdgesU_split_pointwise u rest seen hu hnd.1
        (fun x hx => hdisj x (List.mem_cons_of_mem _ hx)) e)
    show ((((incidentList edges u).filterMap
        (fun wd => if wd.1 ∈ seen then none else some (u, wd.1, wd.2)))
        ++ iterEdgesUGo edges rest (seen ++ [u])).map f).Perm _
    rw [List.map_append]
    refine ((hih.append_left _).trans ?_)
    rw [hA, ← List.map_append]
    exact (hsplit.map f).symm

theorem flatMap_filter_perm :
    ∀ (keys : List String) (edges : List (String × String × Props)), keys.Nodup →
      (keys.flatMap (fun u => edges.filter (fun e => e.1 == u))).Perm
        (edges.filter (fun e => decide (e.1 ∈ keys))) := by
  intro keys
  induction keys with
  | nil =>
    intro edges _
    have hnil : edges.filter (fun e => decide (e.1 ∈ ([] : List String))) = [] := by
      refine List.filter_eq_nil_iff.mpr ?_
      intro e _
      simp
    rw [hnil]
    exact List.Perm.refl _
  | cons u rest ih =>
    intro edges hnd
    rw [List.nodup_cons] at hnd
    have hsplit := filter_split_perm
      (fun e => decide (e.1 ∈ u :: rest))
      (fun e => e.1 == u)
      (fun e => decide (e.1 ∈ rest))
      edges
      (by
        intro e _
        constructor
        · rw [decide_eq_true_eq, beq_iff_eq, decide_eq_true_eq]
          exact List.mem_cons
        · rintro ⟨hq, hr⟩
          rw [beq_iff_eq] at hq
          rw [decide_eq_true_eq] at hr
          exact hnd.1 (hq ▸ hr))
    rw [List.flatMap_cons]
    exact ((ih edges hnd.2).append_left _).trans hsplit.symm

theorem iterEdges_map_perm {g : NXGraph} (hwf : WFGraph g)
    {α : Type} (f : String × String × Props → α)
    (hf : g.directed = false → ∀ a b p, f (b, a, p) = f (a, b, p)) :
    (g.iterEdges.map f).Perm (g.edges.map f) := by
  unfold NXGraph.iterEdges
  by_cases hd : g.directed = true
  · rw [if_pos hd]
    have h1 := flatMap_filter_perm g.nodeIds g.edges hwf.nodup
    have h2 : g.edges.filter (fun e => decide (e.1 ∈ g.nodeIds)) = g.edges :=
      List.filter_eq_self.mpr (fun e he => decide_eq_true (hwf.srcMem e he))
    rw [h2] at h1
    exact h1.map f
  · rw [if_neg hd]
    have h1 := iterEdgesU_map_perm f (hf (Bool.eq_false_iff.mpr hd)) g.nodeIds []
      g.edges hwf.nodup (fun x _ => List.not_mem_nil x)
    have h2 : g.edges.filter (fun e =>
        (decide (e.1 ∈ g.nodeIds) && !decide (e.2.1 ∈ ([] : List String))) ||
        (decide (e.2.1 ∈ g.nodeIds) && !decide (e.1 ∈ ([] : List String)))) = g.edges := by
      refine List.filter_eq_self.mpr ?_
      intro e he
      refine bor_iff.mpr (Or.inl (band_iff.mpr ⟨decide_eq_true (hwf.srcMem e he), ?_⟩))
      simp
    rw [h2] at h1
    exact h1

theorem setNodeData_mem (acc : List (String × Props)) (i : String) (dd : Props)
    (x : String) (d : Props) :
    (x, d) ∈ setNodeData acc i dd ↔
      ((x = i ∧ d = dd ∧ i ∈ acc.map Prod.fst) ∨ (x ≠ i ∧ (x, d) ∈ acc)) := by
  unfold setNodeData
  rw [List.mem_map]
  constructor
  · rintro ⟨nd, hnd, heq⟩
    by_cases h : nd.1 = i
    · rw [if_pos h] at heq
      injection heq with h1 h2
      exact Or.inl ⟨h1.symm.trans h, h2.symm, List.mem_map.mpr ⟨nd, hnd, h⟩⟩
    · rw [if_neg h] at heq
      have hfst : nd.1 = x := congrArg Prod.fst heq
      refine Or.inr ⟨fun hc => h (hfst.symm ▸ hc), heq ▸ hnd⟩
  · rintro (⟨rfl, rfl, hi⟩ | ⟨hne, hmem⟩)
    · rcases List.mem_map.mp hi with ⟨nd, hnd, hfst⟩
      refine ⟨nd, hnd, ?_⟩
      rw [if_pos hfst, hfst]
    · refine ⟨(x, d), hmem, ?_⟩
      rw [if_neg hne]

theorem foldl_setNodeData_write_mem (m : String → String) :
    ∀ (l : List (String × Props)) (acc : List (String × Props)),
      (l.map (fun nd => m nd.1)).Nodup →
      (∀ nd ∈ l, m nd.1 ∈ acc.map Prod.fst) →
      ∀ x d, ((x, d) ∈ l.foldl (fun acc nd => setNodeData acc (m nd.1) nd.2) acc ↔
        ((∃ nd ∈ l, m nd.1 = x ∧ nd.2 = d) ∨
         ((x, d) ∈ acc ∧ ∀ nd ∈ l, m nd.1 ≠ x))) := by
  intro l
  induction l with
  | nil =>
    intro acc _ _ x d
    simp
  | cons nd rest ih =>
    intro acc hnd hmem x d
    rw [List.map_cons, List.nodup_cons] at hnd
    rw [List.foldl_cons]
    have hacc' : ∀ nd' ∈ rest, m nd'.1 ∈ (setNodeData acc (m nd.1) nd.2).map Prod.fst := by
      intro nd' hnd'
      rw [setNodeData_map_fst]
      exact hmem nd' (List.mem_cons_of_mem _ hnd')
    rw [ih (setNodeData acc (m nd.1) nd.2) hnd.2 hacc' x d, setNodeData_mem]
    constructor
    · rintro (⟨nd', hnd', hx, hd⟩ | ⟨hin, hrest⟩)
      · exact Or.inl ⟨nd', List.mem_cons_of_mem _ hnd', hx, hd⟩
      · rcases hin with ⟨hxi, hd, _⟩ | ⟨hne, hmem'⟩
        · exact Or.inl ⟨nd, List.mem_cons_self _ _, hxi.symm, hd.symm⟩
        · refine Or.inr ⟨hmem', ?_⟩
          intro nd' hnd'
          rcases List.mem_cons.mp hnd' with rfl | h'
          · exact fun hc => hne hc.symm
          · exact hrest nd' h'
    · rintro (⟨nd', hnd', hx, hd⟩ | ⟨hmem', hnone⟩)
      · rcases List.mem_cons.mp hnd' with rfl | h'
        · refine Or.inr ⟨Or.inl ⟨hx.symm, hd.symm, hmem nd' (List.mem_cons_self _ _)⟩, ?_⟩
          intro nd'' hnd'' hc
          exact hnd.1 (List.mem_map.mpr ⟨nd'', hnd'', hc.trans hx.symm⟩)
        · exact Or.inl ⟨nd', h', hx, hd⟩
      · have hhead : m nd.1 ≠ x := hnone nd (List.mem_cons_self _ _)
        exact Or.inr ⟨Or.inr ⟨fun hc => hhead hc.symm, hmem'⟩,
          fun nd' h' => hnone nd' (List.mem_cons_of_mem _ h')⟩

theorem sortSourceTarget_flip (a b : String) (p : Props) :
    sortSourceTarget (b, a, p) = sortSourceTarget (a, b, p) := by
  unfold sortSourceTarget
  dsimp only
  by_cases h1 : pyStrLt a b = true
  · rw [if_pos h1, if_neg ?_]
    exact fun hc => Bool.noConfusion ((pyStrLt_asymm h1).symm.trans hc)
  · rw [if_neg h1]
    by_cases h2 : pyStrLt b a = true
    · rw [if_pos h2]
    · have hab : a = b := pyStrLt_antisymm (Bool.eq_false_iff.mpr h1) (Bool.eq_false_iff.mpr h2)
      rw [if_neg h2, hab]

theorem stabEdgeF_flip (dir : Bool) (hdir : dir = false) (a b : String) (p : Props) :
    stabEdgeF dir (b, a, p) = stabEdgeF dir (a, b, p) := by
  subst hdir
  unfold stabEdgeF
  rw [if_neg (fun hc => Bool.noConfusion hc), if_neg (fun hc => Bool.noConfusion hc)]
  exact sortSourceTarget_flip a b p

theorem pairOf_stabEdgeF (dir : Bool) (e : String × String × Props) :
    pairOf (stabEdgeF dir e) = canonPair dir (pairOf e) := by
  unfold stabEdgeF canonPair
  by_cases hd : dir = true
  · rw [if_pos hd, if_pos hd]
  · rw [if_neg hd, if_neg hd]
    exact pairOf_sortSourceTarget e

theorem stabEdgeF_props (dir : Bool) (e : String × String × Props) :
    (stabEdgeF dir e).2.2 = e.2.2 := by
  unfold stabEdgeF
  by_cases hd : dir = true
  · rw [if_pos hd]
  · rw [if_neg hd]
    unfold sortSourceTarget
    by_cases h : pyStrLt e.2.1 e.1 = true
    · rw [if_pos h]
    · rw [if_neg h]

theorem canonPair_of_stabEdgeF (dir : Bool) (e : String × String × Props) :
    canonPair dir (pairOf (stabEdgeF dir e)) = pairOf (stabEdgeF dir e) := by
  rw [pairOf_stabEdgeF]
  unfold canonPair
  by_cases hd : dir = true
  · rw [if_pos hd, if_pos hd]
  · rw [if_neg hd, if_neg hd]
    exact sortPair_idem _

theorem map_filter_eq_filterMap {α β : Type} (f : α → β) (p : α → Bool) :
    ∀ l : List α,
      (l.filter p).map f = l.filterMap (fun x => if p x then some (f x) else none) := by
  intro l
  induction l with
  | nil => rfl
  | cons x rest ih =>
    rw [List.filterMap_cons]
    by_cases h : p x = true
    · rw [if_pos h, List.filter_cons_of_pos h, List.map_cons, ih]
    · rw [if_neg h, List.filter_cons_of_neg h, ih]

theorem filterMap_congr' {α β : Type} (f g : α → Option β) :
    ∀ l : List α, (∀ x ∈ l, f x = g x) → l.filterMap f = l.filterMap g := by
  intro l
  induction l with
  | nil => intro _; rfl
  | cons x rest ih =>
    intro h
    rw [List.filterMap_cons, List.filterMap_cons, h x (List.mem_cons_self _ _),
      ih (fun y hy => h y (List.mem_cons_of_mem _ hy))]

theorem relabel_nodes_nodes {g : NXGraph} (hwf : WFGraph g) (m : String → String) :
    (relabel_nodes g m).nodes
      = g.nodes.foldl (fun acc nd => setNodeData acc (m nd.1) nd.2)
          ((dedupKeepFirst (g.nodeIds.map m)).map (fun i => (i, ([] : Props)))) := by
  unfold relabel_nodes
  refine addEdgesFrom_nodes_of_mem _ _ ?_
  intro e he
  rcases List.mem_map.mp he with ⟨e0, he0, heq⟩
  rcases iterEdges_endpoints_mem hwf he0 with ⟨h1, h2⟩
  rw [relabel_base_nodeIds, ← heq]
  constructor
  · exact (dedupKeepFirst_mem _ _).mpr (List.mem_map.mpr ⟨e0.1, h1, rfl⟩)
  · exact (dedupKeepFirst_mem _ _).mpr (List.mem_map.mpr ⟨e0.2.1, h2, rfl⟩)

theorem relabel_nodes_mem {g : NXGraph} (hwf : WFGraph g) (m : String → String)
    (hinjg : (g.nodeIds.map m).Nodup) (x : String) (d : Props) :
    (x, d) ∈ (relabel_nodes g m).nodes ↔ ∃ nd ∈ g.nodes, m nd.1 = x ∧ nd.2 = d := by
  rw [relabel_nodes_nodes hwf m]
  have hmapm : g.nodes.map (fun nd => m nd.1) = g.nodeIds.map m := by
    unfold NXGraph.nodeIds
    rw [List.map_map]
    rfl
  have hinit : ∀ nd ∈ g.nodes,
      m nd.1 ∈ ((dedupKeepFirst (g.nodeIds.map m)).map (fun i => (i, ([] : Props)))).map
        Prod.fst := by
    intro nd hnd
    have : ((dedupKeepFirst (g.nodeIds.map m)).map (fun i => (i, ([] : Props)))).map Prod.fst
        = dedupKeepFirst (g.nodeIds.map m) := by
      rw [List.map_map]
      exact List.map_id _
    rw [this, dedupKeepFirst_mem]
    exact List.mem_map.mpr ⟨nd.1, List.mem_map.mpr ⟨nd, hnd, rfl⟩, rfl⟩
  rw [foldl_setNodeData_write_mem m g.nodes _ (by rw [hmapm]; exact hinjg) hinit x d]
  constructor
  · rintro (h | ⟨hin, hnone⟩)
    · exact h
    · rcases List.mem_map.mp hin with ⟨i, hi, heq⟩
      have hix : i = x := congrArg Prod.fst heq
      rcases List.mem_map.mp ((dedupKeepFirst_mem _ _).mp (hix ▸ hi)) with ⟨j, hj, hji⟩
      rcases List.mem_map.mp hj with ⟨nd, hnd, hfst⟩
      exact absurd (by rw [hfst]; exact hji) (hnone nd hnd)
  · intro h
    exact Or.inl h

theorem stab_edges1_eq (g : NXGraph) :
    (if g.directed then g.iterEdges else g.iterEdges.map sortSourceTarget)
      = g.iterEdges.map (stabEdgeF g.directed) := by
  by_cases hd : g.directed = true
  · rw [if_pos hd]
    have h := List.map_congr_left (l := g.iterEdges) (f := stabEdgeF g.directed)
      (g := fun e => e)
      (by
        intro e _
        show stabEdgeF g.directed e = e
        unfold stabEdgeF
        rw [if_pos hd])
    rw [h, List.map_id']
  · rw [if_neg hd]
    refine List.map_congr_left ?_
    intro e _
    show sortSourceTarget e = stabEdgeF g.directed e
    unfold stabEdgeF
    rw [if_neg hd]

theorem stabilize_graph_edges_of_distinct {g : NXGraph}
    (hpw : (sortBy edgeLt (g.iterEdges.map (stabEdgeF g.directed))).Pairwise
      (fun e1 e2 => edgeMatches g.directed e2.1 e2.2.1 e1 = false)) :
    (stabilize_graph g).edges = sortBy edgeLt (g.iterEdges.map (stabEdgeF g.directed)) := by
  unfold stabilize_graph
  dsimp only
  rw [stab_edges1_eq]
  have hfixededges : ((emptyGraph g.directed).addNodesFrom (sortBy nodeLt g.nodes)).edges
      = [] := by
    rw [addNodesFrom_edges]
    rfl
  have hfixeddir : ((emptyGraph g.directed).addNodesFrom (sortBy nodeLt g.nodes)).directed
      = g.directed := by
    rw [addNodesFrom_directed]
    rfl
  have hnm : ∀ e2 ∈ sortBy edgeLt (g.iterEdges.map (stabEdgeF g.directed)),
      ∀ e1 ∈ ((emptyGraph g.directed).addNodesFrom (sortBy nodeLt g.nodes)).edges,
      edgeMatches ((emptyGraph g.directed).addNodesFrom (sortBy nodeLt g.nodes)).directed
        e2.1 e2.2.1 e1 = false := by
    intro e2 _ e1 he1
    rw [hfixededges] at he1
    exact absurd he1 (List.not_mem_nil e1)
  have hpw' : (sortBy edgeLt (g.iterEdges.map (stabEdgeF g.directed))).Pairwise
      (fun e1 e2 =>
        edgeMatches ((emptyGraph g.directed).addNodesFrom (sortBy nodeLt g.nodes)).directed
          e2.1 e2.2.1 e1 = false) := by
    refine hpw.imp ?_
    intro e1 e2 h12
    rw [hfixeddir]
    exact h12
  rw [addEdgesFrom_edges_of_no_match _ _ hnm hpw', hfixededges]
  rfl

theorem relabel_nodes_edges_of_distinct {g : NXGraph} (m : String → String)
    (hpw : (g.iterEdges.map (fun e => (m e.1, m e.2.1, e.2.2))).Pairwise
      (fun e1 e2 => edgeMatches g.directed e2.1 e2.2.1 e1 = false)) :
    (relabel_nodes g m).edges = g.iterEdges.map (fun e => (m e.1, m e.2.1, e.2.2)) := by
  unfold relabel_nodes
  have hnm : ∀ e2 ∈ g.iterEdges.map (fun e => (m e.1, m e.2.1, e.2.2)),
      ∀ e1 ∈ (NXGraph.edges
        { directed := g.directed,
          nodes := g.nodes.foldl (fun acc nd => setNodeData acc (m nd.1) nd.2)
            ((dedupKeepFirst (g.nodeIds.map m)).map (fun i => (i, ([] : Props)))),
          edges := [] }),
      edgeMatches (NXGraph.directed
        { directed := g.directed,
          nodes := g.nodes.foldl (fun acc nd => setNodeData acc (m nd.1) nd.2)
            ((dedupKeepFirst (g.nodeIds.map m)).map (fun i => (i, ([] : Props)))),
          edges := [] }) e2.1 e2.2.1 e1 = false := by
    intro e2 _ e1 he1
    exact absurd he1 (List.not_mem_nil e1)
  have hpw' : (g.iterEdges.map (fun e => (m e.1, m e.2.1, e.2.2))).Pairwise
      (fun e1 e2 =>
        edgeMatches (NXGraph.directed
          { directed := g.directed,
            nodes := g.nodes.foldl (fun acc nd => setNodeData acc (m nd.1) nd.2)
              ((dedupKeepFirst (g.nodeIds.map m)).map (fun i => (i, ([] : Props)))),
            edges := [] }) e2.1 e2.2.1 e1 = false) := hpw
  rw [addEdgesFrom_edges_of_no_match _ _ hnm hpw']
  rfl

theorem pickMaxByLen_eq_none {l : List (List String)} :
    pickMaxByLen l = none ↔ l = [] := by
  match l with
  | [] => exact ⟨fun _ => rfl, fun _ => rfl⟩
  | c :: cs =>
    constructor
    · intro h
      exact absurd h (by unfold pickMaxByLen; exact fun hc => Option.noConfusion hc)
    · intro h
      exact absurd h (List.cons_ne_nil _ _)

theorem relabel_sorted_nodes_eq {ga gb : NXGraph} (hwfa : WFGraph ga) (hwfb : WFGraph gb)
    (m : String → String) (hperm : ga.nodes.Perm gb.nodes)
    (hinja : (ga.nodeIds.map m).Nodup) :
    sortBy nodeLt (relabel_nodes ga m).nodes = sortBy nodeLt (relabel_nodes gb m).nodes := by
  have hinjb : (gb.nodeIds.map m).Nodup := (((hperm.map Prod.fst).map m).nodup_iff).mp hinja
  have hpairmem : ∀ x d, (x, d) ∈ (relabel_nodes ga m).nodes ↔
      (x, d) ∈ (relabel_nodes gb m).nodes := by
    intro x d
    rw [relabel_nodes_mem hwfa m hinja x d, relabel_nodes_mem hwfb m hinjb x d]
    constructor
    · rintro ⟨nd, hnd, h⟩
      exact ⟨nd, hperm.mem_iff.mp hnd, h⟩
    · rintro ⟨nd, hnd, h⟩
      exact ⟨nd, hperm.mem_iff.mpr hnd, h⟩
  have hnda : ((relabel_nodes ga m).nodes.map Prod.fst).Nodup := by
    have h : (relabel_nodes ga m).nodeIds.Nodup := by
      rw [relabel_nodes_nodeIds hwfa m]
      exact dedupKeepFirst_nodup _
    exact h
  have hndb : ((relabel_nodes gb m).nodes.map Prod.fst).Nodup := by
    have h : (relabel_nodes gb m).nodeIds.Nodup := by
      rw [relabel_nodes_nodeIds hwfb m]
      exact dedupKeepFirst_nodup _
    exact h
  have hpermAB : (relabel_nodes ga m).nodes.Perm (relabel_nodes gb m).nodes := by
    refine perm_of_nodup_mem_iff hnda.of_map hndb.of_map ?_
    intro p
    obtain ⟨x, d⟩ := p
    exact hpairmem x d
  refine sorted_lists_eq nodeLt
    ((sortBy_perm _ _).trans (hpermAB.trans (sortBy_perm _ _).symm))
    (sortBy_pairwise nodeLt nodeLt_trans nodeLt_asymm _)
    (sortBy_pairwise nodeLt nodeLt_trans nodeLt_asymm _) ?_
  intro a b ha hb h1 h2
  have hfst : a.1 = b.1 := pyStrLt_antisymm h1 h2
  have ha' : a ∈ (relabel_nodes ga m).nodes := (sortBy_perm _ _).mem_iff.mp ha
  have hb' : b ∈ (relabel_nodes ga m).nodes :=
    hpermAB.mem_iff.mpr ((sortBy_perm _ _).mem_iff.mp hb)
  exact List.inj_on_of_nodup_map hnda ha' hb' hfst

theorem keyC_flip (dir : Bool) (hdf : dir = false) (a b : String) (p : Props) :
    keyC dir (b, a, p) = keyC dir (a, b, p) := by
  subst hdf
  unfold keyC pairOf
  rw [canonPair_false, canonPair_false]
  dsimp only
  rw [sortPair_flip]

theorem normKey_flip (dir : Bool) (hdf : dir = false) (m : String → String)
    (a b : String) (p : Props) :
    normKey dir m (b, a, p) = normKey dir m (a, b, p) := by
  subst hdf
  unfold normKey
  dsimp only
  rw [canonPair_false, canonPair_false, sortPair_flip]

theorem edgeKeyOf_stabEdgeF (dir : Bool) (e : String × String × Props) :
    edgeKeyOf (stabEdgeF dir e) = keyC dir e := by
  unfold edgeKeyOf keyC
  rw [← pairOf_stabEdgeF]
  rfl

theorem filterMap_id_map {α β : Type} (f : α → Option β) :
    ∀ l : List α, (l.map f).filterMap id = l.filterMap f := by
  intro l
  induction l with
  | nil => rfl
  | cons x rest ih =>
    rw [List.map_cons, List.filterMap_cons, List.filterMap_cons]
    cases hfx : f x
    · rw [ih]
      rfl
    · rw [ih]
      rfl

theorem relabel_stab_edge_items {g : NXGraph} (hwf : WFGraph g) (c : List String)
    (m : String → String) (dir : Bool) (hd : g.directed = dir)
    (hkeys : (g.edges.map (normKey dir m)).Nodup) :
    ((relabel_nodes (g.subgraphCopy c) m).iterEdges.map (stabEdgeF dir)).Perm
      (g.edges.filterMap (fun e =>
        if decide (e.1 ∈ c) && decide (e.2.1 ∈ c)
        then some (stabEdgeF dir (m e.1, m e.2.1, e.2.2)) else none))
    ∧ (((relabel_nodes (g.subgraphCopy c) m).iterEdges.map (stabEdgeF dir)).map
        edgeKeyOf).Nodup := by
  have hwfsub : WFGraph (g.subgraphCopy c) := wf_subgraphCopy hwf c
  have hsubdir : (g.subgraphCopy c).directed = dir := hd
  have hwfG2 : WFGraph (relabel_nodes (g.subgraphCopy c) m) := wf_relabel_nodes _ _
  have hG2dir : (relabel_nodes (g.subgraphCopy c) m).directed = dir := by
    rw [relabel_nodes_directed]
    exact hd
  have hk_iter_g : (g.iterEdges.map (normKey dir m)).Nodup := by
    refine ((iterEdges_map_perm hwf (normKey dir m) ?_).nodup_iff).mpr hkeys
    intro hdf a b p
    exact normKey_flip dir (hd ▸ hdf) m a b p
  have hsubedges : (g.subgraphCopy c).edges
      = g.iterEdges.filter (fun e => decide (e.1 ∈ c) && decide (e.2.1 ∈ c)) := rfl
  have hk_sub : ((g.subgraphCopy c).edges.map (normKey dir m)).Nodup := by
    rw [hsubedges]
    exact hk_iter_g.sublist ((List.filter_sublist _).map _)
  have hk_iter_sub : ((g.subgraphCopy c).iterEdges.map (normKey dir m)).Nodup := by
    refine ((iterEdges_map_perm hwfsub (normKey dir m) ?_).nodup_iff).mpr hk_sub
    intro hdf a b p
    exact normKey_flip dir (hsubdir ▸ hdf) m a b p
  have hpwsub : ((g.subgraphCopy c).iterEdges.map
        (fun e => (m e.1, m e.2.1, e.2.2))).Pairwise
      (fun e1 e2 => edgeMatches (g.subgraphCopy c).directed e2.1 e2.2.1 e1 = false) := by
    rw [List.pairwise_map]
    have hne : (g.subgraphCopy c).iterEdges.Pairwise
        (fun x y => normKey dir m x ≠ normKey dir m y) :=
      List.pairwise_map.mp hk_iter_sub
    refine hne.imp ?_
    intro x y hxy
    rw [hsubdir]
    refine Bool.eq_false_iff.mpr ?_
    intro hc
    have hcp := edgeMatches_iff_canonPair.mp hc
    refine hxy ?_
    exact congrArg (fun p : String × String => edgeKeyStr p.1 p.2) hcp
  have hG2edges : (relabel_nodes (g.subgraphCopy c) m).edges
      = (g.subgraphCopy c).iterEdges.map (fun e => (m e.1, m e.2.1, e.2.2)) :=
    relabel_nodes_edges_of_distinct m hpwsub
  have hperm1 : ((relabel_nodes (g.subgraphCopy c) m).iterEdges.map (stabEdgeF dir)).Perm
      ((relabel_nodes (g.subgraphCopy c) m).edges.map (stabEdgeF dir)) :=
    iterEdges_map_perm hwfG2 (stabEdgeF dir)
      (fun hdf a b p => stabEdgeF_flip dir (hG2dir ▸ hdf) a b p)
  have hstep4 : ((relabel_nodes (g.subgraphCopy c) m).edges.map (stabEdgeF dir))
      = (g.subgraphCopy c).iterEdges.map
          (fun e => stabEdgeF dir (m e.1, m e.2.1, e.2.2)) := by
    rw [hG2edges, List.map_map]
    rfl
  have hperm2 : ((g.subgraphCopy c).iterEdges.map
        (fun e => stabEdgeF dir (m e.1, m e.2.1, e.2.2))).Perm
      ((g.subgraphCopy c).edges.map
        (fun e => stabEdgeF dir (m e.1, m e.2.1, e.2.2))) :=
    iterEdges_map_perm hwfsub _ (fun hdf a b p => by
      dsimp only
      exact stabEdgeF_flip dir (hsubdir ▸ hdf) (m a) (m b) p)
  have hstep6 : ((g.subgraphCopy c).edges.map
        (fun e => stabEdgeF dir (m e.1, m e.2.1, e.2.2)))
      = g.iterEdges.filterMap (fun e =>
          if decide (e.1 ∈ c) && decide (e.2.1 ∈ c)
          then some (stabEdgeF dir (m e.1, m e.2.1, e.2.2)) else none) := by
    rw [hsubedges]
    exact map_filter_eq_filterMap _ _ _
  have hperm3 : (g.iterEdges.map (fun e =>
        if decide (e.1 ∈ c) && decide (e.2.1 ∈ c)
        then some (stabEdgeF dir (m e.1, m e.2.1, e.2.2)) else none)).Perm
      (g.edges.map (fun e => if decide (e.1 ∈ c) && decide (e.2.1 ∈ c)
        then some (stabEdgeF dir (m e.1, m e.2.1, e.2.2)) else none)) :=
    iterEdges_map_perm hwf _ (fun hdf a b p => by
      dsimp only
      rw [Bool.and_comm, stabEdgeF_flip dir (hd ▸ hdf) (m a) (m b) p])
  have hperm7 : (g.iterEdges.filterMap (fun e =>
        if decide (e.1 ∈ c) && decide (e.2.1 ∈ c)
        then some (stabEdgeF dir (m e.1, m e.2.1, e.2.2)) else none)).Perm
      (g.edges.filterMap (fun e =>
        if decide (e.1 ∈ c) && decide (e.2.1 ∈ c)
        then some (stabEdgeF dir (m e.1, m e.2.1, e.2.2)) else none)) := by
    rw [← filterMap_id_map _ g.iterEdges, ← filterMap_id_map _ g.edges]
    exact hperm3.filterMap id
  constructor
  · refine hperm1.trans ?_
    rw [hstep4]
    refine hperm2.trans ?_
    rw [hstep6]
    exact hperm7
  · have hkeymap : (((relabel_nodes (g.subgraphCopy c) m).iterEdges.map
        (stabEdgeF dir)).map edgeKeyOf)
        = (relabel_nodes (g.subgraphCopy c) m).iterEdges.map (keyC dir) := by
      rw [List.map_map]
      refine List.map_congr_left ?_
      intro e _
      exact edgeKeyOf_stabEdgeF dir e
    rw [hkeymap]
    have hpk : ((relabel_nodes (g.subgraphCopy c) m).iterEdges.map (keyC dir)).Perm
        ((relabel_nodes (g.subgraphCopy c) m).edges.map (keyC dir)) :=
      iterEdges_map_perm hwfG2 (keyC dir)
        (fun hdf a b p => keyC_flip dir (hG2dir ▸ hdf) a b p)
    refine hpk.nodup_iff.mpr ?_
    rw [hG2edges, List.map_map]
    have hcomp : (g.subgraphCopy c).iterEdges.map
          (keyC dir ∘ (fun e => (m e.1, m e.2.1, e.2.2)))
        = (g.subgraphCopy c).iterEdges.map (normKey dir m) := by
      refine List.map_congr_left ?_
      intro e _
      rfl
    rw [hcomp]
    exact hk_iter_sub

theorem sorted_stab_pairwise_nonmatch {dir : Bool} {l : List (String × String × Props)}
    (hM : ∀ t ∈ l, ∃ e, t = stabEdgeF dir e)
    (hk : (l.map edgeKeyOf).Nodup) :
    (sortBy edgeLt l).Pairwise (fun e1 e2 => edgeMatches dir e2.1 e2.2.1 e1 = false) := by
  have hkL : ((sortBy edgeLt l).map edgeKeyOf).Nodup :=
    ((sortBy_perm edgeLt l).map edgeKeyOf).nodup_iff.mpr hk
  have hne : (sortBy edgeLt l).Pairwise (fun x y => edgeKeyOf x ≠ edgeKeyOf y) :=
    List.pairwise_map.mp hkL
  refine hne.imp_of_mem ?_
  intro x y hx hy hxy
  refine Bool.eq_false_iff.mpr ?_
  intro hc
  have hcp := edgeMatches_iff_canonPair.mp hc
  rcases hM x ((sortBy_perm edgeLt l).mem_iff.mp hx) with ⟨ex, hex⟩
  rcases hM y ((sortBy_perm edgeLt l).mem_iff.mp hy) with ⟨ey, hey⟩
  have hx' : canonPair dir (pairOf x) = pairOf x := by
    rw [hex]
    exact canonPair_of_stabEdgeF dir ex
  have hy' : canonPair dir (pairOf y) = pairOf y := by
    rw [hey]
    exact canonPair_of_stabEdgeF dir ey
  have hpq : pairOf x = pairOf y := by
    rw [← hx', hcp]
    exact hy'
  exact hxy (congrArg (fun p : String × String => edgeKeyStr p.1 p.2) hpq)

theorem stab_sorted_edges_eq {g1 g2 : NXGraph} (hwf1 : WFGraph g1) (hwf2 : WFGraph g2)
    (m : String → String) (dir : Bool) (hd1 : g1.directed = dir) (hd2 : g2.directed = dir)
    (hedges : g1.edges.Perm g2.edges)
    {c1 c2 : List String} (hc : ∀ x, x ∈ c1 ↔ x ∈ c2)
    (hkeys : (g1.edges.map (normKey dir m)).Nodup) :
    sortBy edgeLt ((relabel_nodes (g1.subgraphCopy c1) m).iterEdges.map (stabEdgeF dir))
      = sortBy edgeLt
          ((relabel_nodes (g2.subgraphCopy c2) m).iterEdges.map (stabEdgeF dir)) := by
  have hkeys2 : (g2.edges.map (normKey dir m)).Nodup :=
    ((hedges.map _).nodup_iff).mp hkeys
  obtain ⟨hp1, hk1⟩ := relabel_stab_edge_items hwf1 c1 m dir hd1 hkeys
  obtain ⟨hp2, hk2⟩ := relabel_stab_edge_items hwf2 c2 m dir hd2 hkeys2
  have hcongr : g2.edges.filterMap (fun e =>
        if decide (e.1 ∈ c1) && decide (e.2.1 ∈ c1)
        then some (stabEdgeF dir (m e.1, m e.2.1, e.2.2)) else none)
      = g2.edges.filterMap (fun e =>
        if decide (e.1 ∈ c2) && decide (e.2.1 ∈ c2)
        then some (stabEdgeF dir (m e.1, m e.2.1, e.2.2)) else none) := by
    refine filterMap_congr' _ _ _ ?_
    intro e _
    rw [decide_eq_decide.mpr (hc e.1), decide_eq_decide.mpr (hc e.2.1)]
  have hRHS : (g1.edges.filterMap (fun e =>
        if decide (e.1 ∈ c1) && decide (e.2.1 ∈ c1)
        then some (stabEdgeF dir (m e.1, m e.2.1, e.2.2)) else none)).Perm
      (g2.edges.filterMap (fun e =>
        if decide (e.1 ∈ c2) && decide (e.2.1 ∈ c2)
        then some (stabEdgeF dir (m e.1, m e.2.1, e.2.2)) else none)) := by
    rw [← hcongr]
    exact hedges.filterMap _
  have hMM : ((relabel_nodes (g1.subgraphCopy c1) m).iterEdges.map (stabEdgeF dir)).Perm
      ((relabel_nodes (g2.subgraphCopy c2) m).iterEdges.map (stabEdgeF dir)) :=
    hp1.trans (hRHS.trans hp2.symm)
  refine sorted_lists_eq edgeLt
    ((sortBy_perm _ _).trans (hMM.trans (sortBy_perm _ _).symm))
    (sortBy_pairwise edgeLt edgeLt_trans edgeLt_asymm _)
    (sortBy_pairwise edgeLt edgeLt_trans edgeLt_asymm _) ?_
  intro a b ha hb h1 h2
  have hkey : edgeKeyOf a = edgeKeyOf b := pyStrLt_antisymm h1 h2
  have ha' : a ∈ (relabel_nodes (g1.subgraphCopy c1) m).iterEdges.map (stabEdgeF dir) :=
    (sortBy_perm _ _).mem_iff.mp ha
  have hb' : b ∈ (relabel_nodes (g1.subgraphCopy c1) m).iterEdges.map (stabEdgeF dir) :=
    hMM.mem_iff.mpr ((sortBy_perm _ _).mem_iff.mp hb)
  exact List.inj_on_of_nodup_map hk1 ha' hb' hkey

/-- C1 (amended): canonicalization is NOT invariant under permutation of
the insertion order in general (ties between equally sized components
are broken by insertion order), but it is invariant for every pair of
well-formed graphs with the same direction flag and permuted node and
edge lists, provided no two connected components have the same size,
node-id normalization is injective on the node ids, and the normalized
canonical "source -> target" edge keys are pairwise distinct. -/
theorem canonicalize_insertion_order_invariant
    (g1 g2 : NXGraph) (hwf1 : WFGraph g1) (hwf2 : WFGraph g2)
    (hdir : g1.directed = g2.directed)
    (hnodes : g1.nodes.Perm g2.nodes)
    (hedges : g1.edges.Perm g2.edges)
    (huniq : ∀ c ∈ g1.connectedComponents, ∀ c' ∈ g1.connectedComponents,
      c.length = c'.length → c = c')
    (hinj : ∀ i ∈ g1.nodeIds, ∀ j ∈ g1.nodeIds,
      normalizeNodeId i = normalizeNodeId j → i = j)
    (hkeys : (g1.edges.map (normKey g1.directed normalizeNodeId)).Nodup) :
    stable_largest_connected_component g1 = stable_largest_connected_component g2 := by
  have hN : ∀ x, x ∈ g1.nodeIds ↔ x ∈ g2.nodeIds := fun x => (hnodes.map Prod.fst).mem_iff
  have hE : ∀ e, e ∈ g1.edges ↔ e ∈ g2.edges := fun e => hedges.mem_iff
  unfold stable_largest_connected_component largest_connected_component
  rcases hp1 : pickMaxByLen g1.connectedComponents with _ | c1
  · have hcc1 : g1.connectedComponents = [] := pickMaxByLen_eq_none.mp hp1
    have hids1 : g1.nodeIds = [] := (connectedComponents_nil_iff g1).mp hcc1
    have hids2 : g2.nodeIds = [] := by
      have hperm : g1.nodeIds.Perm g2.nodeIds := hnodes.map Prod.fst
      rw [hids1] at hperm
      exact hperm.symm.eq_nil
    have hcc2 : g2.connectedComponents = [] := (connectedComponents_nil_iff g2).mpr hids2
    rw [pickMaxByLen_eq_none.mpr hcc2]
    rfl
  · rcases hp2 : pickMaxByLen g2.connectedComponents with _ | c2
    · have hcc2 : g2.connectedComponents = [] := pickMaxByLen_eq_none.mp hp2
      have hids2 : g2.nodeIds = [] := (connectedComponents_nil_iff g2).mp hcc2
      have hids1 : g1.nodeIds = [] := by
        have hperm : g1.nodeIds.Perm g2.nodeIds := hnodes.map Prod.fst
        rw [hids2] at hperm
        exact hperm.eq_nil
      have hcc1 : g1.connectedComponents = [] := (connectedComponents_nil_iff g1).mpr hids1
      rw [hcc1] at hp1
      simp [pickMaxByLen] at hp1
    · simp only [Option.map_some', Option.some.injEq]
      have hc12 : ∀ x, x ∈ c1 ↔ x ∈ c2 :=
        max_component_mem_iff hwf1 hwf2 hN hE huniq hp1 hp2
      have hwfsub1 : WFGraph (g1.subgraphCopy c1) := wf_subgraphCopy hwf1 c1
      have hwfsub2 : WFGraph (g2.subgraphCopy c2) := wf_subgraphCopy hwf2 c2
      have hwfG21 : WFGraph (relabel_nodes (g1.subgraphCopy c1) normalizeNodeId) :=
        wf_relabel_nodes _ _
      have hwfG22 : WFGraph (relabel_nodes (g2.subgraphCopy c2) normalizeNodeId) :=
        wf_relabel_nodes _ _
      have hG21dir :
          (relabel_nodes (g1.subgraphCopy c1) normalizeNodeId).directed = g1.directed := by
        rw [relabel_nodes_directed]
        rfl
      have hG22dir :
          (relabel_nodes (g2.subgraphCopy c2) normalizeNodeId).directed = g1.directed := by
        rw [relabel_nodes_directed]
        exact hdir.symm
      have hsubnodes : (g1.subgraphCopy c1).nodes.Perm (g2.subgraphCopy c2).nodes := by
        have hfc : g2.nodes.filter (fun nd => decide (nd.1 ∈ c2))
            = g2.nodes.filter (fun nd => decide (nd.1 ∈ c1)) := by
          refine List.filter_congr ?_
          intro nd _
          exact decide_eq_decide.mpr (hc12 nd.1).symm
        show (g1.nodes.filter (fun nd => decide (nd.1 ∈ c1))).Perm
          (g2.nodes.filter (fun nd => decide (nd.1 ∈ c2)))
        rw [hfc]
        exact hnodes.filter _
      have hsubids : ∀ x ∈ (g1.subgraphCopy c1).nodeIds, x ∈ g1.nodeIds := by
        intro x hx
        exact ((List.filter_sublist g1.nodes).map Prod.fst).subset hx
      have hinjsub : ((g1.subgraphCopy c1).nodeIds.map normalizeNodeId).Nodup := by
        refine List.Nodup.map_on ?_ hwfsub1.nodup
        intro x hx y hy hxy
        exact hinj x (hsubids x hx) y (hsubids y hy) hxy
      have hnodeseq :
          (stabilize_graph (relabel_nodes (g1.subgraphCopy c1) normalizeNodeId)).nodes
          = (stabilize_graph (relabel_nodes (g2.subgraphCopy c2) normalizeNodeId)).nodes := by
        rw [stabilize_graph_nodes hwfG21, stabilize_graph_nodes hwfG22]
        exact relabel_sorted_nodes_eq hwfsub1 hwfsub2 normalizeNodeId hsubnodes hinjsub
      obtain ⟨hp1items, hk1⟩ :=
        relabel_stab_edge_items hwf1 c1 normalizeNodeId g1.directed rfl hkeys
      have hkeys2 : (g2.edges.map (normKey g1.directed normalizeNodeId)).Nodup :=
        ((hedges.map _).nodup_iff).mp hkeys
      obtain ⟨hp2items, hk2⟩ :=
        relabel_stab_edge_items hwf2 c2 normalizeNodeId g1.directed hdir.symm hkeys2
      have hL : sortBy edgeLt
            ((relabel_nodes (g1.subgraphCopy c1) normalizeNodeId).iterEdges.map
              (stabEdgeF g1.directed))
          = sortBy edgeLt
            ((relabel_nodes (g2.subgraphCopy c2) normalizeNodeId).iterEdges.map
              (stabEdgeF g1.directed)) :=
        stab_sorted_edges_eq hwf1 hwf2 normalizeNodeId g1.directed rfl hdir.symm
          hedges hc12 hkeys
      have hedgeseq :
          (stabilize_graph (relabel_nodes (g1.subgraphCopy c1) normalizeNodeId)).edges
          = (stabilize_graph (relabel_nodes (g2.subgraphCopy c2) normalizeNodeId)).edges := by
        have hpw1 : (sortBy edgeLt
            ((relabel_nodes (g1.subgraphCopy c1) normalizeNodeId).iterEdges.map
              (stabEdgeF (relabel_nodes (g1.subgraphCopy c1) normalizeNodeId).directed))).Pairwise
            (fun e1 e2 => edgeMatches
              (relabel_nodes (g1.subgraphCopy c1) normalizeNodeId).directed
              e2.1 e2.2.1 e1 = false) := by
          rw [hG21dir]
          refine sorted_stab_pairwise_nonmatch ?_ hk1
          intro t ht
          rcases List.mem_map.mp ht with ⟨e, _, he⟩
          exact ⟨e, he.symm⟩
        have hpw2 : (sortBy edgeLt
            ((relabel_nodes (g2.subgraphCopy c2) normalizeNodeId).iterEdges.map
              (stabEdgeF (relabel_nodes (g2.subgraphCopy c2) normalizeNodeId).directed))).Pairwise
            (fun e1 e2 => edgeMatches
              (relabel_nodes (g2.subgraphCopy c2) normalizeNodeId).directed
              e2.1 e2.2.1 e1 = false) := by
          rw [hG22dir]
          refine sorted_stab_pairwise_nonmatch ?_ hk2
          intro t ht
          rcases List.mem_map.mp ht with ⟨e, _, he⟩
          exact ⟨e, he.symm⟩
        rw [stabilize_graph_edges_of_distinct hpw1, stabilize_graph_edges_of_distinct hpw2,
          hG21dir, hG22dir]
        exact hL
      have hdireq :
          (stabilize_graph (relabel_nodes (g1.subgraphCopy c1) normalizeNodeId)).directed
          = (stabilize_graph (relabel_nodes (g2.subgraphCopy c2) normalizeNodeId)).directed := by
        rw [stabilize_graph_directed, stabilize_graph_directed, hG21dir, hG22dir]
      exact graph_eq_of_parts hdireq hnodeseq hedgeseq

theorem canonicalize_insertion_order_invariant_witness :
    (⟨false, [("b", []), ("a", [])], [("b", "a", [("k", "1")])]⟩ : NXGraph).nodes.Perm
      (⟨false, [("a", []), ("b", [])], [("b", "a", [("k", "1")])]⟩ : NXGraph).nodes ∧
    stable_largest_connected_component
        ⟨false, [("b", []), ("a", [])], [("b", "a", [("k", "1")])]⟩
      = stable_largest_connected_component
        ⟨false, [("a", []), ("b", [])], [("b", "a", [("k", "1")])]⟩ :=
  ⟨by decide,
    canonicalize_insertion_order_invariant
      ⟨false, [("b", []), ("a", [])], [("b", "a", [("k", "1")])]⟩
      ⟨false, [("a", []), ("b", [])], [("b", "a", [("k", "1")])]⟩
      ⟨by decide, by decide, by decide⟩ ⟨by decide, by decide, by decide⟩
      (by decide) (by decide) (by decide) (by decide) (by decide) (by decide)⟩

/-- C1, counterexample to unconditional insertion-order invariance: the
same four nodes and two edges inserted in a different order (two size-2
components, {B, Z} first versus {A, C} first) canonicalize to different
node sequences, because the size tie is broken by insertion order. -/
theorem canonicalize_order_dependence_counterexample :
    ∃ H1 H2,
      stable_largest_connected_component
        ⟨false, [("B", []), ("Z", []), ("A", []), ("C", [])],
          [("B", "Z", []), ("A", "C", [])]⟩ = some H1 ∧
      stable_largest_connected_component
        ⟨false, [("A", []), ("C", []), ("B", []), ("Z", [])],
          [("A", "C", []), ("B", "Z", [])]⟩ = some H2 ∧
      (⟨false, [("B", []), ("Z", []), ("A", []), ("C", [])],
        [("B", "Z", []), ("A", "C", [])]⟩ : NXGraph).nodes.Perm
        (⟨false, [("A", []), ("C", []), ("B", []), ("Z", [])],
          [("A", "C", []), ("B", "Z", [])]⟩ : NXGraph).nodes ∧
      (⟨false, [("B", []), ("Z", []), ("A", []), ("C", [])],
        [("B", "Z", []), ("A", "C", [])]⟩ : NXGraph).edges.Perm
        (⟨false, [("A", []), ("C", []), ("B", []), ("Z", [])],
          [("A", "C", []), ("B", "Z", [])]⟩ : NXGraph).edges ∧
      H1.nodeIds = ["B", "Z"] ∧ H2.nodeIds = ["A", "C"] ∧ H1 ≠ H2 :=
  ⟨⟨false, [("B", []), ("Z", [])], [("B", "Z", [])]⟩,
    ⟨false, [("A", []), ("C", [])], [("A", "C", [])]⟩,
    by decide, by decide, by decide, by decide, by decide, by decide, by decide⟩

end LightRAG
